import Mathlib

/-!
# DS-PlusPlus: the `Graph` container of `Graph.h` and the `Set` of `mySet.h`

A shallow embedding of `Graph<T, Func>` (and, in `UniqueContainer`, of `Set<T>`, whose
linked nodes are kept as the sequence of their data):

* `std::unordered_map<T, std::list<std::pair<T,int>>> adjList` is an association list
  read through its first entry for a key (`mapAt` is `unordered_map::at`,
  `mapIndex` is `operator[]` followed by an update of the mapped value).  The order of
  the association list stands for the unspecified iteration order of the hash map.
* `std::unordered_set<T> visited` is a list used as a set (`List.insert`).
* the visitor `func` is arbitrary client code; a run records the sequence of vertices
  it was called on.
* `int` is `Int`; the additions of the program (`distances[u] + weight` in `Graph.h`,
  `size++` and `size--` in `mySet.h`) are wrapped to 32 bits two's complement by
  `wrapInt`.
* loops and recursion that the code runs unboundedly take a `fuel : Nat`; running out
  is the separate error `Error.outOfFuel`, which no C++ run produces.
-/

namespace DSPP

/-- How a modelled call can stop abnormally: `outOfRange` is the `std::out_of_range`
thrown by `unordered_map::at`; `outOfFuel` only says the iteration budget of the model
was too small. -/
inductive Error where
  | outOfRange
  | outOfFuel
deriving DecidableEq, Repr

/-- The class `Graph<T>`: its three data members. -/
structure Graph (T : Type) where
  adjList : List (T × List (T × Int))
  isWeighted : Bool
  isDirected : Bool

/-- Local state shared by the three traversals: the `visited` set and the sequence of
visitor invocations made so far. -/
structure Trav (T : Type) where
  visited : List T
  calls : List T

/-- A traversal either returns normally with its final state, or throws; the visitor
calls made before the throw are kept with the error. -/
abbrev TravResult (T : Type) := Except (Error × List T) (Trav T)

section Store

variable {T : Type} [DecidableEq T] {β : Type}

/-- `unordered_map::at(k)`: the mapped value, `none` standing for `std::out_of_range`. -/
def mapAt : List (T × β) → T → Option β
  | [], _ => none
  | (k, v) :: rest, key => if k = key then some v else mapAt rest key

/-- `f(m[k])` for a mutating `f`: `operator[]` value-initialises an absent key with
`dflt` (a new key is appended), then the mapped value is replaced by `f` of it. -/
def mapIndex : List (T × β) → T → β → (β → β) → List (T × β)
  | [], key, dflt, f => [(key, f dflt)]
  | (k, v) :: rest, key, dflt, f =>
    if k = key then (k, f v) :: rest else (k, v) :: mapIndex rest key dflt f

/-- `Graph(bool weighted = false, bool directed = false)`. -/
def Graph.new (T : Type) (weighted directed : Bool) : Graph T :=
  { adjList := [], isWeighted := weighted, isDirected := directed }

/-- `adjList[vertex] = {}`. -/
def Graph.addVertex (g : Graph T) (vertex : T) : Graph T :=
  { g with adjList := mapIndex g.adjList vertex [] (fun _ => []) }

/-- The weight an edge is stored with: `isWeighted ? weight : 1`. -/
def Graph.effWeight (g : Graph T) (weight : Int) : Int :=
  if g.isWeighted then weight else 1

/-- `addEdge(src, dest, weight)`: `push_back` on `adjList[src]`, and on `adjList[dest]`
when the graph is not directed. -/
def Graph.addEdge (g : Graph T) (src dest : T) (weight : Int) : Graph T :=
  let m1 := mapIndex g.adjList src [] (fun l => l ++ [(dest, g.effWeight weight)])
  if g.isDirected then { g with adjList := m1 }
  else { g with adjList := mapIndex m1 dest [] (fun l => l ++ [(src, g.effWeight weight)]) }

/-- The pair weight `removeEdge` searches for: `isWeighted ? 0 : 1`. -/
def Graph.removeKey (g : Graph T) : Int :=
  if g.isWeighted then 0 else 1

/-- `std::list::remove(value)`: erases every element equal to `value`. -/
def listRemove (l : List (T × Int)) (value : T × Int) : List (T × Int) :=
  l.filter (fun e => decide (e ≠ value))

/-- `removeEdge(src, dest)`. -/
def Graph.removeEdge (g : Graph T) (src dest : T) : Graph T :=
  let m1 := mapIndex g.adjList src [] (fun l => listRemove l (dest, g.removeKey))
  if g.isDirected then { g with adjList := m1 }
  else { g with adjList := mapIndex m1 dest [] (fun l => listRemove l (src, g.removeKey)) }

/-- `clearGraph()`. -/
def Graph.clearGraph (g : Graph T) : Graph T :=
  { g with adjList := [] }

/-- `isEmpty()`. -/
def Graph.isEmpty (g : Graph T) : Bool :=
  g.adjList.isEmpty

/-- The vertex is a key of the adjacency store. -/
def Graph.isKey (g : Graph T) (v : T) : Bool :=
  (mapAt g.adjList v).isSome

/-- The neighbor list stored for `v` (empty when `v` is not a key). -/
def Graph.neighbors (g : Graph T) (v : T) : List (T × Int) :=
  (mapAt g.adjList v).getD []

/-- The mutating calls of the public interface. -/
inductive Op (T : Type) where
  | addVertex (v : T)
  | addEdge (src dest : T) (weight : Int)
  | removeEdge (src dest : T)
  | clearGraph
deriving DecidableEq

/-- One call applied to a graph. -/
def Graph.apply (g : Graph T) : Op T → Graph T
  | .addVertex v => g.addVertex v
  | .addEdge s d w => g.addEdge s d w
  | .removeEdge s d => g.removeEdge s d
  | .clearGraph => g.clearGraph

/-- A sequence of calls applied left to right. -/
def Graph.run (g : Graph T) (ops : List (Op T)) : Graph T :=
  ops.foldl Graph.apply g

end Store

section Traversal

variable {T : Type} [DecidableEq T]

/-- The `for` loop of `dfsUtil` over the neighbor list, `rec` being the recursive call. -/
def dfsNeighbors (rec : T → Trav T → TravResult T) :
    List (T × Int) → Trav T → TravResult T
  | [], st => .ok st
  | (adjVertex, _) :: rest, st =>
    if adjVertex ∈ st.visited then dfsNeighbors rec rest st
    else
      match rec adjVertex st with
      | .ok st1 => dfsNeighbors rec rest st1
      | .error e => .error e

/-- `dfsUtil(vertex, visited, func)`; `fuel` bounds the recursion depth. -/
def dfsUtil (g : Graph T) : Nat → T → Trav T → TravResult T
  | 0, _, st => .error (.outOfFuel, st.calls)
  | fuel + 1, vertex, st =>
    let st1 : Trav T := { visited := st.visited.insert vertex, calls := st.calls ++ [vertex] }
    match mapAt g.adjList vertex with
    | none => .error (.outOfRange, st1.calls)
    | some nbrs => dfsNeighbors (dfsUtil g fuel) nbrs st1

/-- `dfs(startVertex, func)`. -/
def Graph.dfs (g : Graph T) (startVertex : T) (fuel : Nat) : TravResult T :=
  dfsUtil g fuel startVertex { visited := [], calls := [] }

/-- The inner `for` loop of `dfs_stack`: pushes every unvisited neighbor, in list order
(the head of the list is the top of the stack). -/
def dfsStackPush (visited : List T) : List (T × Int) → List T → List T
  | [], stack => stack
  | (adjVertex, _) :: rest, stack =>
    if adjVertex ∈ visited then dfsStackPush visited rest stack
    else dfsStackPush visited rest (adjVertex :: stack)

/-- The `while (!stack.empty())` loop of `dfs_stack`; `fuel` bounds its iterations. -/
def dfsStackLoop (g : Graph T) : Nat → List T → Trav T → TravResult T
  | _, [], st => .ok st
  | 0, _ :: _, st => .error (.outOfFuel, st.calls)
  | fuel + 1, currentVertex :: stack, st =>
    if currentVertex ∈ st.visited then dfsStackLoop g fuel stack st
    else
      let st1 : Trav T :=
        { visited := st.visited.insert currentVertex, calls := st.calls ++ [currentVertex] }
      match mapAt g.adjList currentVertex with
      | none => .error (.outOfRange, st1.calls)
      | some nbrs => dfsStackLoop g fuel (dfsStackPush st1.visited nbrs stack) st1

/-- `dfs_stack(startVertex, func)`. -/
def Graph.dfs_stack (g : Graph T) (startVertex : T) (fuel : Nat) : TravResult T :=
  dfsStackLoop g fuel [startVertex] { visited := [], calls := [] }

/-- The inner `for` loop of `bfs_queue`: every unvisited neighbor is marked visited and
enqueued (the head of the list is the front of the queue). -/
def bfsEnqueue : List (T × Int) → List T → List T → List T × List T
  | [], visited, queue => (visited, queue)
  | (adjVertex, _) :: rest, visited, queue =>
    if adjVertex ∈ visited then bfsEnqueue rest visited queue
    else bfsEnqueue rest (visited.insert adjVertex) (queue ++ [adjVertex])

/-- The `while (!queue.empty())` loop of `bfs_queue`; `fuel` bounds its iterations. -/
def bfsLoop (g : Graph T) : Nat → List T → Trav T → TravResult T
  | _, [], st => .ok st
  | 0, _ :: _, st => .error (.outOfFuel, st.calls)
  | fuel + 1, currentVertex :: queue, st =>
    match mapAt g.adjList currentVertex with
    | none => .error (.outOfRange, st.calls ++ [currentVertex])
    | some nbrs =>
      bfsLoop g fuel (bfsEnqueue nbrs st.visited queue).2
        { visited := (bfsEnqueue nbrs st.visited queue).1, calls := st.calls ++ [currentVertex] }

/-- `bfs_queue(startVertex, func)`. -/
def Graph.bfs_queue (g : Graph T) (startVertex : T) (fuel : Nat) : TravResult T :=
  bfsLoop g fuel [startVertex] { visited := [].insert startVertex, calls := [] }

end Traversal

section ShortestPath

variable {T : Type} [DecidableEq T]

/-- `std::numeric_limits<int>::max()`. -/
def INT_MAX : Int := 2147483647

/-- The value of a 32-bit `int` addition or subtraction whose mathematical result is `x`
(two's complement wrap-around). -/
def wrapInt (x : Int) : Int :=
  (x + 2147483648) % 4294967296 - 2147483648

/-- Assignment `m[k] = v` on a map that is only ever read through `operator[]`. -/
def mapSet {β : Type} (m : T → β) (k : T) (v : β) : T → β :=
  fun x => if x = k then v else m x

/-- The order `operator<` of `std::pair<int, T>`. -/
def pairLt [LT T] (a b : Int × T) : Prop :=
  a.1 < b.1 ∨ (a.1 = b.1 ∧ a.2 < b.2)

instance pairLtDecidable [LT T] [DecidableRel (fun (a b : T) => a < b)] (a b : Int × T) :
    Decidable (pairLt a b) := by
  unfold pairLt
  exact inferInstance

/-- `pq.push(x)` on the min-queue (`std::greater`), kept as an ascending list: `pq.top()`
is the head and `pq.pop()` drops it. -/
def pqPush [LT T] [DecidableRel (fun (a b : T) => a < b)] (x : Int × T) :
    List (Int × T) → List (Int × T)
  | [] => [x]
  | y :: ys => if pairLt y x then y :: pqPush x ys else x :: y :: ys

/-- The state of `dijkstra`: the adjacency store (which `adjList[currentVertex]` can
extend), the maps `distances` and `previousVertices` (read through `operator[]` only, so
an absent key reads as the value-initialised `0`, respectively `T()`), the priority queue
and the visitor calls made so far. -/
structure DijkstraState (T : Type) where
  adjList : List (T × List (T × Int))
  distances : T → Int
  previousVertices : T → T
  pq : List (Int × T)
  calls : List T

/-- The initialisation loop over `adjList`. -/
def dijkstraInit (source : T) :
    List (T × List (T × Int)) → (T → Int) × (T → T) → (T → Int) × (T → T)
  | [], maps => maps
  | (vertex, _) :: rest, maps =>
    dijkstraInit source rest (mapSet maps.1 vertex INT_MAX, mapSet maps.2 vertex source)

/-- The relaxation `for` loop over the neighbor list of `currentVertex`. -/
def relax [LT T] [DecidableRel (fun (a b : T) => a < b)] (currentVertex : T) :
    List (T × Int) → DijkstraState T → DijkstraState T
  | [], st => st
  | (adjVertex, weight) :: rest, st =>
    if st.distances adjVertex > wrapInt (st.distances currentVertex + weight) then
      relax currentVertex rest
        { st with
          distances :=
            mapSet st.distances adjVertex (wrapInt (st.distances currentVertex + weight))
          previousVertices := mapSet st.previousVertices adjVertex currentVertex
          pq := pqPush (wrapInt (st.distances currentVertex + weight), adjVertex) st.pq }
    else relax currentVertex rest st

/-- The `while (!pq.empty())` loop; `fuel` bounds its iterations. -/
def dijkstraLoop [LT T] [DecidableRel (fun (a b : T) => a < b)] :
    Nat → DijkstraState T → Except (Error × List T) (DijkstraState T)
  | fuel, st =>
    match st.pq with
    | [] => .ok st
    | (_, currentVertex) :: pqRest =>
      match fuel with
      | 0 => .error (.outOfFuel, st.calls)
      | fuel1 + 1 =>
        let adjList1 := mapIndex st.adjList currentVertex [] id
        dijkstraLoop fuel1
          (relax currentVertex ((mapAt adjList1 currentVertex).getD [])
            { st with adjList := adjList1, pq := pqRest, calls := st.calls ++ [currentVertex] })

/-- The `while (currentVertex != source)` loop of the report; `path` is the vector being
filled and `fuel` bounds the iterations. The result is already reversed. -/
def walkBack (previousVertices : T → T) (source : T) : Nat → T → List T → Option (List T)
  | fuel, currentVertex, path =>
    if currentVertex = source then some (path ++ [source]).reverse
    else
      match fuel with
      | 0 => none
      | fuel1 + 1 =>
        walkBack previousVertices source fuel1 (previousVertices currentVertex)
          (path ++ [currentVertex])

/-- One block of the report: destination, its distance, its path. -/
structure ReportLine (T : Type) where
  dest : T
  distance : Int
  path : List T

/-- The report loop over `adjList`; `none` when some path loop exceeds `fuel`. -/
def dijkstraReport (source : T) (distances : T → Int) (previousVertices : T → T)
    (fuel : Nat) : List (T × List (T × Int)) → Option (List (ReportLine T))
  | [] => some []
  | (dest, _) :: rest =>
    match walkBack previousVertices source fuel dest [],
        dijkstraReport source distances previousVertices fuel rest with
    | some path, some lines =>
      some ({ dest := dest, distance := distances dest, path := path } :: lines)
    | _, _ => none

/-- What a normally returning `dijkstra` call has done: the visitor calls and the
printed report. -/
structure DijkstraOutput (T : Type) where
  calls : List T
  report : List (ReportLine T)

/-- `dijkstra(source, func)`; `fuel` bounds the iterations of each `while` loop. -/
def Graph.dijkstra [Inhabited T] [LT T] [DecidableRel (fun (a b : T) => a < b)]
    (g : Graph T) (source : T) (fuel : Nat) : Except (Error × List T) (DijkstraOutput T) :=
  let maps := dijkstraInit source g.adjList (fun _ => 0, fun _ => default)
  let st0 : DijkstraState T :=
    { adjList := g.adjList
      distances := mapSet maps.1 source 0
      previousVertices := maps.2
      pq := [(0, source)]
      calls := [] }
  match dijkstraLoop fuel st0 with
  | .error e => .error e
  | .ok st =>
    match dijkstraReport source st.distances st.previousVertices fuel st.adjList with
    | some lines => .ok { calls := st.calls, report := lines }
    | none => .error (.outOfFuel, st.calls)

end ShortestPath

section UniqueContainer

variable {T : Type} [DecidableEq T]

/-- The class `Set<T>` of `mySet.h`: the doubly linked nodes are kept as the sequence of
their `data` from `head` along `next` (so `head == nullptr` is `elems = []` and `tail` is
the last element), together with the counter `size`. The counter is an `int`: `size++`
and `size--` are taken with two's complement wrap-around (`wrapInt`). -/
structure Set (T : Type) where
  elems : List T
  size : Int

/-- `Set()`. -/
def Set.empty : Set T :=
  { elems := [], size := 0 }

/-- The `while (curr != nullptr)` loop of `contains`, started at a node. -/
def containsFrom : List T → T → Bool
  | [], _ => false
  | data :: next, value => if data = value then true else containsFrom next value

/-- `contains(value)`. -/
def Set.contains (s : Set T) (value : T) : Bool :=
  containsFrom s.elems value

/-- `insert(value)`: nothing when the value is contained, else a new node in front. -/
def Set.insert (s : Set T) (value : T) : Set T :=
  if s.contains value = true then s
  else { elems := value :: s.elems, size := wrapInt (s.size + 1) }

/-- The `while (curr != nullptr)` loop of `remove`, started at `head->next`: the nodes
left after unlinking the first node holding `value`, or `none` when the loop runs off the
end without finding one. -/
def removeFrom : List T → T → Option (List T)
  | [], _ => none
  | data :: next, value =>
    if data = value then some next
    else
      match removeFrom next value with
      | some rest => some (data :: rest)
      | none => none

/-- `remove(value)`. -/
def Set.remove (s : Set T) (value : T) : Set T :=
  match s.elems with
  | [] => s
  | data :: next =>
    if data = value then { elems := next, size := wrapInt (s.size - 1) }
    else
      match removeFrom next value with
      | some rest => { elems := data :: rest, size := wrapInt (s.size - 1) }
      | none => s

/-- `clear()`. -/
def Set.clear (_s : Set T) : Set T :=
  { elems := [], size := 0 }

/-- `getSize()`. -/
def Set.getSize (s : Set T) : Int :=
  s.size

/-- The mutating calls of `Set` that the invariant is about. -/
inductive SetOp (T : Type) where
  | insert (value : T)
  | remove (value : T)
  | clear

/-- One call applied to a set. -/
def Set.apply (s : Set T) : SetOp T → Set T
  | .insert v => s.insert v
  | .remove v => s.remove v
  | .clear => s.clear

/-- A sequence of calls applied left to right. -/
def Set.run (s : Set T) (ops : List (SetOp T)) : Set T :=
  ops.foldl Set.apply s

/-- The stored elements are pairwise distinct and `size` is their number, reduced to the
`int` range. -/
def Set.Wellformed (s : Set T) : Prop :=
  s.elems.Nodup ∧ s.size = wrapInt s.elems.length

end UniqueContainer

section Specification

variable {T : Type} [DecidableEq T]

/-- Walks along stored edges: `g.Path s vs v d` says that `vs` is a sequence of vertices
from `s` to `v` in which each vertex is followed by the first component of an entry of
its stored neighbor list, and that `d` is the total weight of the entries chosen. -/
inductive Graph.Path (g : Graph T) (s : T) : List T → T → Int → Prop
  | nil : Graph.Path g s [s] s 0
  | snoc {vs : List T} {u v : T} {d w : Int} :
      Graph.Path g s vs u d → (v, w) ∈ g.neighbors u → Graph.Path g s (vs ++ [v]) v (d + w)

/-- Some walk along stored edges leads from `s` to `v`. -/
def Graph.Reachable (g : Graph T) (s v : T) : Prop :=
  ∃ vs d, g.Path s vs v d

/-- Every vertex named in a neighbor list is a key of the adjacency store. -/
def Graph.Closed (g : Graph T) : Prop :=
  ∀ u v w, (v, w) ∈ g.neighbors u → g.isKey v = true

/-- Every stored edge weight is non-negative. -/
def Graph.NonNegative (g : Graph T) : Prop :=
  ∀ u v w, (v, w) ∈ g.neighbors u → 0 ≤ w

/-- The weight of every walk from `s` that repeats no vertex, extended by one further
stored edge, is below `INT_MAX`. On non-negative weights this is a sufficient condition
for `SumsBelowMax`, and one that can be checked from a bound on the stored weights. -/
def Graph.NoOverflow (g : Graph T) (s : T) : Prop :=
  ∀ vs u d v w, g.Path s vs u d → vs.Nodup → (v, w) ∈ g.neighbors u → d + w < INT_MAX

/-- The number `d` is the minimum total weight over all walks from `s` to `v`. -/
def Graph.IsMinWeight (g : Graph T) (s v : T) (d : Int) : Prop :=
  (∃ vs, g.Path s vs v d) ∧ ∀ vs d1, g.Path s vs v d1 → d ≤ d1

/-- No sum that `dijkstra(s)` forms on non-negative weights reaches the `int` maximum:
the minimum total weight of a vertex, over all walks from `s` to it, plus the weight of a
stored edge leaving that vertex is below `INT_MAX`. -/
def Graph.SumsBelowMax (g : Graph T) (s : T) : Prop :=
  ∀ u d v w, g.IsMinWeight s u d → (v, w) ∈ g.neighbors u → d + w < INT_MAX

/-- The number `n` is the minimum number of edges over all walks from `s` to `v`. -/
def Graph.IsEdgeDist (g : Graph T) (s v : T) (n : Nat) : Prop :=
  (∃ vs d, g.Path s vs v d ∧ vs.length = n + 1) ∧
    ∀ vs d, g.Path s vs v d → n + 1 ≤ vs.length

/-- An iteration budget that suffices for each traversal: one more than the number of
stored keys plus the lengths of their neighbor lists. -/
def Graph.fuelBound (g : Graph T) : Nat :=
  (g.adjList.map (fun kv => (g.neighbors kv.1).length + 1)).sum + 1

/-- Every entry of every stored neighbor list has weight `1`. -/
def Graph.AllOnes (g : Graph T) : Prop :=
  ∀ kv ∈ g.adjList, ∀ e ∈ kv.2, e.2 = 1

/-- Every vertex named in an entry of a stored neighbor list is a key of the store. -/
def Graph.EntriesClosed (g : Graph T) : Prop :=
  ∀ kv ∈ g.adjList, ∀ e ∈ kv.2, g.isKey e.1 = true

/-- The part of `fuelBound` still to be spent once the vertices of `visited` are
visited: the stored keys outside `visited`, each counted with its neighbor list. -/
def Graph.budget (g : Graph T) (visited : List T) : Nat :=
  ((g.adjList.filter (fun kv => decide (kv.1 ∉ visited))).map
    (fun kv => (g.neighbors kv.1).length + 1)).sum

/-- What a depth-first call changes: it appends the calls `ds`, which are new, distinct,
become exactly the newly visited vertices, and have all their neighbors visited. -/
def DfsPost (g : Graph T) (st st1 : Trav T) (ds : List T) : Prop :=
  st1.calls = st.calls ++ ds ∧ ds.Nodup ∧
    (∀ x, x ∈ st1.visited ↔ x ∈ st.visited ∨ x ∈ ds) ∧
    (∀ x ∈ ds, x ∉ st.visited) ∧
    (∀ x ∈ ds, ∀ y w, (y, w) ∈ g.neighbors x → y ∈ st1.visited)

/-- The loop invariant of `dfs_stack`: the calls made so far are distinct and are the
visited set, everything called or stacked is reachable from `start`, every neighbor of a
called vertex is called or stacked, and `start` is called or stacked. -/
def StackInv (g : Graph T) (start : T) (stack : List T) (st : Trav T) : Prop :=
  st.calls.Nodup ∧ (∀ x, x ∈ st.visited ↔ x ∈ st.calls) ∧
    (∀ x ∈ stack, g.Reachable start x) ∧ (∀ x ∈ st.calls, g.Reachable start x) ∧
    (∀ x ∈ st.calls, ∀ y w, (y, w) ∈ g.neighbors x → y ∈ st.calls ∨ y ∈ stack) ∧
    (start ∈ st.calls ∨ start ∈ stack)

/-- The loop invariant of `bfs_queue`, for a level assignment `lev` and the level
`bound` of the vertex dequeued last: the vertices enqueued so far (`calls ++ queue`) are
distinct, are the visited set, each has a walk from `start` of `lev` edges, they stand in
non-decreasing level order, the queue holds levels `bound` and `bound + 1` only, and
`start` is among them at level `0`. -/
def BfsCore (g : Graph T) (start : T) (lev : T → Nat) (bound : Nat)
    (calls queue visited : List T) : Prop :=
  (calls ++ queue).Nodup ∧ (∀ x, x ∈ visited ↔ x ∈ calls ++ queue) ∧
    (∀ x ∈ calls ++ queue, ∃ vs d, g.Path start vs x d ∧ vs.length = lev x + 1) ∧
    (calls ++ queue).Pairwise (fun a b => lev a ≤ lev b) ∧
    (∀ x ∈ queue, bound ≤ lev x ∧ lev x ≤ bound + 1) ∧
    (∀ x ∈ calls, lev x ≤ bound) ∧ start ∈ calls ++ queue ∧ lev start = 0

/-- Every neighbor of a vertex of `calls` is in `all`, at most one level further. -/
def BfsClosed (g : Graph T) (lev : T → Nat) (calls all : List T) : Prop :=
  ∀ x ∈ calls, ∀ y w, (y, w) ∈ g.neighbors x → y ∈ all ∧ lev y ≤ lev x + 1

/-- A walk from `s` whose every initial part is no shorter than the distance currently
recorded for the vertex it ends at. -/
inductive DPath (g : Graph T) (s : T) (dist : T → Int) : List T → T → Int → Prop
  | nil : dist s ≤ 0 → DPath g s dist [s] s 0
  | snoc {vs : List T} {u v : T} {d w : Int} :
      DPath g s dist vs u d → (v, w) ∈ g.neighbors u → dist v ≤ d + w →
      DPath g s dist (vs ++ [v]) v (d + w)

/-- The predecessor links lead from `v` back to `s`: `vs` lists the vertices met, from
`s` to `v`, and the recorded distance never increases towards `s`. -/
inductive Chain (pred : T → T) (dist : T → Int) (s : T) : T → List T → Prop
  | base : Chain pred dist s s [s]
  | step {v : T} {vs : List T} :
      v ≠ s → Chain pred dist s (pred v) vs → dist (pred v) ≤ dist v →
      Chain pred dist s v (vs ++ [v])

/-- The invariant of the main loop of `dijkstra` (all but the relaxation status of the
edges); the queue is in non-decreasing order of its first components, none of which is
below the distance recorded for its vertex. -/
structure DCore (g : Graph T) (source : T) (st : DijkstraState T) : Prop where
  adj : st.adjList = g.adjList
  src : st.distances source = 0
  range : ∀ x, 0 ≤ st.distances x ∧ st.distances x ≤ INT_MAX
  path : ∀ x, g.isKey x = true → st.distances x < INT_MAX →
    ∃ vs, DPath g source st.distances vs x (st.distances x) ∧ vs.Nodup
  queued : ∀ e ∈ st.pq, g.isKey e.2 = true ∧ st.distances e.2 < INT_MAX
  chain : ∀ x, g.isKey x = true →
    ∃ vs, Chain st.previousVertices st.distances source x vs
  link : ∀ x, g.isKey x = true → x ≠ source → st.distances x < INT_MAX →
    g.isKey (st.previousVertices x) = true ∧
      st.distances (st.previousVertices x) < INT_MAX ∧
      ∃ w, (x, w) ∈ g.neighbors (st.previousVertices x) ∧
        st.distances (st.previousVertices x) + w ≤ st.distances x
  unreached : ∀ x, g.isKey x = true → x ≠ source → st.distances x = INT_MAX →
    st.previousVertices x = source
  nonkey : ∀ x, g.isKey x = false → st.distances x = 0
  sorted : st.pq.Pairwise (fun a b => a.1 ≤ b.1)
  bound : ∀ e ∈ st.pq, st.distances e.2 ≤ e.1

/-- Every key other than `u` with a finite distance is still queued with that distance,
or its distance is the minimum total weight from `source` and all its stored edges are
relaxed. -/
def Settled (g : Graph T) (source : T) (u : Option T) (st : DijkstraState T) : Prop :=
  ∀ x, g.isKey x = true → some x ≠ u → st.distances x < INT_MAX →
    (st.distances x, x) ∈ st.pq ∨
      (g.IsMinWeight source x (st.distances x) ∧
        ∀ y w, (y, w) ∈ g.neighbors x → st.distances y ≤ st.distances x + w)

/-- The quantity that every iteration of the main loop of `dijkstra` lowers. -/
def dijkstraMeasure (g : Graph T) (st : DijkstraState T) : Nat :=
  2 * (g.adjList.map (fun kv => (st.distances kv.1).toNat)).sum + st.pq.length

/-- An iteration budget that suffices for `dijkstra` on non-negative weights: every
relaxation lowers one of the `int` distances of the keys. -/
def Graph.dijkstraFuel (g : Graph T) : Nat :=
  2 * (g.adjList.length * 2147483647) + 2

/-- The graph obtained by reversing every stored neighbor list. -/
def Graph.reverseLists (g : Graph T) : Graph T :=
  { g with adjList := g.adjList.map (fun kv => (kv.1, kv.2.reverse)) }

/-- Depth-first processing of a list of candidate vertices, as a relation between the
traversal state before and after: a visited candidate is passed over, an unvisited one
is marked and called, its neighbor list is processed, then the remaining candidates. -/
inductive DfsList (g : Graph T) : List T → Trav T → Trav T → Prop
  | done (st : Trav T) : DfsList g [] st st
  | pass {x : T} {xs : List T} {st st1 : Trav T} :
      x ∈ st.visited → DfsList g xs st st1 → DfsList g (x :: xs) st st1
  | visit {x : T} {xs : List T} {nbrs : List (T × Int)} {st st1 st2 : Trav T} :
      x ∉ st.visited → mapAt g.adjList x = some nbrs →
      DfsList g (nbrs.map (fun e => e.1))
        { visited := st.visited.insert x, calls := st.calls ++ [x] } st1 →
      DfsList g xs st1 st2 → DfsList g (x :: xs) st st2

/-- The unweighted directed graph holding the edge `A -> B` twice. -/
def parallelAB : Graph Char :=
  ((Graph.new Char false true).addEdge 'A' 'B' 1).addEdge 'A' 'B' 1

/-- The unweighted directed graph built by `addEdge(A,B)`, `addEdge(B,C)`,
`addEdge(A,C)`. -/
def directedABC : Graph Char :=
  (((Graph.new Char false true).addEdge 'A' 'B' 1).addEdge 'B' 'C' 1).addEdge 'A' 'C' 1

/-- The weighted undirected graph with the edges `A-B(4)`, `A-C(1)`, `C-B(1)`, built
through the public interface. -/
def triangleABC : Graph Char :=
  (((Graph.new Char true false).addEdge 'A' 'B' 4).addEdge 'A' 'C' 1).addEdge 'C' 'B' 1

/-- The graph `triangleABC` with the further, isolated vertex `V`. -/
def triangleWithV : Graph Char :=
  triangleABC.addVertex 'V'

/-- The weighted undirected graph with the single edge `A-B` of weight `2^30`. -/
def wideEdgeAB : Graph Char :=
  (Graph.new Char true false).addEdge 'A' 'B' 1073741824

/-- The weighted directed graph with the edges `A->B(1)`, `B->C(1)`, `A->C(2^31-3)`,
`C->A(5)`. -/
def shortcutABC : Graph Char :=
  ((((Graph.new Char true true).addEdge 'A' 'B' 1).addEdge 'B' 'C' 1).addEdge
    'A' 'C' 2147483645).addEdge 'C' 'A' 5

/-- The weighted directed graph with the edges `S->X(1)`, `X->Y(2^30)`, `Y->X(2^30)` and
the further, isolated vertex `V`. -/
def cycleSXY : Graph Char :=
  ((((Graph.new Char true true).addEdge 'S' 'X' 1).addEdge 'X' 'Y' 1073741824).addEdge
    'Y' 'X' 1073741824).addVertex 'V'

end Specification

/-! ## The adjacency store -/

section StoreLemmas

variable {T : Type} [DecidableEq T] {β : Type}

theorem mapAt_mapIndex_self (m : List (T × β)) (k : T) (dflt : β) (f : β → β) :
    mapAt (mapIndex m k dflt f) k = some (f ((mapAt m k).getD dflt)) := by
  induction m with
  | nil => simp [mapIndex, mapAt]
  | cons kv rest ih =>
    obtain ⟨k1, v1⟩ := kv
    by_cases h : k1 = k
    · simp [mapIndex, mapAt, h]
    · simp [mapIndex, mapAt, h, ih]

theorem mapAt_mapIndex_ne (m : List (T × β)) (k k2 : T) (dflt : β) (f : β → β)
    (hne : k2 ≠ k) : mapAt (mapIndex m k dflt f) k2 = mapAt m k2 := by
  induction m with
  | nil =>
    have h : ¬ k = k2 := fun h => hne h.symm
    simp [mapIndex, mapAt, h]
  | cons kv rest ih =>
    obtain ⟨k1, v1⟩ := kv
    by_cases h : k1 = k
    · subst h
      have h2 : ¬ k1 = k2 := fun h => hne h.symm
      simp [mapIndex, mapAt, h2]
    · by_cases h2 : k1 = k2
      · subst h2
        simp [mapIndex, mapAt, h]
      · simp [mapIndex, mapAt, h, h2, ih]

theorem mapIndex_id_of_isSome (m : List (T × β)) (k : T) (dflt : β)
    (h : (mapAt m k).isSome = true) : mapIndex m k dflt id = m := by
  induction m with
  | nil => simp [mapAt] at h
  | cons kv rest ih =>
    obtain ⟨k1, v1⟩ := kv
    by_cases h1 : k1 = k
    · simp [mapIndex, h1]
    · simp only [mapAt, h1, if_false] at h
      simp [mapIndex, h1, ih h]

theorem mapIndex_forall (P : β → Prop) (m : List (T × β)) (k : T) (dflt : β) (f : β → β)
    (hm : ∀ kv ∈ m, P kv.2) (hf : ∀ v, P v → P (f v)) (hd : P dflt) :
    ∀ kv ∈ mapIndex m k dflt f, P kv.2 := by
  induction m with
  | nil =>
    intro kv hkv
    simp only [mapIndex, List.mem_singleton] at hkv
    subst hkv
    exact hf _ hd
  | cons kv1 rest ih =>
    obtain ⟨k1, v1⟩ := kv1
    have hrest : ∀ kv ∈ rest, P kv.2 := fun kv hkv => hm kv (List.mem_cons_of_mem _ hkv)
    have hv1 : P v1 := hm (k1, v1) (List.mem_cons_self _ _)
    intro kv hkv
    by_cases h1 : k1 = k
    · simp only [mapIndex, h1, if_true, List.mem_cons] at hkv
      rcases hkv with hkv | hkv
      · subst hkv
        exact hf _ hv1
      · exact hrest kv hkv
    · simp only [mapIndex, h1, if_false, List.mem_cons] at hkv
      rcases hkv with hkv | hkv
      · subst hkv
        exact hv1
      · exact ih hrest kv hkv

theorem mem_of_mapAt_eq_some (m : List (T × β)) (k : T) (v : β) (h : mapAt m k = some v) :
    (k, v) ∈ m := by
  induction m with
  | nil => simp [mapAt] at h
  | cons kv rest ih =>
    obtain ⟨k1, v1⟩ := kv
    by_cases h1 : k1 = k
    · simp only [mapAt, h1, if_true, Option.some.injEq] at h
      simp [h1, h]
    · simp only [mapAt, h1, if_false] at h
      exact List.mem_cons_of_mem _ (ih h)

theorem mapAt_isSome_of_mem (m : List (T × β)) (k : T) (v : β) (h : (k, v) ∈ m) :
    (mapAt m k).isSome = true := by
  induction m with
  | nil => simp at h
  | cons kv rest ih =>
    obtain ⟨k1, v1⟩ := kv
    by_cases h1 : k1 = k
    · simp [mapAt, h1]
    · simp only [mapAt, h1, if_false]
      rcases List.mem_cons.1 h with h2 | h2
      · exact absurd (congrArg Prod.fst h2).symm h1
      · exact ih h2

theorem Graph.mapAt_of_isKey (g : Graph T) (v : T) (h : g.isKey v = true) :
    mapAt g.adjList v = some (g.neighbors v) := by
  unfold Graph.isKey at h
  unfold Graph.neighbors
  cases hm : mapAt g.adjList v with
  | none => simp [hm] at h
  | some l => simp

theorem Graph.mapAt_of_not_isKey (g : Graph T) (v : T) (h : g.isKey v = false) :
    mapAt g.adjList v = none := by
  unfold Graph.isKey at h
  cases hm : mapAt g.adjList v with
  | none => rfl
  | some l => simp [hm] at h

end StoreLemmas

/-! ## Edge insertion, stored weights, absent start vertices -/

section StoreClaims

variable {T : Type} [DecidableEq T]

theorem Graph.neighbors_addEdge_src (g : Graph T) (s d : T) (w : Int) :
    (d, g.effWeight w) ∈ (g.addEdge s d w).neighbors s := by
  have h1 : (d, g.effWeight w) ∈
      ((mapAt (mapIndex g.adjList s [] (fun l => l ++ [(d, g.effWeight w)])) s).getD []) := by
    rw [mapAt_mapIndex_self]
    simp
  unfold Graph.addEdge Graph.neighbors
  by_cases hd : g.isDirected = true
  · simpa [hd] using h1
  · simp only [hd, Bool.false_eq_true, if_false]
    by_cases hsd : s = d
    · subst hsd
      rw [mapAt_mapIndex_self]
      simp only [Option.getD_some, List.mem_append]
      exact Or.inl h1
    · rw [mapAt_mapIndex_ne _ _ _ _ _ hsd]
      exact h1

theorem Graph.neighbors_addEdge_dest (g : Graph T) (s d : T) (w : Int)
    (hd : g.isDirected = false) : (s, g.effWeight w) ∈ (g.addEdge s d w).neighbors d := by
  unfold Graph.addEdge Graph.neighbors
  simp only [hd, Bool.false_eq_true, if_false]
  rw [mapAt_mapIndex_self]
  simp

/-- C7: after `addEdge(s, d, w)` the neighbor list of `s` contains `(d, e)`, where `e` is
`w` in a weighted graph and `1` otherwise, and in an undirected graph the neighbor list
of `d` contains `(s, e)`. -/
theorem addEdge_stores_edge (g : Graph T) (s d : T) (w : Int) :
    (d, if g.isWeighted = true then w else 1) ∈ (g.addEdge s d w).neighbors s ∧
      (g.isDirected = false →
        (s, if g.isWeighted = true then w else 1) ∈ (g.addEdge s d w).neighbors d) :=
  ⟨g.neighbors_addEdge_src s d w, g.neighbors_addEdge_dest s d w⟩

/-- C7 at the undirected weighted graph receiving its first edge `A-B(4)`. -/
theorem addEdge_stores_edge_witness :
    (Graph.new Char true false).isDirected = false ∧
      ('B', (4 : Int)) ∈ ((Graph.new Char true false).addEdge 'A' 'B' 4).neighbors 'A' ∧
      ('A', (4 : Int)) ∈ ((Graph.new Char true false).addEdge 'A' 'B' 4).neighbors 'B' :=
  ⟨rfl, (addEdge_stores_edge (Graph.new Char true false) 'A' 'B' 4).1,
    (addEdge_stores_edge (Graph.new Char true false) 'A' 'B' 4).2 rfl⟩

theorem Graph.allOnes_apply (g : Graph T) (op : Op T) (hw : g.isWeighted = false)
    (h : g.AllOnes) : (g.apply op).isWeighted = false ∧ (g.apply op).AllOnes := by
  have happ : ∀ (x : T × Int), x.2 = 1 →
      ∀ l : List (T × Int), (∀ e ∈ l, e.2 = 1) → ∀ e ∈ l ++ [x], e.2 = 1 := by
    intro x hx l hl e he
    rcases List.mem_append.1 he with he | he
    · exact hl e he
    · rw [List.mem_singleton.1 he]
      exact hx
  have hrem : ∀ (x : T × Int) (l : List (T × Int)),
      (∀ e ∈ l, e.2 = 1) → ∀ e ∈ listRemove l x, e.2 = 1 := by
    intro x l hl e he
    exact hl e (List.mem_of_mem_filter he)
  have hnil : ∀ e ∈ ([] : List (T × Int)), e.2 = 1 := by
    intro e he
    simp at he
  cases op with
  | addVertex v =>
    refine ⟨hw, ?_⟩
    exact mapIndex_forall (fun (l : List (T × Int)) => ∀ e ∈ l, e.2 = 1) g.adjList v [] _ h
      (fun _ _ => hnil) hnil
  | addEdge s d w =>
    have he : g.effWeight w = 1 := by simp [Graph.effWeight, hw]
    have h1 := mapIndex_forall (fun (l : List (T × Int)) => ∀ e ∈ l, e.2 = 1) g.adjList s []
      (fun l => l ++ [(d, g.effWeight w)]) h (happ (d, g.effWeight w) he) hnil
    have h2 := mapIndex_forall (fun (l : List (T × Int)) => ∀ e ∈ l, e.2 = 1) _ d []
      (fun l => l ++ [(s, g.effWeight w)]) h1 (happ (s, g.effWeight w) he) hnil
    by_cases hd : g.isDirected = true
    · refine ⟨by simp [Graph.apply, Graph.addEdge, hd, hw], ?_⟩
      simpa [Graph.apply, Graph.addEdge, hd, Graph.AllOnes] using h1
    · refine ⟨by simp [Graph.apply, Graph.addEdge, hd, hw], ?_⟩
      simpa [Graph.apply, Graph.addEdge, hd, Graph.AllOnes] using h2
  | removeEdge s d =>
    have h1 := mapIndex_forall (fun (l : List (T × Int)) => ∀ e ∈ l, e.2 = 1) g.adjList s []
      (fun l => listRemove l (d, g.removeKey)) h (hrem (d, g.removeKey)) hnil
    have h2 := mapIndex_forall (fun (l : List (T × Int)) => ∀ e ∈ l, e.2 = 1) _ d []
      (fun l => listRemove l (s, g.removeKey)) h1 (hrem (s, g.removeKey)) hnil
    by_cases hd : g.isDirected = true
    · refine ⟨by simp [Graph.apply, Graph.removeEdge, hd, hw], ?_⟩
      simpa [Graph.apply, Graph.removeEdge, hd, Graph.AllOnes] using h1
    · refine ⟨by simp [Graph.apply, Graph.removeEdge, hd, hw], ?_⟩
      simpa [Graph.apply, Graph.removeEdge, hd, Graph.AllOnes] using h2
  | clearGraph =>
    refine ⟨hw, ?_⟩
    intro kv hkv
    simp [Graph.apply, Graph.clearGraph] at hkv

theorem Graph.allOnes_run (ops : List (Op T)) (g : Graph T) (hw : g.isWeighted = false)
    (h : g.AllOnes) : (g.run ops).AllOnes := by
  induction ops generalizing g with
  | nil => exact h
  | cons op rest ih =>
    have h1 := g.allOnes_apply op hw h
    exact ih (g.apply op) h1.1 h1.2

/-- C8: in a graph constructed as unweighted, after any sequence of `addVertex`,
`addEdge` (with arbitrary weight arguments), `removeEdge` and `clearGraph` calls, every
entry of every neighbor list has weight exactly `1`. -/
theorem unweighted_weights_are_one (directed : Bool) (ops : List (Op T))
    (k : T) (l : List (T × Int)) (v : T) (w : Int)
    (hk : (k, l) ∈ ((Graph.new T false directed).run ops).adjList) (hv : (v, w) ∈ l) :
    w = 1 := by
  have h0 : (Graph.new T false directed).AllOnes := by
    intro kv hkv
    simp [Graph.new] at hkv
  exact Graph.allOnes_run ops _ rfl h0 (k, l) hk (v, w) hv

/-- C8 at an undirected unweighted graph after `addEdge(A, B, 7)`. -/
theorem unweighted_weights_are_one_witness :
    ('A', [('B', (1 : Int))]) ∈
        ((Graph.new Char false false).run [Op.addEdge 'A' 'B' 7]).adjList ∧
      ('B', (1 : Int)) ∈ [('B', (1 : Int))] ∧ (1 : Int) = 1 :=
  ⟨by decide, by decide,
    unweighted_weights_are_one false [Op.addEdge 'A' 'B' 7] 'A' [('B', 1)] 'B' 1
      (by decide) (by decide)⟩

/-- C9 (the code at the failing input): in a directed graph `addEdge(A, B)` creates the
key `A` only; `B` is named in the neighbor list of `A` without being a key, and a
traversal from `A` then throws `std::out_of_range` at `B`. -/
theorem addEdge_directed_leaves_dest_absent :
    ((Graph.new Char false true).addEdge 'A' 'B' 1).isKey 'A' = true ∧
      ((Graph.new Char false true).addEdge 'A' 'B' 1).isKey 'B' = false ∧
      ((Graph.new Char false false).addEdge 'A' 'B' 1).isKey 'B' = true ∧
      ((Graph.new Char false true).addEdge 'A' 'B' 1).dfs 'A' 5 =
        .error (Error.outOfRange, ['A', 'B']) :=
  ⟨by decide, by decide, by decide, rfl⟩

/-- C10: when `start` is not a key of the adjacency store, `dfs(start)`,
`dfs_stack(start)` and `bfs_queue(start)` each throw `std::out_of_range` (after the one
visitor call on `start`) instead of returning normally. -/
theorem traversal_of_absent_start_throws (g : Graph T) (start : T) (fuel : Nat)
    (h : g.isKey start = false) :
    g.dfs start (fuel + 1) = .error (Error.outOfRange, [start]) ∧
      g.dfs_stack start (fuel + 1) = .error (Error.outOfRange, [start]) ∧
      g.bfs_queue start (fuel + 1) = .error (Error.outOfRange, [start]) := by
  have hm := g.mapAt_of_not_isKey start h
  refine ⟨?_, ?_, ?_⟩
  · simp [Graph.dfs, dfsUtil, hm]
  · simp [Graph.dfs_stack, dfsStackLoop, hm]
  · simp [Graph.bfs_queue, bfsLoop, hm]

/-- C10 at the graph holding the single edge `A-B`, started at the absent vertex `Z`. -/
theorem traversal_of_absent_start_throws_witness :
    ((Graph.new Char false false).addEdge 'A' 'B' 1).isKey 'Z' = false ∧
      ((Graph.new Char false false).addEdge 'A' 'B' 1).dfs 'Z' 1 =
        .error (Error.outOfRange, ['Z']) ∧
      ((Graph.new Char false false).addEdge 'A' 'B' 1).dfs_stack 'Z' 1 =
        .error (Error.outOfRange, ['Z']) ∧
      ((Graph.new Char false false).addEdge 'A' 'B' 1).bfs_queue 'Z' 1 =
        .error (Error.outOfRange, ['Z']) :=
  ⟨by decide,
    traversal_of_absent_start_throws ((Graph.new Char false false).addEdge 'A' 'B' 1) 'Z' 0
      (by decide)⟩

end StoreClaims

/-! ## Reachability and the traversal budget -/

section Reach

variable {T : Type} [DecidableEq T]

theorem Graph.Path.cons_edge {g : Graph T} {v a x : T} {w d : Int} {vs : List T}
    (he : (a, w) ∈ g.neighbors v) (hp : g.Path a vs x d) :
    g.Path v (v :: vs) x (w + d) := by
  induction hp with
  | nil =>
    have h := Graph.Path.snoc (Graph.Path.nil (g := g) (s := v)) he
    simpa using h
  | snoc _ he2 ih =>
    have h := Graph.Path.snoc ih he2
    simpa [add_assoc] using h

theorem Graph.Reachable.self (g : Graph T) (s : T) : g.Reachable s s :=
  ⟨[s], 0, Graph.Path.nil⟩

theorem Graph.Reachable.tail {g : Graph T} {s u v : T} {w : Int}
    (h : g.Reachable s u) (he : (v, w) ∈ g.neighbors u) : g.Reachable s v := by
  obtain ⟨vs, d, hp⟩ := h
  exact ⟨_, _, Graph.Path.snoc hp he⟩

theorem Graph.Reachable.of_edge {g : Graph T} {v a x : T} {w : Int}
    (he : (a, w) ∈ g.neighbors v) (h : g.Reachable a x) : g.Reachable v x := by
  obtain ⟨vs, d, hp⟩ := h
  exact ⟨_, _, Graph.Path.cons_edge he hp⟩

theorem Graph.Reachable.closure {g : Graph T} {s v : T} (S : T → Prop) (hs : S s)
    (hstep : ∀ x, S x → ∀ y w, (y, w) ∈ g.neighbors x → S y) (h : g.Reachable s v) :
    S v := by
  obtain ⟨vs, d, hp⟩ := h
  induction hp with
  | nil => exact hs
  | snoc _ he ih => exact hstep _ ih _ _ he

theorem Graph.Reachable.isKey {g : Graph T} {s v : T} (hc : g.Closed)
    (hs : g.isKey s = true) (h : g.Reachable s v) : g.isKey v = true :=
  Graph.Reachable.closure (fun x => g.isKey x = true) hs (fun x _ y w he => hc x y w he) h

theorem sum_filter_mono {α : Type} (L : List α) (f : α → Nat) (p q : α → Bool)
    (hqp : ∀ x, q x = true → p x = true) :
    ((L.filter q).map f).sum ≤ ((L.filter p).map f).sum := by
  induction L with
  | nil => simp
  | cons a rest ih =>
    by_cases hq : q a = true
    · have hp := hqp a hq
      simp only [List.filter_cons, hq, hp, if_true, List.map_cons, List.sum_cons]
      omega
    · by_cases hp : p a = true
      · simp only [List.filter_cons, hq, hp, if_true, List.map_cons, List.sum_cons]
        simp only [Bool.false_eq_true, if_false]
        omega
      · simp only [List.filter_cons, hq, hp]
        simpa using ih

theorem sum_filter_drop {α : Type} (L : List α) (f : α → Nat) (p q : α → Bool)
    (hqp : ∀ x, q x = true → p x = true) (e : α) (he : e ∈ L) (hpe : p e = true)
    (hqe : ¬ q e = true) :
    ((L.filter q).map f).sum + f e ≤ ((L.filter p).map f).sum := by
  induction L with
  | nil => simp at he
  | cons a rest ih =>
    rcases List.mem_cons.1 he with h | h
    · subst h
      have hm := sum_filter_mono rest f p q hqp
      simp only [List.filter_cons, hqe, hpe, if_true, List.map_cons, List.sum_cons]
      simp only [Bool.false_eq_true, if_false]
      omega
    · have h1 := ih h
      by_cases hq : q a = true
      · have hp := hqp a hq
        simp only [List.filter_cons, hq, hp, if_true, List.map_cons, List.sum_cons]
        omega
      · by_cases hp : p a = true
        · simp only [List.filter_cons, hq, hp, if_true, List.map_cons, List.sum_cons]
          simp only [Bool.false_eq_true, if_false]
          omega
        · simp only [List.filter_cons, hq, hp]
          simpa using h1

theorem Graph.budget_mono (g : Graph T) (V V1 : List T) (h : ∀ x, x ∈ V → x ∈ V1) :
    g.budget V1 ≤ g.budget V := by
  unfold Graph.budget
  apply sum_filter_mono
  intro kv hkv
  simp only [decide_eq_true_eq] at hkv ⊢
  exact fun hin => hkv (h _ hin)

theorem Graph.budget_visit (g : Graph T) (V V1 : List T) (v : T)
    (hk : g.isKey v = true) (hv : v ∉ V) (h : ∀ x, x ∈ V1 ↔ x = v ∨ x ∈ V) :
    g.budget V1 + (g.neighbors v).length + 1 ≤ g.budget V := by
  have hmem : (v, g.neighbors v) ∈ g.adjList :=
    mem_of_mapAt_eq_some _ _ _ (g.mapAt_of_isKey v hk)
  have hd := sum_filter_drop g.adjList (fun kv => (g.neighbors kv.1).length + 1)
    (fun kv => decide (kv.1 ∉ V)) (fun kv => decide (kv.1 ∉ V1))
    (by
      intro kv hkv
      simp only [decide_eq_true_eq] at hkv ⊢
      exact fun hin => hkv ((h _).2 (Or.inr hin)))
    (v, g.neighbors v) hmem (by simpa using hv)
    (by
      simp only [decide_eq_true_eq, not_not]
      exact (h v).2 (Or.inl rfl))
  unfold Graph.budget
  simp only at hd
  omega

theorem Graph.budget_nil (g : Graph T) : g.budget [] + 1 = g.fuelBound := by
  simp [Graph.budget, Graph.fuelBound]

end Reach

/-! ## Recursive depth-first traversal -/

section Dfs

variable {T : Type} [DecidableEq T]

theorem DfsPost.nil (g : Graph T) (st : Trav T) : DfsPost g st st [] := by
  refine ⟨by simp, List.nodup_nil, by simp, by simp, by simp⟩

theorem DfsPost.trans {g : Graph T} {st st1 st2 : Trav T} {ds1 ds2 : List T}
    (h1 : DfsPost g st st1 ds1) (h2 : DfsPost g st1 st2 ds2) :
    DfsPost g st st2 (ds1 ++ ds2) := by
  obtain ⟨hc1, hn1, hv1, hd1, hcl1⟩ := h1
  obtain ⟨hc2, hn2, hv2, hd2, hcl2⟩ := h2
  refine ⟨?_, ?_, ?_, ?_, ?_⟩
  · rw [hc2, hc1, List.append_assoc]
  · rw [List.nodup_append]
    refine ⟨hn1, hn2, ?_⟩
    intro x hx1 hx2
    exact hd2 x hx2 ((hv1 x).2 (Or.inr hx1))
  · intro x
    rw [hv2, hv1, List.mem_append, or_assoc]
  · intro x hx
    rcases List.mem_append.1 hx with hx | hx
    · exact hd1 x hx
    · exact fun hin => hd2 x hx ((hv1 x).2 (Or.inl hin))
  · intro x hx y w he
    rcases List.mem_append.1 hx with hx | hx
    · exact (hv2 y).2 (Or.inl (hcl1 x hx y w he))
    · exact hcl2 x hx y w he

theorem dfsNeighbors_spec (g : Graph T) (fuel : Nat)
    (rec : T → Trav T → TravResult T)
    (hrec : ∀ v st, g.isKey v = true → v ∉ st.visited → g.budget st.visited ≤ fuel →
      ∃ st1 ds, rec v st = .ok st1 ∧ DfsPost g st st1 (v :: ds) ∧
        ∀ x ∈ ds, g.Reachable v x)
    (nbrs : List (T × Int)) (hk : ∀ a w, (a, w) ∈ nbrs → g.isKey a = true)
    (st : Trav T) (hb : g.budget st.visited ≤ fuel) :
    ∃ st1 ds, dfsNeighbors rec nbrs st = .ok st1 ∧ DfsPost g st st1 ds ∧
      (∀ x ∈ ds, ∃ a w, (a, w) ∈ nbrs ∧ g.Reachable a x) ∧
      (∀ a w, (a, w) ∈ nbrs → a ∈ st1.visited) := by
  induction nbrs generalizing st with
  | nil =>
    exact ⟨st, [], rfl, DfsPost.nil g st, by simp, by simp⟩
  | cons e rest ih =>
    obtain ⟨a, w⟩ := e
    have hkrest : ∀ a w, (a, w) ∈ rest → g.isKey a = true :=
      fun a w h => hk a w (List.mem_cons_of_mem _ h)
    by_cases hvis : a ∈ st.visited
    · obtain ⟨st1, ds, hrun, hpost, hreach, hall⟩ := ih hkrest st hb
      refine ⟨st1, ds, by simp [dfsNeighbors, hvis, hrun], hpost, ?_, ?_⟩
      · intro x hx
        obtain ⟨a1, w1, hm, hr⟩ := hreach x hx
        exact ⟨a1, w1, List.mem_cons_of_mem _ hm, hr⟩
      · intro a1 w1 hm
        rcases List.mem_cons.1 hm with h | h
        · have ha : a1 = a := congrArg Prod.fst h
          rw [ha]
          exact (hpost.2.2.1 a).2 (Or.inl hvis)
        · exact hall a1 w1 h
    · obtain ⟨st1, ds1, hrun1, hpost1, hreach1⟩ :=
        hrec a st (hk a w (List.mem_cons_self _ _)) hvis hb
      have hb1 : g.budget st1.visited ≤ fuel :=
        le_trans (g.budget_mono _ _ (fun x hx => (hpost1.2.2.1 x).2 (Or.inl hx))) hb
      obtain ⟨st2, ds2, hrun2, hpost2, hreach2, hall2⟩ := ih hkrest st1 hb1
      refine ⟨st2, (a :: ds1) ++ ds2, by simp [dfsNeighbors, hvis, hrun1, hrun2],
        DfsPost.trans hpost1 hpost2, ?_, ?_⟩
      · intro x hx
        rcases List.mem_append.1 hx with hx | hx
        · refine ⟨a, w, List.mem_cons_self _ _, ?_⟩
          rcases List.mem_cons.1 hx with hx | hx
          · rw [hx]
            exact Graph.Reachable.self g a
          · exact hreach1 x hx
        · obtain ⟨a1, w1, hm, hr⟩ := hreach2 x hx
          exact ⟨a1, w1, List.mem_cons_of_mem _ hm, hr⟩
      · intro a1 w1 hm
        rcases List.mem_cons.1 hm with h | h
        · have ha : a1 = a := congrArg Prod.fst h
          rw [ha]
          exact (hpost2.2.2.1 a).2
            (Or.inl ((hpost1.2.2.1 a).2 (Or.inr (List.mem_cons_self _ _))))
        · exact hall2 a1 w1 h

theorem dfsUtil_spec (g : Graph T) (hc : g.Closed) (fuel : Nat) :
    ∀ v st, g.isKey v = true → v ∉ st.visited → g.budget st.visited ≤ fuel →
      ∃ st1 ds, dfsUtil g fuel v st = .ok st1 ∧ DfsPost g st st1 (v :: ds) ∧
        ∀ x ∈ ds, g.Reachable v x := by
  induction fuel with
  | zero =>
    intro v st hk hv hb
    have := g.budget_visit st.visited (v :: st.visited) v hk hv (by simp)
    omega
  | succ fuel ih =>
    intro v st hk hv hb
    have hb1 : g.budget (v :: st.visited) ≤ fuel := by
      have := g.budget_visit st.visited (v :: st.visited) v hk hv (by simp)
      omega
    have hnb : ∀ a w, (a, w) ∈ g.neighbors v → g.isKey a = true := fun a w h => hc v a w h
    obtain ⟨st1, ds, hrun, hpost, hreach, hall⟩ :=
      dfsNeighbors_spec g fuel (dfsUtil g fuel) ih (g.neighbors v) hnb
        { visited := v :: st.visited, calls := st.calls ++ [v] } hb1
    obtain ⟨hc1, hn1, hv1, hd1, hcl1⟩ := hpost
    simp only at hc1 hv1 hd1
    refine ⟨st1, ds, ?_, ⟨?_, ?_, ?_, ?_, ?_⟩, ?_⟩
    · simp [dfsUtil, g.mapAt_of_isKey v hk, List.insert_of_not_mem hv, hrun]
    · rw [hc1]
      simp
    · rw [List.nodup_cons]
      exact ⟨fun hin => hd1 v hin (List.mem_cons_self _ _), hn1⟩
    · intro x
      rw [hv1]
      simp only [List.mem_cons]
      tauto
    · intro x hx
      rcases List.mem_cons.1 hx with hx | hx
      · rw [hx]
        exact hv
      · exact fun hin => hd1 x hx (List.mem_cons_of_mem _ hin)
    · intro x hx y w he
      rcases List.mem_cons.1 hx with hx | hx
      · rw [hx] at he
        exact hall y w he
      · exact hcl1 x hx y w he
    · intro x hx
      obtain ⟨a, w, hm, hr⟩ := hreach x hx
      exact Graph.Reachable.of_edge hm hr

/-- C3: when the start vertex is a key and every vertex named in a neighbor list is a
key, the recursive `dfs(start)` returns normally (for every recursion budget of at
least `fuelBound`), and its sequence of visitor calls begins with `start`, has no
repetition, and contains exactly the vertices reachable from `start`. -/
theorem dfs_visits_reachable_once (g : Graph T) (start : T) (fuel : Nat)
    (hs : g.isKey start = true) (hc : g.Closed) (hf : g.fuelBound ≤ fuel) :
    ∃ st, g.dfs start fuel = .ok st ∧ st.calls.head? = some start ∧ st.calls.Nodup ∧
      ∀ v, v ∈ st.calls ↔ g.Reachable start v := by
  have hb : g.budget ([] : List T) ≤ fuel := by
    have := g.budget_nil
    omega
  obtain ⟨st, ds, hrun, ⟨hc1, hn1, hv1, hd1, hcl1⟩, hreach⟩ :=
    dfsUtil_spec g hc fuel start { visited := [], calls := [] } hs (by simp) hb
  simp only [List.nil_append] at hc1
  simp only [List.not_mem_nil, false_or] at hv1
  refine ⟨st, hrun, by simp [hc1], by rw [hc1]; exact hn1, ?_⟩
  intro v
  rw [hc1]
  constructor
  · intro hv
    rcases List.mem_cons.1 hv with hv | hv
    · rw [hv]
      exact Graph.Reachable.self g start
    · exact hreach v hv
  · intro hr
    exact Graph.Reachable.closure (fun x => x ∈ start :: ds) (List.mem_cons_self _ _)
      (fun x hx y w he => (hv1 y).1 (hcl1 x hx y w he)) hr

end Dfs

/-! ## Depth-first traversal with an explicit stack -/

section DfsStack

variable {T : Type} [DecidableEq T]

theorem mem_dfsStackPush (visited : List T) (nbrs : List (T × Int)) (stack : List T)
    (x : T) :
    x ∈ dfsStackPush visited nbrs stack ↔
      x ∈ stack ∨ (x ∉ visited ∧ ∃ w, (x, w) ∈ nbrs) := by
  induction nbrs generalizing stack with
  | nil => simp [dfsStackPush]
  | cons e rest ih =>
    obtain ⟨a, w⟩ := e
    by_cases ha : a ∈ visited
    · simp only [dfsStackPush, ha, if_true, ih, List.mem_cons, Prod.mk.injEq]
      constructor
      · rintro (h | ⟨h1, w1, h2⟩)
        · exact Or.inl h
        · exact Or.inr ⟨h1, w1, Or.inr h2⟩
      · rintro (h | ⟨h1, w1, h2 | h2⟩)
        · exact Or.inl h
        · exact absurd (h2.1 ▸ ha) h1
        · exact Or.inr ⟨h1, w1, h2⟩
    · simp only [dfsStackPush, ha, if_false, ih, List.mem_cons, Prod.mk.injEq]
      constructor
      · rintro ((h | h) | ⟨h1, w1, h2⟩)
        · exact Or.inr ⟨h ▸ ha, w, Or.inl ⟨h, rfl⟩⟩
        · exact Or.inl h
        · exact Or.inr ⟨h1, w1, Or.inr h2⟩
      · rintro (h | ⟨h1, w1, h2 | h2⟩)
        · exact Or.inl (Or.inr h)
        · exact Or.inl (Or.inl h2.1)
        · exact Or.inr ⟨h1, w1, h2⟩

theorem length_dfsStackPush (visited : List T) (nbrs : List (T × Int)) (stack : List T) :
    (dfsStackPush visited nbrs stack).length ≤ stack.length + nbrs.length := by
  induction nbrs generalizing stack with
  | nil => simp [dfsStackPush]
  | cons e rest ih =>
    obtain ⟨a, w⟩ := e
    by_cases ha : a ∈ visited
    · have := ih stack
      simp only [dfsStackPush, ha, if_true, List.length_cons]
      omega
    · have := ih (a :: stack)
      simp only [dfsStackPush, ha, if_false, List.length_cons] at this ⊢
      omega

theorem dfsStackLoop_spec (g : Graph T) (hc : g.Closed) (start : T)
    (hs : g.isKey start = true) (fuel : Nat) :
    ∀ stack st, StackInv g start stack st → stack.length + g.budget st.visited ≤ fuel →
      ∃ st1, dfsStackLoop g fuel stack st = .ok st1 ∧ StackInv g start [] st1 := by
  induction fuel with
  | zero =>
    intro stack st hinv hb
    cases stack with
    | nil => exact ⟨st, rfl, hinv⟩
    | cons cur rest => simp at hb
  | succ fuel ih =>
    intro stack st hinv hb
    cases stack with
    | nil => exact ⟨st, rfl, hinv⟩
    | cons cur rest =>
      obtain ⟨hn, hv, hst, hcr, hcl, hstart⟩ := hinv
      by_cases hvis : cur ∈ st.visited
      · have hcur : cur ∈ st.calls := (hv cur).1 hvis
        have hinv1 : StackInv g start rest st := by
          refine ⟨hn, hv, fun x hx => hst x (List.mem_cons_of_mem _ hx), hcr, ?_, ?_⟩
          · intro x hx y w he
            rcases hcl x hx y w he with h | h
            · exact Or.inl h
            · rcases List.mem_cons.1 h with h | h
              · exact Or.inl (h ▸ hcur)
              · exact Or.inr h
          · rcases hstart with h | h
            · exact Or.inl h
            · rcases List.mem_cons.1 h with h | h
              · exact Or.inl (h ▸ hcur)
              · exact Or.inr h
        have hb1 : rest.length + g.budget st.visited ≤ fuel := by
          simp only [List.length_cons] at hb
          omega
        obtain ⟨st1, hrun, hfin⟩ := ih rest st hinv1 hb1
        exact ⟨st1, by simp [dfsStackLoop, hvis, hrun], hfin⟩
      · have hreach : g.Reachable start cur := hst cur (List.mem_cons_self _ _)
        have hkey : g.isKey cur = true := Graph.Reachable.isKey hc hs hreach
        have hncall : cur ∉ st.calls := fun h => hvis ((hv cur).2 h)
        have hinv1 : StackInv g start
            (dfsStackPush (cur :: st.visited) (g.neighbors cur) rest)
            { visited := cur :: st.visited, calls := st.calls ++ [cur] } := by
          refine ⟨?_, ?_, ?_, ?_, ?_, ?_⟩
          · rw [List.nodup_append]
            exact ⟨hn, List.nodup_singleton _, by
              intro x hx1 hx2
              rw [List.mem_singleton.1 hx2] at hx1
              exact hncall hx1⟩
          · intro x
            simp only [List.mem_cons, List.mem_append, List.mem_singleton, hv]
            tauto
          · intro x hx
            rcases (mem_dfsStackPush _ _ _ _).1 hx with h | ⟨_, w, h⟩
            · exact hst x (List.mem_cons_of_mem _ h)
            · exact Graph.Reachable.tail hreach h
          · intro x hx
            rcases List.mem_append.1 hx with h | h
            · exact hcr x h
            · rw [List.mem_singleton.1 h]
              exact hreach
          · intro x hx y w he
            simp only [List.mem_append, List.mem_singleton]
            rcases List.mem_append.1 hx with h | h
            · rcases hcl x h y w he with h1 | h1
              · exact Or.inl (Or.inl h1)
              · rcases List.mem_cons.1 h1 with h2 | h2
                · exact Or.inl (Or.inr h2)
                · exact Or.inr ((mem_dfsStackPush _ _ _ _).2 (Or.inl h2))
            · rw [List.mem_singleton.1 h] at he
              by_cases hy : y ∈ cur :: st.visited
              · rcases List.mem_cons.1 hy with h2 | h2
                · exact Or.inl (Or.inr h2)
                · exact Or.inl (Or.inl ((hv y).1 h2))
              · exact Or.inr ((mem_dfsStackPush _ _ _ _).2 (Or.inr ⟨hy, w, he⟩))
          · simp only [List.mem_append, List.mem_singleton]
            rcases hstart with h | h
            · exact Or.inl (Or.inl h)
            · rcases List.mem_cons.1 h with h | h
              · exact Or.inl (Or.inr h)
              · exact Or.inr ((mem_dfsStackPush _ _ _ _).2 (Or.inl h))
        have hb1 : (dfsStackPush (cur :: st.visited) (g.neighbors cur) rest).length +
            g.budget (cur :: st.visited) ≤ fuel := by
          have h1 := length_dfsStackPush (cur :: st.visited) (g.neighbors cur) rest
          have h2 := g.budget_visit st.visited (cur :: st.visited) cur hkey hvis (by simp)
          simp only [List.length_cons] at hb
          omega
        obtain ⟨st1, hrun, hfin⟩ := ih _ _ hinv1 hb1
        refine ⟨st1, ?_, hfin⟩
        simp [dfsStackLoop, hvis, g.mapAt_of_isKey cur hkey, List.insert_of_not_mem hvis,
          hrun]

/-- C4: when the start vertex is a key and every vertex named in a neighbor list is a
key, `dfs_stack(start)` returns normally (for every iteration budget of at least
`fuelBound`), and its sequence of visitor calls has no repetition and contains exactly
the vertices reachable from `start`. -/
theorem dfs_stack_visits_reachable_once (g : Graph T) (start : T) (fuel : Nat)
    (hs : g.isKey start = true) (hc : g.Closed) (hf : g.fuelBound ≤ fuel) :
    ∃ st, g.dfs_stack start fuel = .ok st ∧ st.calls.Nodup ∧
      ∀ v, v ∈ st.calls ↔ g.Reachable start v := by
  have hinv0 : StackInv g start [start] { visited := [], calls := [] } := by
    refine ⟨List.nodup_nil, by simp, ?_, by simp, by simp, by simp⟩
    intro x hx
    rw [List.mem_singleton.1 hx]
    exact Graph.Reachable.self g start
  have hb : [start].length + g.budget ([] : List T) ≤ fuel := by
    have := g.budget_nil
    simp only [List.length_singleton]
    omega
  obtain ⟨st, hrun, hn, _, _, hcr, hcl, hstart⟩ :=
    dfsStackLoop_spec g hc start hs fuel _ _ hinv0 hb
  refine ⟨st, hrun, hn, fun v => ⟨hcr v, ?_⟩⟩
  intro hr
  have hstart1 : start ∈ st.calls := by
    rcases hstart with h | h
    · exact h
    · simp at h
  refine Graph.Reachable.closure (fun x => x ∈ st.calls) hstart1 ?_ hr
  intro x hx y w he
  rcases hcl x hx y w he with h | h
  · exact h
  · simp at h

end DfsStack

/-! ## Breadth-first traversal -/

section Bfs

variable {T : Type} [DecidableEq T]

theorem bfsEnqueue_spec (g : Graph T) (hc : g.Closed) (start u : T) (b : Nat)
    (calls : List T) (hu : u ∈ calls) (nbrs : List (T × Int)) :
    ∀ (lev : T → Nat) (visited queue : List T),
      (∀ e ∈ nbrs, e ∈ g.neighbors u) → BfsCore g start lev b calls queue visited →
      lev u = b →
      ∃ lev1, BfsCore g start lev1 b calls (bfsEnqueue nbrs visited queue).2
          (bfsEnqueue nbrs visited queue).1 ∧
        (∀ x ∈ calls ++ queue, lev1 x = lev x) ∧
        (∀ x ∈ queue, x ∈ (bfsEnqueue nbrs visited queue).2) ∧
        (∀ y w, (y, w) ∈ nbrs →
          y ∈ calls ++ (bfsEnqueue nbrs visited queue).2 ∧ lev1 y ≤ b + 1) ∧
        (bfsEnqueue nbrs visited queue).2.length +
            g.budget (bfsEnqueue nbrs visited queue).1 ≤
          queue.length + g.budget visited := by
  induction nbrs with
  | nil =>
    intro lev visited queue _ hcore _
    exact ⟨lev, hcore, fun _ _ => rfl, fun _ h => h, by simp, le_refl _⟩
  | cons e rest ih =>
    obtain ⟨a, w⟩ := e
    intro lev visited queue hsub hcore hlev
    have hsubr : ∀ e ∈ rest, e ∈ g.neighbors u :=
      fun e he => hsub e (List.mem_cons_of_mem _ he)
    have haw : (a, w) ∈ g.neighbors u := hsub _ (List.mem_cons_self _ _)
    obtain ⟨hnd, hvis, hpath, hsort, hq, hcalls, hstart, hlev0⟩ := hcore
    by_cases ha : a ∈ visited
    · obtain ⟨lev1, hcore1, hagree, hqsub, hnb, hm⟩ :=
        ih lev visited queue hsubr ⟨hnd, hvis, hpath, hsort, hq, hcalls, hstart, hlev0⟩ hlev
      refine ⟨lev1, by simpa [bfsEnqueue, ha] using hcore1, hagree,
        by simpa [bfsEnqueue, ha] using hqsub, ?_, by simpa [bfsEnqueue, ha] using hm⟩
      intro y w1 hy
      simp only [bfsEnqueue, ha, if_true]
      rcases List.mem_cons.1 hy with h | h
      · have hya : y = a := congrArg Prod.fst h
        have hin : a ∈ calls ++ queue := (hvis a).1 ha
        rw [hya]
        refine ⟨?_, ?_⟩
        · rcases List.mem_append.1 hin with h1 | h1
          · exact List.mem_append.2 (Or.inl h1)
          · exact List.mem_append.2 (Or.inr (hqsub a h1))
        · rw [hagree a hin]
          rcases List.mem_append.1 hin with h1 | h1
          · have := hcalls a h1
            omega
          · exact (hq a h1).2
      · exact hnb y w1 h
    · have hnin : a ∉ calls ++ queue := fun h => ha ((hvis a).2 h)
      have hkey : g.isKey a = true := hc u a w haw
      have hne : ∀ x ∈ calls ++ queue, ¬ x = a := fun x hx h => hnin (h ▸ hx)
      have hcore0 : BfsCore g start (mapSet lev a (b + 1)) b calls (queue ++ [a])
          (a :: visited) := by
        refine ⟨?_, ?_, ?_, ?_, ?_, ?_, ?_, ?_⟩
        · rw [← List.append_assoc, List.nodup_append]
          refine ⟨hnd, List.nodup_singleton _, ?_⟩
          intro x hx1 hx2
          exact hne x hx1 (List.mem_singleton.1 hx2)
        · intro x
          simp only [List.mem_cons, List.mem_append, List.mem_singleton, hvis]
          tauto
        · intro x hx
          rw [← List.append_assoc] at hx
          rcases List.mem_append.1 hx with h | h
          · simp only [mapSet, hne x h, if_false]
            exact hpath x h
          · rw [List.mem_singleton.1 h]
            obtain ⟨vs, d, hp, hlen⟩ := hpath u (List.mem_append.2 (Or.inl hu))
            refine ⟨vs ++ [a], d + w, Graph.Path.snoc hp haw, ?_⟩
            simp [mapSet, hlen, hlev]
        · rw [← List.append_assoc, List.pairwise_append]
          refine ⟨?_, List.pairwise_singleton _ _, ?_⟩
          · refine List.Pairwise.imp_of_mem ?_ hsort
            intro x y hx hy hxy
            simpa [mapSet, hne x hx, hne y hy] using hxy
          · intro x hx y hy
            rw [List.mem_singleton.1 hy]
            simp only [mapSet, hne x hx, if_false, if_true]
            rcases List.mem_append.1 hx with h1 | h1
            · have := hcalls x h1
              omega
            · exact (hq x h1).2
        · intro x hx
          rcases List.mem_append.1 hx with h | h
          · simp only [mapSet, hne x (List.mem_append.2 (Or.inr h)), if_false]
            exact hq x h
          · rw [List.mem_singleton.1 h]
            simp [mapSet]
        · intro x hx
          simp only [mapSet, hne x (List.mem_append.2 (Or.inl hx)), if_false]
          exact hcalls x hx
        · rw [← List.append_assoc]
          exact List.mem_append.2 (Or.inl hstart)
        · simp only [mapSet, hne start hstart, if_false]
          exact hlev0
      have hlevu : mapSet lev a (b + 1) u = b := by
        simp only [mapSet, hne u (List.mem_append.2 (Or.inl hu)), if_false]
        exact hlev
      obtain ⟨lev1, hcore1, hagree, hqsub, hnb, hm⟩ :=
        ih (mapSet lev a (b + 1)) (a :: visited) (queue ++ [a]) hsubr hcore0 hlevu
      have hain : a ∈ calls ++ (queue ++ [a]) := by simp
      have hbud := g.budget_visit visited (a :: visited) a hkey ha (by simp)
      refine ⟨lev1, ?_, ?_, ?_, ?_, ?_⟩
      · simpa [bfsEnqueue, ha, List.insert_of_not_mem ha] using hcore1
      · intro x hx
        have hx1 : x ∈ calls ++ (queue ++ [a]) := by
          rw [← List.append_assoc]
          exact List.mem_append.2 (Or.inl hx)
        rw [hagree x hx1]
        simp only [mapSet, hne x hx, if_false]
      · intro x hx
        simp only [bfsEnqueue, ha, if_false, List.insert_of_not_mem ha]
        exact hqsub x (List.mem_append.2 (Or.inl hx))
      · intro y w1 hy
        simp only [bfsEnqueue, ha, if_false, List.insert_of_not_mem ha]
        rcases List.mem_cons.1 hy with h | h
        · have hya : y = a := congrArg Prod.fst h
          rw [hya]
          refine ⟨List.mem_append.2 (Or.inr (hqsub a (by simp))), ?_⟩
          rw [hagree a hain]
          simp [mapSet]
        · exact hnb y w1 h
      · simp only [bfsEnqueue, ha, if_false, List.insert_of_not_mem ha]
        simp only [List.length_append, List.length_singleton] at hm
        omega

theorem bfsLoop_spec (g : Graph T) (hc : g.Closed) (start : T)
    (hs : g.isKey start = true) (fuel : Nat) :
    ∀ queue st,
      (∃ lev bound, BfsCore g start lev bound st.calls queue st.visited ∧
        BfsClosed g lev st.calls (st.calls ++ queue)) →
      queue.length + g.budget st.visited ≤ fuel →
      ∃ st1, bfsLoop g fuel queue st = .ok st1 ∧
        ∃ lev bound, BfsCore g start lev bound st1.calls [] st1.visited ∧
          BfsClosed g lev st1.calls st1.calls := by
  induction fuel with
  | zero =>
    intro queue st hinv hb
    cases queue with
    | nil =>
      obtain ⟨lev, bound, hcore, hcl⟩ := hinv
      exact ⟨st, rfl, lev, bound, hcore, by simpa using hcl⟩
    | cons u q => simp at hb
  | succ fuel ih =>
    intro queue st hinv hb
    cases queue with
    | nil =>
      obtain ⟨lev, bound, hcore, hcl⟩ := hinv
      exact ⟨st, rfl, lev, bound, hcore, by simpa using hcl⟩
    | cons u q =>
      obtain ⟨lev, bound, ⟨hnd, hvis, hpath, hsort, hq, hcalls, hstart, hlev0⟩, hcl⟩ := hinv
      have huin : u ∈ st.calls ++ u :: q := by simp
      have hkey : g.isKey u = true := by
        obtain ⟨vs, d, hp, _⟩ := hpath u huin
        exact Graph.Reachable.isKey hc hs ⟨vs, d, hp⟩
      have hassoc : (st.calls ++ [u]) ++ q = st.calls ++ u :: q := by simp
      have hsort1 := List.pairwise_append.1 hsort
      have hsortq := List.pairwise_cons.1 hsort1.2.1
      have hcore1 : BfsCore g start lev (lev u) (st.calls ++ [u]) q st.visited := by
        refine ⟨by rw [hassoc]; exact hnd, by rw [hassoc]; exact hvis,
          by rw [hassoc]; exact hpath, by rw [hassoc]; exact hsort, ?_, ?_,
          by rw [hassoc]; exact hstart, hlev0⟩
        · intro x hx
          refine ⟨hsortq.1 x hx, ?_⟩
          have h1 := (hq x (List.mem_cons_of_mem _ hx)).2
          have h2 := (hq u (List.mem_cons_self _ _)).1
          omega
        · intro x hx
          rcases List.mem_append.1 hx with h | h
          · exact hsort1.2.2 x h u (List.mem_cons_self _ _)
          · rw [List.mem_singleton.1 h]
      obtain ⟨lev1, hcore2, hagree, hqsub, hnb, hm⟩ :=
        bfsEnqueue_spec g hc start u (lev u) (st.calls ++ [u]) (by simp) (g.neighbors u)
          lev st.visited q (fun e he => he) hcore1 rfl
      have hb1 : (bfsEnqueue (g.neighbors u) st.visited q).2.length +
          g.budget (bfsEnqueue (g.neighbors u) st.visited q).1 ≤ fuel := by
        simp only [List.length_cons] at hb
        omega
      have hcl1 : BfsClosed g lev1 (st.calls ++ [u])
          ((st.calls ++ [u]) ++ (bfsEnqueue (g.neighbors u) st.visited q).2) := by
        intro x hx y w he
        have hxin : x ∈ (st.calls ++ [u]) ++ q := List.mem_append.2 (Or.inl hx)
        rcases List.mem_append.1 hx with h | h
        · obtain ⟨hy, hle⟩ := hcl x h y w he
          have hyin : y ∈ (st.calls ++ [u]) ++ q := by rw [hassoc]; exact hy
          refine ⟨?_, ?_⟩
          · rcases List.mem_append.1 hyin with h1 | h1
            · exact List.mem_append.2 (Or.inl h1)
            · exact List.mem_append.2 (Or.inr (hqsub y h1))
          · rw [hagree y hyin, hagree x hxin]
            exact hle
        · have hxu : x = u := List.mem_singleton.1 h
          rw [hxu] at he hxin ⊢
          obtain ⟨hy, hle⟩ := hnb y w he
          exact ⟨hy, by rw [hagree u hxin]; exact hle⟩
      obtain ⟨st1, hrun, hfin⟩ := ih (bfsEnqueue (g.neighbors u) st.visited q).2
        { visited := (bfsEnqueue (g.neighbors u) st.visited q).1, calls := st.calls ++ [u] }
        ⟨lev1, lev u, hcore2, hcl1⟩ hb1
      refine ⟨st1, ?_, hfin⟩
      simp [bfsLoop, g.mapAt_of_isKey u hkey, hrun]

theorem bfs_queue_spec (g : Graph T) (start : T) (fuel : Nat)
    (hs : g.isKey start = true) (hc : g.Closed) (hf : g.fuelBound ≤ fuel) :
    ∃ st, g.bfs_queue start fuel = .ok st ∧
      ∃ lev bound, BfsCore g start lev bound st.calls [] st.visited ∧
        BfsClosed g lev st.calls st.calls := by
  have hcore0 : BfsCore g start (fun _ => 0) 0 [] [start] [start] := by
    refine ⟨by simp, by simp, ?_, by simp, by simp, by simp, by simp, rfl⟩
    intro x hx
    simp only [List.nil_append, List.mem_singleton] at hx
    rw [hx]
    exact ⟨[start], 0, Graph.Path.nil, rfl⟩
  have hb : [start].length + g.budget [start] ≤ fuel := by
    have h1 := g.budget_nil
    have h2 := g.budget_visit [] [start] start hs (by simp) (by simp)
    simp only [List.length_singleton]
    omega
  exact bfsLoop_spec g hc start hs fuel [start] { visited := [start], calls := [] }
    ⟨fun _ => 0, 0, hcore0, by intro x hx; simp at hx⟩ hb

theorem bfs_levels_minimal (g : Graph T) (start : T) (lev : T → Nat) (bound : Nat)
    (calls visited : List T) (hcore : BfsCore g start lev bound calls [] visited)
    (hcl : BfsClosed g lev calls calls) {vs : List T} {v : T} {d : Int}
    (hp : g.Path start vs v d) : v ∈ calls ∧ lev v + 1 ≤ vs.length := by
  obtain ⟨_, _, _, _, _, _, hstart, hlev0⟩ := hcore
  induction hp with
  | nil => exact ⟨by simpa using hstart, by simp [hlev0]⟩
  | snoc _ he ih =>
    obtain ⟨hy, hle⟩ := hcl _ ih.1 _ _ he
    refine ⟨hy, ?_⟩
    simp only [List.length_append, List.length_singleton]
    omega

/-- C5: when the start vertex is a key and every vertex named in a neighbor list is a
key, `bfs_queue(start)` returns normally (for every iteration budget of at least
`fuelBound`), and its sequence of visitor calls has no repetition and contains exactly
the vertices reachable from `start`. -/
theorem bfs_queue_visits_reachable_once (g : Graph T) (start : T) (fuel : Nat)
    (hs : g.isKey start = true) (hc : g.Closed) (hf : g.fuelBound ≤ fuel) :
    ∃ st, g.bfs_queue start fuel = .ok st ∧ st.calls.Nodup ∧
      ∀ v, v ∈ st.calls ↔ g.Reachable start v := by
  obtain ⟨st, hrun, lev, bound, hcore, hcl⟩ := bfs_queue_spec g start fuel hs hc hf
  refine ⟨st, hrun, by simpa using hcore.1, fun v => ⟨?_, ?_⟩⟩
  · intro hv
    obtain ⟨vs, d, hp, _⟩ := hcore.2.2.1 v (by simpa using hv)
    exact ⟨vs, d, hp⟩
  · rintro ⟨vs, d, hp⟩
    exact (bfs_levels_minimal g start lev bound _ _ hcore hcl hp).1

/-- C6: when the start vertex is a key and every vertex named in a neighbor list is a
key, every vertex visited by `bfs_queue(start)` has a minimum number `dist` of edges over
the walks from `start` to it, and the sequence of visits is in non-decreasing order of
`dist`: whenever `u` is visited before `v`, `dist u ≤ dist v`. -/
theorem bfs_queue_level_order (g : Graph T) (start : T) (fuel : Nat)
    (hs : g.isKey start = true) (hc : g.Closed) (hf : g.fuelBound ≤ fuel) :
    ∃ st, g.bfs_queue start fuel = .ok st ∧
      ∃ dist : T → Nat, (∀ v ∈ st.calls, g.IsEdgeDist start v (dist v)) ∧
        st.calls.Pairwise (fun u v => dist u ≤ dist v) := by
  obtain ⟨st, hrun, lev, bound, hcore, hcl⟩ := bfs_queue_spec g start fuel hs hc hf
  refine ⟨st, hrun, lev, ?_, by simpa using hcore.2.2.2.1⟩
  intro v hv
  obtain ⟨vs, d, hp, hlen⟩ := hcore.2.2.1 v (by simpa using hv)
  refine ⟨⟨vs, d, hp, hlen⟩, ?_⟩
  intro vs1 d1 hp1
  exact (bfs_levels_minimal g start lev bound _ _ hcore hcl hp1).2

end Bfs

/-! ## Single-source shortest paths -/

section ChainLemmas

variable {T : Type}

theorem length_pqPush [LT T] [DecidableRel (fun (a b : T) => a < b)] (x : Int × T)
    (l : List (Int × T)) : (pqPush x l).length = l.length + 1 := by
  induction l with
  | nil => simp [pqPush]
  | cons y ys ih =>
    by_cases h : pairLt y x
    · simp [pqPush, h, ih]
    · simp [pqPush, h]

theorem Chain.length_pos {pred : T → T} {dist : T → Int} {s v : T} {vs : List T}
    (h : Chain pred dist s v vs) : 0 < vs.length := by
  cases h with
  | base => simp
  | step _ _ _ => simp

theorem Chain.det {pred : T → T} {dist : T → Int} {s v : T} {vs1 vs2 : List T}
    (h1 : Chain pred dist s v vs1) (h2 : Chain pred dist s v vs2) : vs1 = vs2 := by
  induction h1 generalizing vs2 with
  | base =>
    cases h2 with
    | base => rfl
    | step hne _ _ => exact absurd rfl hne
  | step hne _ _ ih =>
    cases h2 with
    | base => exact absurd rfl hne
    | step _ hc2 _ => rw [ih hc2]

theorem Chain.of_mem {pred : T → T} {dist : T → Int} {s v : T} {vs : List T}
    (h : Chain pred dist s v vs) :
    ∀ x ∈ vs, ∃ vsx, Chain pred dist s x vsx ∧ vsx.length ≤ vs.length := by
  induction h with
  | base =>
    intro x hx
    rw [List.mem_singleton.1 hx]
    exact ⟨[s], Chain.base, le_refl _⟩
  | step hne hc hd ih =>
    intro x hx
    rcases List.mem_append.1 hx with h1 | h1
    · obtain ⟨vsx, hcx, hlen⟩ := ih x h1
      exact ⟨vsx, hcx, by simp only [List.length_append]; omega⟩
    · rw [List.mem_singleton.1 h1]
      exact ⟨_, Chain.step hne hc hd, le_refl _⟩

theorem Chain.of_direct_link {pred : T → T} {dist : T → Int} {s x : T} {vs : List T}
    (h : Chain pred dist s x vs) (hne : x ≠ s) (hp : pred x = s) : vs = [s, x] := by
  cases h with
  | base => exact absurd rfl hne
  | @step v vs0 _ hc0 _ =>
    rw [hp] at hc0
    rw [Chain.det hc0 Chain.base]
    rfl

theorem Chain.nodup {pred : T → T} {dist : T → Int} {s v : T} {vs : List T}
    (h : Chain pred dist s v vs) : vs.Nodup := by
  induction h with
  | base => simp
  | @step v0 vs0 hne hc hd ih =>
    rw [List.nodup_append]
    refine ⟨ih, List.nodup_singleton _, ?_⟩
    intro x hx1 hx2
    rw [List.mem_singleton.1 hx2] at hx1
    obtain ⟨vsx, hcx, hlen⟩ := Chain.of_mem hc v0 hx1
    have heq := Chain.det hcx (Chain.step hne hc hd)
    rw [heq] at hlen
    simp only [List.length_append, List.length_singleton] at hlen
    omega

end ChainLemmas

section DijkstraLemmas

variable {T : Type} [DecidableEq T]

theorem wrapInt_of_range (x : Int) (h0 : 0 ≤ x) (h1 : x < INT_MAX) : wrapInt x = x := by
  unfold INT_MAX at h1
  unfold wrapInt
  omega

theorem mem_pqPush [LT T] [DecidableRel (fun (a b : T) => a < b)] (x e : Int × T)
    (l : List (Int × T)) : e ∈ pqPush x l ↔ e = x ∨ e ∈ l := by
  induction l with
  | nil => simp [pqPush]
  | cons y ys ih =>
    by_cases h : pairLt y x
    · simp only [pqPush, h, if_true, List.mem_cons, ih]
      tauto
    · simp only [pqPush, h, if_false, List.mem_cons]

theorem pairwise_pqPush [LT T] [DecidableRel (fun (a b : T) => a < b)] (x : Int × T)
    (l : List (Int × T)) (h : l.Pairwise (fun a b => a.1 ≤ b.1)) :
    (pqPush x l).Pairwise (fun a b => a.1 ≤ b.1) := by
  induction l with
  | nil => simp [pqPush]
  | cons y ys ih =>
    obtain ⟨hy, hys⟩ := List.pairwise_cons.1 h
    by_cases hlt : pairLt y x
    · simp only [pqPush, hlt, if_true]
      refine List.pairwise_cons.2 ⟨?_, ih hys⟩
      intro e he
      rcases (mem_pqPush x e ys).1 he with h1 | h1
      · rw [h1]
        rcases hlt with h2 | h2
        · exact le_of_lt h2
        · exact le_of_eq h2.1
      · exact hy e h1
    · simp only [pqPush, hlt, if_false]
      have hxy : x.1 ≤ y.1 := by
        have h2 : ¬ y.1 < x.1 := fun h3 => hlt (Or.inl h3)
        omega
      refine List.pairwise_cons.2 ⟨?_, h⟩
      intro e he
      rcases List.mem_cons.1 he with h1 | h1
      · rw [h1]
        exact hxy
      · exact le_trans hxy (hy e h1)

theorem Graph.isKey_of_neighbor (g : Graph T) (u v : T) (w : Int)
    (h : (v, w) ∈ g.neighbors u) : g.isKey u = true := by
  unfold Graph.neighbors at h
  unfold Graph.isKey
  cases hm : mapAt g.adjList u with
  | none => simp [hm] at h
  | some l => rfl

theorem DPath.toPath {g : Graph T} {s : T} {dist : T → Int} {vs : List T} {v : T}
    {d : Int} (h : DPath g s dist vs v d) : g.Path s vs v d := by
  induction h with
  | nil _ => exact Graph.Path.nil
  | snoc _ he _ ih => exact Graph.Path.snoc ih he

theorem DPath.mono {g : Graph T} {s : T} {dist dist1 : T → Int} {vs : List T} {v : T}
    {d : Int} (hle : ∀ x, dist1 x ≤ dist x) (h : DPath g s dist vs v d) :
    DPath g s dist1 vs v d := by
  induction h with
  | nil h0 => exact DPath.nil (le_trans (hle _) h0)
  | snoc _ he hd ih => exact DPath.snoc ih he (le_trans (hle _) hd)

theorem DPath.mem_le {g : Graph T} (hnn : g.NonNegative) {s : T} {dist : T → Int}
    {vs : List T} {v : T} {d : Int} (h : DPath g s dist vs v d) :
    ∀ y ∈ vs, dist y ≤ d := by
  induction h with
  | nil h0 =>
    intro y hy
    rw [List.mem_singleton.1 hy]
    exact h0
  | snoc _ he hd ih =>
    intro y hy
    rcases List.mem_append.1 hy with h1 | h1
    · have := ih y h1
      have := hnn _ _ _ he
      omega
    · rw [List.mem_singleton.1 h1]
      exact hd

theorem Graph.Path.ends {g : Graph T} {s v : T} {vs : List T} {d : Int}
    (h : g.Path s vs v d) : vs.head? = some s ∧ vs.getLast? = some v := by
  induction h with
  | nil => simp
  | @snoc vs0 u0 v0 d0 w0 hp _ ih =>
    refine ⟨?_, by simp⟩
    cases vs0 with
    | nil => simp at ih
    | cons a rest => simpa using ih.1

theorem sum_map_le {α : Type} (L : List α) (f f1 : α → Nat) (h : ∀ x ∈ L, f1 x ≤ f x) :
    (L.map f1).sum ≤ (L.map f).sum := by
  induction L with
  | nil => simp
  | cons a rest ih =>
    have h1 := h a (List.mem_cons_self _ _)
    have h2 := ih (fun x hx => h x (List.mem_cons_of_mem _ hx))
    simp only [List.map_cons, List.sum_cons]
    omega

theorem sum_map_lt {α : Type} (L : List α) (f f1 : α → Nat) (h : ∀ x ∈ L, f1 x ≤ f x)
    (e : α) (he : e ∈ L) (hlt : f1 e + 1 ≤ f e) :
    (L.map f1).sum + 1 ≤ (L.map f).sum := by
  induction L with
  | nil => simp at he
  | cons a rest ih =>
    have h1 := h a (List.mem_cons_self _ _)
    have hrest : ∀ x ∈ rest, f1 x ≤ f x := fun x hx => h x (List.mem_cons_of_mem _ hx)
    simp only [List.map_cons, List.sum_cons]
    rcases List.mem_cons.1 he with h2 | h2
    · subst h2
      have := sum_map_le rest f f1 hrest
      omega
    · have := ih hrest h2
      omega

theorem sum_map_le_const {α : Type} (L : List α) (f : α → Nat) (c : Nat)
    (h : ∀ x ∈ L, f x ≤ c) : (L.map f).sum ≤ L.length * c := by
  induction L with
  | nil => simp
  | cons a rest ih =>
    have h1 := h a (List.mem_cons_self _ _)
    have h2 := ih (fun x hx => h x (List.mem_cons_of_mem _ hx))
    simp only [List.map_cons, List.sum_cons, List.length_cons]
    have : (rest.length + 1) * c = rest.length * c + c := by ring
    omega

theorem Chain.update_below {pred : T → T} {dist : T → Int} {s v u : T} {c : Int}
    {x : T} {vs : List T} (h : Chain pred dist s x vs) (hx : dist x < dist v) :
    Chain (mapSet pred v u) (mapSet dist v c) s x vs := by
  induction h with
  | base => exact Chain.base
  | @step x0 vs0 hne hc hd ih =>
    have hxv : ¬ x0 = v := fun h => by rw [h] at hx; exact lt_irrefl _ hx
    have hpv : ¬ pred x0 = v := fun h => by rw [h] at hd; omega
    have e1 : mapSet pred v u x0 = pred x0 := by simp [mapSet, hxv]
    have e2 : mapSet dist v c x0 = dist x0 := by simp [mapSet, hxv]
    have e3 : mapSet dist v c (pred x0) = dist (pred x0) := by simp [mapSet, hpv]
    have ih1 := ih (lt_of_le_of_lt hd hx)
    rw [← e1] at ih1
    refine Chain.step hne ih1 ?_
    rw [e1, e2, e3]
    exact hd

theorem Chain.update {pred : T → T} {dist : T → Int} {s v u : T} {c : Int}
    {vsu : List T} (hc : c < dist v) (hu : dist u ≤ c)
    (hcu : Chain pred dist s u vsu) {x : T} {vs : List T} (h : Chain pred dist s x vs) :
    ∃ vs1, Chain (mapSet pred v u) (mapSet dist v c) s x vs1 := by
  have hle : ∀ z, mapSet dist v c z ≤ dist z := by
    intro z
    by_cases hz : z = v
    · simp only [mapSet, hz, if_true]
      omega
    · simp [mapSet, hz]
  induction h with
  | base => exact ⟨_, Chain.base⟩
  | @step x0 vs0 hne hc0 hd ih =>
    by_cases hxv : x0 = v
    · have huv : ¬ u = v := fun h => by rw [h] at hu; omega
      have hcu1 : Chain (mapSet pred v u) (mapSet dist v c) s u vsu :=
        Chain.update_below hcu (lt_of_le_of_lt hu hc)
      have e1 : mapSet pred v u x0 = u := by simp [mapSet, hxv]
      have e2 : mapSet dist v c x0 = c := by simp [mapSet, hxv]
      have e3 : mapSet dist v c u = dist u := by simp [mapSet, huv]
      have hcu2 : Chain (mapSet pred v u) (mapSet dist v c) s (mapSet pred v u x0) vsu := by
        rw [e1]
        exact hcu1
      refine ⟨_, Chain.step hne hcu2 ?_⟩
      rw [e1, e2, e3]
      exact hu
    · obtain ⟨vs1, ih1⟩ := ih
      have e1 : mapSet pred v u x0 = pred x0 := by simp [mapSet, hxv]
      have e2 : mapSet dist v c x0 = dist x0 := by simp [mapSet, hxv]
      rw [← e1] at ih1
      refine ⟨_, Chain.step hne ih1 ?_⟩
      rw [e1, e2]
      exact le_trans (hle _) hd

theorem DCore.relax_update [LT T] [DecidableRel (fun (a b : T) => a < b)]
    (g : Graph T) (source : T) (hnn : g.NonNegative)
    (st st1 : DijkstraState T) (u y : T) (w c : Int) (hcore : DCore g source st)
    (hu : g.isKey u = true) (hfin : st.distances u < INT_MAX)
    (he : (y, w) ∈ g.neighbors u) (hc : c = st.distances u + w)
    (hlt : c < st.distances y) (hcmax : c < INT_MAX)
    (h1 : st1.adjList = st.adjList) (h2 : st1.distances = mapSet st.distances y c)
    (h3 : st1.previousVertices = mapSet st.previousVertices y u)
    (h4 : st1.pq = pqPush (c, y) st.pq) : DCore g source st1 := by
  have hw : 0 ≤ w := hnn u y w he
  have hu0 : 0 ≤ st.distances u := (hcore.range u).1
  have hdy : st1.distances y = c := by simp [h2, mapSet]
  have hdne : ∀ z, ¬ z = y → st1.distances z = st.distances z := by
    intro z hz
    simp [h2, mapSet, hz]
  have hle : ∀ z, st1.distances z ≤ st.distances z := by
    intro z
    by_cases hz : z = y
    · rw [hz, hdy]
      exact le_of_lt hlt
    · rw [hdne z hz]
  have hpy : st1.previousVertices y = u := by simp [h3, mapSet]
  have hpne : ∀ z, ¬ z = y → st1.previousVertices z = st.previousVertices z := by
    intro z hz
    simp [h3, mapSet, hz]
  have huy : ¬ u = y := fun h => by rw [h] at hc hu0; omega
  have hsy : ¬ source = y := fun h => by
    have := hcore.src
    rw [h] at this
    omega
  have hky : g.isKey y = true := by
    cases hk : g.isKey y with
    | true => rfl
    | false =>
      have := hcore.nonkey y hk
      omega
  refine ⟨?_, ?_, ?_, ?_, ?_, ?_, ?_, ?_, ?_, ?_, ?_⟩
  · rw [h1]
    exact hcore.adj
  · rw [hdne source hsy]
    exact hcore.src
  · intro x
    by_cases hx : x = y
    · rw [hx, hdy]
      constructor
      · omega
      · omega
    · rw [hdne x hx]
      exact hcore.range x
  · intro x hkx hfx
    by_cases hx : x = y
    · obtain ⟨vs, hdp, hnd⟩ := hcore.path u hu hfin
      have hyvs : y ∉ vs := by
        intro hin
        have := DPath.mem_le hnn hdp y hin
        omega
      refine ⟨vs ++ [y], ?_, ?_⟩
      · rw [hx, hdy, hc]
        refine DPath.snoc (DPath.mono hle hdp) he ?_
        rw [hdy, hc]
      · rw [List.nodup_append]
        refine ⟨hnd, List.nodup_singleton _, ?_⟩
        intro z hz1 hz2
        rw [List.mem_singleton.1 hz2] at hz1
        exact hyvs hz1
    · rw [hdne x hx] at hfx ⊢
      obtain ⟨vs, hdp, hnd⟩ := hcore.path x hkx hfx
      exact ⟨vs, DPath.mono hle hdp, hnd⟩
  · intro e hmem
    rw [h4, mem_pqPush] at hmem
    rcases hmem with hmem | hmem
    · rw [hmem]
      exact ⟨hky, by rw [hdy]; exact hcmax⟩
    · have := hcore.queued e hmem
      exact ⟨this.1, lt_of_le_of_lt (hle _) this.2⟩
  · intro x hkx
    obtain ⟨vs, hch⟩ := hcore.chain x hkx
    obtain ⟨vsu, hchu⟩ := hcore.chain u hu
    rw [h2, h3]
    exact Chain.update hlt (by omega) hchu hch
  · intro x hkx hxs hfx
    by_cases hx : x = y
    · rw [hx, hpy, hdy, hdne u huy]
      exact ⟨hu, hfin, w, he, by omega⟩
    · rw [hdne x hx] at hfx
      rw [hpne x hx, hdne x hx]
      obtain ⟨hk, hf, w1, he1, hle1⟩ := hcore.link x hkx hxs hfx
      have := hle (st.previousVertices x)
      exact ⟨hk, by omega, w1, he1, by omega⟩
  · intro x hkx hxs hfx
    have hx : ¬ x = y := fun h => by rw [h, hdy] at hfx; omega
    rw [hdne x hx] at hfx
    rw [hpne x hx]
    exact hcore.unreached x hkx hxs hfx
  · intro x hkx
    have hx : ¬ x = y := fun h => by rw [h, hky] at hkx; exact absurd hkx (by simp)
    rw [hdne x hx]
    exact hcore.nonkey x hkx
  · rw [h4]
    exact pairwise_pqPush _ _ hcore.sorted
  · intro e hmem
    rw [h4, mem_pqPush] at hmem
    rcases hmem with hmem | hmem
    · rw [hmem]
      exact le_of_eq hdy
    · exact le_trans (hle _) (hcore.bound e hmem)

theorem relax_spec [LT T] [DecidableRel (fun (a b : T) => a < b)]
    (g : Graph T) (source : T) (hnn : g.NonNegative)
    (u : T) (hu : g.isKey u = true) (nbrs : List (T × Int)) :
    ∀ st, (∀ e ∈ nbrs, e ∈ g.neighbors u) → DCore g source st →
      Settled g source (some u) st → st.distances u < INT_MAX →
      (∀ e ∈ nbrs, st.distances u + e.2 < INT_MAX) →
      DCore g source (relax u nbrs st) ∧ Settled g source (some u) (relax u nbrs st) ∧
        (relax u nbrs st).distances u = st.distances u ∧
        (∀ x, (relax u nbrs st).distances x ≤ st.distances x) ∧
        (∀ y w, (y, w) ∈ nbrs → (relax u nbrs st).distances y ≤ st.distances u + w) ∧
        dijkstraMeasure g (relax u nbrs st) ≤ dijkstraMeasure g st := by
  induction nbrs with
  | nil =>
    intro st _ hcore hset _ _
    exact ⟨hcore, hset, rfl, fun _ => le_refl _, by simp, le_refl _⟩
  | cons e rest ih =>
    obtain ⟨y, w⟩ := e
    intro st hsub hcore hset hfin hsum
    have hsubr : ∀ e ∈ rest, e ∈ g.neighbors u :=
      fun e he => hsub e (List.mem_cons_of_mem _ he)
    have he : (y, w) ∈ g.neighbors u := hsub _ (List.mem_cons_self _ _)
    have hw : 0 ≤ w := hnn u y w he
    have hu0 : 0 ≤ st.distances u := (hcore.range u).1
    have hcmax : st.distances u + w < INT_MAX := hsum (y, w) (List.mem_cons_self _ _)
    have hsumr : ∀ e ∈ rest, st.distances u + e.2 < INT_MAX :=
      fun e he => hsum e (List.mem_cons_of_mem _ he)
    have hwrap : wrapInt (st.distances u + w) = st.distances u + w :=
      wrapInt_of_range _ (by omega) hcmax
    by_cases hlt : st.distances y > st.distances u + w
    · have hrun : relax u ((y, w) :: rest) st = relax u rest
          { st with
            distances := mapSet st.distances y (st.distances u + w)
            previousVertices := mapSet st.previousVertices y u
            pq := pqPush (st.distances u + w, y) st.pq } := by
        simp only [relax, hwrap, hlt, if_true]
      rw [hrun]
      have huy : ¬ u = y := fun h => by rw [h] at hlt; omega
      have hky : g.isKey y = true := by
        cases hk : g.isKey y with
        | true => rfl
        | false =>
          have := hcore.nonkey y hk
          omega
      have hcore1 := DCore.relax_update g source hnn st
        { st with
          distances := mapSet st.distances y (st.distances u + w)
          previousVertices := mapSet st.previousVertices y u
          pq := pqPush (st.distances u + w, y) st.pq }
        u y w (st.distances u + w) hcore hu hfin he rfl hlt hcmax rfl rfl rfl rfl
      have hle1 : ∀ z, mapSet st.distances y (st.distances u + w) z ≤ st.distances z := by
        intro z
        by_cases hz : z = y
        · simp only [mapSet, hz, if_true]
          omega
        · simp [mapSet, hz]
      have hdu : mapSet st.distances y (st.distances u + w) u = st.distances u := by
        simp [mapSet, huy]
      have hset1 : Settled g source (some u)
          { st with
            distances := mapSet st.distances y (st.distances u + w)
            previousVertices := mapSet st.previousVertices y u
            pq := pqPush (st.distances u + w, y) st.pq } := by
        intro x hkx hxu hfx
        by_cases hx : x = y
        · have hdy : mapSet st.distances y (st.distances u + w) x = st.distances u + w := by
            simp [mapSet, hx]
          simp only
          rw [hdy, hx]
          exact Or.inl ((mem_pqPush _ _ _).2 (Or.inl rfl))
        · have hdx : mapSet st.distances y (st.distances u + w) x = st.distances x := by
            simp [mapSet, hx]
          simp only at hfx ⊢
          rw [hdx] at hfx ⊢
          rcases hset x hkx hxu hfx with hd | ⟨hmin, hrel⟩
          · exact Or.inl ((mem_pqPush _ _ _).2 (Or.inr hd))
          · exact Or.inr ⟨hmin, fun z w1 hz => le_trans (hle1 z) (hrel z w1 hz)⟩
      have hmeas : dijkstraMeasure g
          { st with
            distances := mapSet st.distances y (st.distances u + w)
            previousVertices := mapSet st.previousVertices y u
            pq := pqPush (st.distances u + w, y) st.pq } + 1 ≤ dijkstraMeasure g st := by
        have hmem : (y, g.neighbors y) ∈ g.adjList :=
          mem_of_mapAt_eq_some _ _ _ (g.mapAt_of_isKey y hky)
        have hs := sum_map_lt g.adjList (fun kv => (st.distances kv.1).toNat)
          (fun kv => (mapSet st.distances y (st.distances u + w) kv.1).toNat)
          (fun kv _ => Int.toNat_le_toNat (hle1 kv.1)) (y, g.neighbors y) hmem
          (by
            simp only [mapSet, if_true]
            omega)
        simp only [dijkstraMeasure, length_pqPush]
        omega
      obtain ⟨hc2, hs2, hd2, hle2, hrel2, hm2⟩ := ih _ hsubr hcore1 hset1
        (by simp only; rw [hdu]; exact hfin) (by simp only; rw [hdu]; exact hsumr)
      simp only at hd2 hle2 hrel2
      rw [hdu] at hd2 hrel2
      refine ⟨hc2, hs2, hd2, fun x => le_trans (hle2 x) (hle1 x), ?_, by omega⟩
      intro y1 w1 hy1
      rcases List.mem_cons.1 hy1 with h | h
      · have h1 : y1 = y := congrArg Prod.fst h
        have h2 : w1 = w := congrArg Prod.snd h
        rw [h1, h2]
        have := hle2 y
        simp only [mapSet, if_true] at this
        exact this
      · exact hrel2 y1 w1 h
    · have hrun : relax u ((y, w) :: rest) st = relax u rest st := by
        simp only [relax, hwrap, hlt, if_false]
      rw [hrun]
      obtain ⟨hc2, hs2, hd2, hle2, hrel2, hm2⟩ := ih st hsubr hcore hset hfin hsumr
      refine ⟨hc2, hs2, hd2, hle2, ?_, hm2⟩
      intro y1 w1 hy1
      rcases List.mem_cons.1 hy1 with h | h
      · have h1 : y1 = y := congrArg Prod.fst h
        have h2 : w1 = w := congrArg Prod.snd h
        rw [h1, h2]
        have := hle2 y
        omega
      · exact hrel2 y1 w1 h

theorem dijkstraLoop_nil [LT T] [DecidableRel (fun (a b : T) => a < b)] (fuel : Nat)
    (st : DijkstraState T) (h : st.pq = []) : dijkstraLoop fuel st = .ok st := by
  cases fuel <;> simp [dijkstraLoop, h]

theorem dijkstraLoop_cons [LT T] [DecidableRel (fun (a b : T) => a < b)] (fuel : Nat)
    (st : DijkstraState T) (d : Int) (cur : T) (rest : List (Int × T))
    (h : st.pq = (d, cur) :: rest) :
    dijkstraLoop (fuel + 1) st =
      dijkstraLoop fuel
        (relax cur ((mapAt (mapIndex st.adjList cur [] id) cur).getD [])
          { st with
            adjList := mapIndex st.adjList cur [] id
            pq := rest
            calls := st.calls ++ [cur] }) := by
  rw [dijkstraLoop]
  simp [h]

theorem settled_path_cases (g : Graph T) (source : T) (hnn : g.NonNegative)
    (hsb : g.SumsBelowMax source) (st : DijkstraState T) (hcore : DCore g source st)
    (hset : Settled g source none st) {vs : List T} {v : T} {d : Int}
    (hp : g.Path source vs v d) :
    g.isKey v = true →
      (st.distances v ≤ d ∧ g.IsMinWeight source v (st.distances v) ∧
        ∀ y w, (y, w) ∈ g.neighbors v → st.distances y ≤ st.distances v + w) ∨
      ∃ e ∈ st.pq, e.1 ≤ d := by
  induction hp with
  | nil =>
    intro hk
    have hfin : st.distances source < INT_MAX := by
      rw [hcore.src]
      unfold INT_MAX
      omega
    rcases hset source hk (by simp) hfin with hq | ⟨hmin, hrel⟩
    · exact Or.inr ⟨_, hq, le_of_eq hcore.src⟩
    · exact Or.inl ⟨le_of_eq hcore.src, hmin, hrel⟩
  | @snoc vs0 u y d0 w _ he ih =>
    intro hky
    have hw : 0 ≤ w := hnn u y w he
    rcases ih (g.isKey_of_neighbor u y w he) with ⟨hle, hmin, hrel⟩ | ⟨e, he1, hle⟩
    · have hsum := hsb u _ y w hmin he
      have hy := hrel y w he
      rcases hset y hky (by simp) (by omega) with hq | ⟨hm, hr⟩
      · exact Or.inr ⟨_, hq, by
          show st.distances y ≤ d0 + w
          omega⟩
      · exact Or.inl ⟨by omega, hm, hr⟩
    · exact Or.inr ⟨e, he1, by omega⟩

theorem popped_isMinWeight (g : Graph T) (source : T) (hnn : g.NonNegative)
    (hsb : g.SumsBelowMax source) (st : DijkstraState T) (hcore : DCore g source st)
    (hset : Settled g source none st) (d0 : Int) (cur : T) (rest : List (Int × T))
    (hpq : st.pq = (d0, cur) :: rest) : g.IsMinWeight source cur (st.distances cur) := by
  have hmem : (d0, cur) ∈ st.pq := by
    rw [hpq]
    exact List.mem_cons_self _ _
  obtain ⟨hkey, hfin⟩ := hcore.queued (d0, cur) hmem
  have hb : st.distances cur ≤ d0 := hcore.bound (d0, cur) hmem
  have hsorted := hcore.sorted
  rw [hpq] at hsorted
  have hhead : ∀ e ∈ st.pq, d0 ≤ e.1 := by
    intro e he
    rw [hpq] at he
    rcases List.mem_cons.1 he with h | h
    · rw [h]
    · exact (List.pairwise_cons.1 hsorted).1 e h
  obtain ⟨vs, hdp, _⟩ := hcore.path cur hkey hfin
  refine ⟨⟨vs, hdp.toPath⟩, ?_⟩
  intro vs1 d1 hp
  rcases settled_path_cases g source hnn hsb st hcore hset hp hkey with
    ⟨hle, _, _⟩ | ⟨e, he, hle⟩
  · exact hle
  · have := hhead e he
    omega

theorem dijkstraLoop_spec [LT T] [DecidableRel (fun (a b : T) => a < b)]
    (g : Graph T) (source : T) (hnn : g.NonNegative)
    (hsb : g.SumsBelowMax source) (fuel : Nat) :
    ∀ st, DCore g source st → Settled g source none st → dijkstraMeasure g st ≤ fuel →
      ∃ st1, dijkstraLoop fuel st = .ok st1 ∧ DCore g source st1 ∧
        Settled g source none st1 ∧ st1.pq = [] := by
  induction fuel with
  | zero =>
    intro st hcore hset hm
    have hpq : st.pq = [] := by
      have : st.pq.length = 0 := by
        unfold dijkstraMeasure at hm
        omega
      exact List.length_eq_zero.1 this
    exact ⟨st, dijkstraLoop_nil 0 st hpq, hcore, hset, hpq⟩
  | succ fuel ih =>
    intro st hcore hset hm
    cases hpq : st.pq with
    | nil => exact ⟨st, dijkstraLoop_nil _ st hpq, hcore, hset, hpq⟩
    | cons top rest =>
      obtain ⟨d, cur⟩ := top
      have hq := hcore.queued (d, cur) (by rw [hpq]; exact List.mem_cons_self _ _)
      have hkey : g.isKey cur = true := hq.1
      have hfin : st.distances cur < INT_MAX := hq.2
      have hmin : g.IsMinWeight source cur (st.distances cur) :=
        popped_isMinWeight g source hnn hsb st hcore hset d cur rest hpq
      have hsorted := hcore.sorted
      rw [hpq] at hsorted
      have hadj : mapIndex st.adjList cur [] id = g.adjList := by
        rw [hcore.adj]
        exact mapIndex_id_of_isSome _ _ _ hkey
      have hnb : (mapAt g.adjList cur).getD [] = g.neighbors cur := rfl
      rw [dijkstraLoop_cons fuel st d cur rest hpq, hadj, hnb]
      have hcore0 : DCore g source
          { st with adjList := g.adjList, pq := rest, calls := st.calls ++ [cur] } :=
        ⟨rfl, hcore.src, hcore.range, hcore.path,
          fun e he => hcore.queued e (by rw [hpq]; exact List.mem_cons_of_mem _ he),
          hcore.chain, hcore.link, hcore.unreached, hcore.nonkey,
          (List.pairwise_cons.1 hsorted).2,
          fun e he => hcore.bound e (by rw [hpq]; exact List.mem_cons_of_mem _ he)⟩
      have hset0 : Settled g source (some cur)
          { st with adjList := g.adjList, pq := rest, calls := st.calls ++ [cur] } := by
        intro x hkx hxc hfx
        rcases hset x hkx (by simp) hfx with hd1 | hrel
        · rw [hpq] at hd1
          rcases List.mem_cons.1 hd1 with h | h
          · have hx : x = cur := congrArg Prod.snd h
            exact absurd (congrArg some hx) hxc
          · exact Or.inl h
        · exact Or.inr hrel
      have hm0 : dijkstraMeasure g
          { st with adjList := g.adjList, pq := rest, calls := st.calls ++ [cur] } + 1 =
          dijkstraMeasure g st := by
        simp only [dijkstraMeasure, hpq, List.length_cons]
        omega
      obtain ⟨hc2, hs2, hd2, hle2, hrel2, hm2⟩ :=
        relax_spec g source hnn cur hkey (g.neighbors cur) _ (fun e he => he)
          hcore0 hset0 hfin (fun e he => hsb cur _ e.1 e.2 hmin he)
      have hset2 : Settled g source none
          (relax cur (g.neighbors cur)
            { st with adjList := g.adjList, pq := rest, calls := st.calls ++ [cur] }) := by
        intro x hkx _ hfx
        by_cases hx : x = cur
        · rw [hx, hd2]
          refine Or.inr ⟨hmin, ?_⟩
          intro y w hy
          exact hrel2 y w hy
        · exact hs2 x hkx (fun h => hx (Option.some.inj h)) hfx
      exact ih _ hc2 hset2 (by omega)

theorem dijkstraInit_eq (source : T) (l : List (T × List (T × Int)))
    (dist : T → Int) (pred : T → T) :
    dijkstraInit source l (dist, pred) =
      (fun x => if (mapAt l x).isSome = true then INT_MAX else dist x,
        fun x => if (mapAt l x).isSome = true then source else pred x) := by
  induction l generalizing dist pred with
  | nil => simp [dijkstraInit, mapAt]
  | cons kv rest ih =>
    obtain ⟨k, v⟩ := kv
    simp only [dijkstraInit, ih, Prod.mk.injEq]
    constructor
    · funext x
      by_cases hx : k = x
      · subst hx
        simp [mapAt, mapSet]
      · have hx1 : ¬ x = k := fun h => hx h.symm
        simp [mapAt, mapSet, hx, hx1]
    · funext x
      by_cases hx : k = x
      · subst hx
        simp [mapAt, mapSet]
      · have hx1 : ¬ x = k := fun h => hx h.symm
        simp [mapAt, mapSet, hx, hx1]

theorem DCore.of_init (g : Graph T) (source : T) (st : DijkstraState T)
    (hs : g.isKey source = true) (hadj : st.adjList = g.adjList)
    (hpq : st.pq = [(0, source)]) (hd0 : st.distances source = 0)
    (hdk : ∀ x, g.isKey x = true → ¬ x = source → st.distances x = INT_MAX)
    (hdn : ∀ x, g.isKey x = false → ¬ x = source → st.distances x = 0)
    (hpk : ∀ x, g.isKey x = true → st.previousVertices x = source) :
    DCore g source st := by
  refine ⟨hadj, hd0, ?_, ?_, ?_, ?_, ?_, ?_, ?_, ?_, ?_⟩
  · intro x
    by_cases hx : x = source
    · rw [hx, hd0]
      unfold INT_MAX
      omega
    · cases hk : g.isKey x with
      | true =>
        rw [hdk x hk hx]
        unfold INT_MAX
        omega
      | false =>
        rw [hdn x hk hx]
        unfold INT_MAX
        omega
  · intro x hk hfin
    by_cases hx : x = source
    · refine ⟨[source], ?_, List.nodup_singleton _⟩
      rw [hx, hd0]
      exact DPath.nil (by rw [hd0])
    · rw [hdk x hk hx] at hfin
      exact absurd hfin (lt_irrefl _)
  · intro e he
    rw [hpq] at he
    rw [List.mem_singleton.1 he]
    refine ⟨hs, ?_⟩
    simp only [hd0]
    unfold INT_MAX
    omega
  · intro x hk
    by_cases hx : x = source
    · rw [hx]
      exact ⟨_, Chain.base⟩
    · refine ⟨[source] ++ [x], Chain.step hx ?_ ?_⟩
      · rw [hpk x hk]
        exact Chain.base
      · rw [hpk x hk, hd0, hdk x hk hx]
        unfold INT_MAX
        omega
  · intro x hk hx hfin
    rw [hdk x hk hx] at hfin
    exact absurd hfin (lt_irrefl _)
  · intro x hk _ _
    exact hpk x hk
  · intro x hk
    have hx : ¬ x = source := fun h => by rw [h, hs] at hk; exact absurd hk (by simp)
    exact hdn x hk hx
  · rw [hpq]
    exact List.pairwise_singleton _ _
  · intro e he
    rw [hpq] at he
    rw [List.mem_singleton.1 he]
    exact le_of_eq hd0

theorem dijkstra_init_core [Inhabited T] (g : Graph T) (source : T)
    (hs : g.isKey source = true) :
    DCore g source
      { adjList := g.adjList
        distances :=
          mapSet (dijkstraInit source g.adjList (fun _ => 0, fun _ => default)).1 source 0
        previousVertices :=
          (dijkstraInit source g.adjList (fun _ => 0, fun _ => default)).2
        pq := [(0, source)]
        calls := [] } := by
  rw [dijkstraInit_eq]
  refine DCore.of_init g source _ hs rfl rfl (by simp [mapSet]) ?_ ?_ ?_
  · intro x hk hx
    unfold Graph.isKey at hk
    simp [mapSet, hx, hk]
  · intro x hk hx
    unfold Graph.isKey at hk
    simp [mapSet, hx, hk]
  · intro x hk
    unfold Graph.isKey at hk
    simp [hk]

theorem dijkstra_init_measure [Inhabited T] (g : Graph T) (source : T) :
    dijkstraMeasure g
      { adjList := g.adjList
        distances :=
          mapSet (dijkstraInit source g.adjList (fun _ => 0, fun _ => default)).1 source 0
        previousVertices :=
          (dijkstraInit source g.adjList (fun _ => 0, fun _ => default)).2
        pq := [(0, source)]
        calls := [] } ≤ g.dijkstraFuel := by
  rw [dijkstraInit_eq]
  have h := sum_map_le_const g.adjList
    (fun kv => (mapSet (fun x => if (mapAt g.adjList x).isSome = true then INT_MAX else 0)
      source 0 kv.1).toNat) 2147483647 (by
      intro kv _
      by_cases hx : kv.1 = source
      · simp [mapSet, hx]
      · by_cases hk : (mapAt g.adjList kv.1).isSome = true
        · simp [mapSet, hx, hk, INT_MAX]
        · simp [mapSet, hx, hk])
  simp only [dijkstraMeasure, Graph.dijkstraFuel, List.length_singleton]
  omega

theorem walkBack_source (pred : T → T) (s : T) (fuel : Nat) (path : List T) :
    walkBack pred s fuel s path = some (path ++ [s]).reverse := by
  cases fuel <;> simp [walkBack]

theorem walkBack_step (pred : T → T) (s : T) (fuel : Nat) (cur : T) (path : List T)
    (h : cur ≠ s) :
    walkBack pred s (fuel + 1) cur path = walkBack pred s fuel (pred cur) (path ++ [cur]) := by
  rw [walkBack]
  simp [h]

theorem walkBack_of_chain {pred : T → T} {dist : T → Int} {s cur : T} {vs : List T}
    (h : Chain pred dist s cur vs) :
    ∀ fuel path, vs.length ≤ fuel + 1 →
      walkBack pred s fuel cur path = some (vs ++ path.reverse) := by
  induction h with
  | base =>
    intro fuel path _
    rw [walkBack_source]
    simp
  | @step v vs0 hne hc _ ih =>
    intro fuel path hlen
    have hpos := Chain.length_pos hc
    simp only [List.length_append, List.length_singleton] at hlen
    cases fuel with
    | zero => omega
    | succ f =>
      rw [walkBack_step _ _ _ _ _ hne, ih f (path ++ [v]) (by omega)]
      simp

theorem dijkstra_final_finite (g : Graph T) (source : T) (hcl : g.Closed)
    (hs : g.isKey source = true) (hsb : g.SumsBelowMax source) (st : DijkstraState T)
    (hcore : DCore g source st) (hset : Settled g source none st) (hpq : st.pq = [])
    {vs : List T} {v : T} {d : Int} (hp : g.Path source vs v d) :
    g.isKey v = true ∧ st.distances v < INT_MAX := by
  induction hp with
  | nil =>
    refine ⟨hs, ?_⟩
    rw [hcore.src]
    unfold INT_MAX
    omega
  | @snoc vs0 u y d0 w _ he ih =>
    obtain ⟨hku, hfu⟩ := ih
    refine ⟨hcl u y w he, ?_⟩
    rcases hset u hku (by simp) hfu with hd1 | ⟨hmin, hrel⟩
    · rw [hpq] at hd1
      simp at hd1
    · have := hrel y w he
      have := hsb u _ y w hmin he
      omega

theorem dijkstra_final_min (g : Graph T) (source : T) (hcl : g.Closed)
    (hs : g.isKey source = true) (hsb : g.SumsBelowMax source) (st : DijkstraState T)
    (hcore : DCore g source st) (hset : Settled g source none st) (hpq : st.pq = [])
    {vs : List T} {v : T} {d : Int} (hp : g.Path source vs v d) :
    g.IsMinWeight source v (st.distances v) := by
  obtain ⟨hk, hfin⟩ := dijkstra_final_finite g source hcl hs hsb st hcore hset hpq hp
  rcases hset v hk (by simp) hfin with hd1 | ⟨hmin, _⟩
  · rw [hpq] at hd1
    simp at hd1
  · exact hmin

theorem dijkstra_final_chain (g : Graph T) (source : T) (st : DijkstraState T)
    (hcore : DCore g source st) (hset : Settled g source none st) (hpq : st.pq = [])
    {x : T} {vs : List T} (hch : Chain st.previousVertices st.distances source x vs) :
    g.isKey x = true → st.distances x < INT_MAX →
      g.Path source vs x (st.distances x) ∧ ∀ z ∈ vs, g.isKey z = true := by
  induction hch with
  | base =>
    intro hk _
    rw [hcore.src]
    refine ⟨Graph.Path.nil, ?_⟩
    intro z hz
    rw [List.mem_singleton.1 hz]
    exact hk
  | @step v vs0 hne _ _ ih =>
    intro hk hfin
    obtain ⟨hkp, hfp, w, he, hle⟩ := hcore.link v hk hne hfin
    obtain ⟨hpath, hkeys⟩ := ih hkp hfp
    have heq : st.distances v = st.distances (st.previousVertices v) + w := by
      rcases hset _ hkp (by simp) hfp with hd1 | ⟨_, hrel⟩
      · rw [hpq] at hd1
        simp at hd1
      · have := hrel v w he
        omega
    refine ⟨?_, ?_⟩
    · rw [heq]
      exact Graph.Path.snoc hpath he
    · intro z hz
      rcases List.mem_append.1 hz with h | h
      · exact hkeys z h
      · rw [List.mem_singleton.1 h]
        exact hk

theorem dijkstra_chain_length (g : Graph T) (source : T) (st : DijkstraState T)
    (hcore : DCore g source st) (hset : Settled g source none st) (hpq : st.pq = [])
    {x : T} {vs : List T} (hch : Chain st.previousVertices st.distances source x vs)
    (hk : g.isKey x = true) : vs.length ≤ g.adjList.length + 2 := by
  by_cases hfin : st.distances x < INT_MAX
  · obtain ⟨_, hkeys⟩ := dijkstra_final_chain g source st hcore hset hpq hch hk hfin
    have hsub : vs ⊆ g.adjList.map Prod.fst := by
      intro z hz
      have hm := mem_of_mapAt_eq_some _ _ _ (g.mapAt_of_isKey z (hkeys z hz))
      exact List.mem_map.2 ⟨_, hm, rfl⟩
    have := (List.Nodup.subperm (Chain.nodup hch) hsub).length_le
    simp only [List.length_map] at this
    omega
  · have hinf : st.distances x = INT_MAX := by
      have := (hcore.range x).2
      omega
    cases hch with
    | base =>
      simp
    | @step v vs0 hne hc0 _ =>
      rw [hcore.unreached x hk hne hinf] at hc0
      rw [Chain.det hc0 Chain.base]
      simp

theorem dijkstraReport_spec (source : T) (dist : T → Int) (pred : T → T) (fuel : Nat)
    (l : List (T × List (T × Int)))
    (h : ∀ kv ∈ l, ∃ vs, Chain pred dist source kv.1 vs ∧ vs.length ≤ fuel + 1) :
    ∃ lines, dijkstraReport source dist pred fuel l = some lines ∧
      lines.map (fun line => line.dest) = l.map (fun kv => kv.1) ∧
      ∀ line ∈ lines, line.distance = dist line.dest ∧
        Chain pred dist source line.dest line.path := by
  induction l with
  | nil => exact ⟨[], rfl, rfl, by simp⟩
  | cons kv rest ih =>
    obtain ⟨dest, nbrs⟩ := kv
    obtain ⟨lines, hrun, hmap, hall⟩ := ih (fun kv hkv => h kv (List.mem_cons_of_mem _ hkv))
    obtain ⟨vs, hch, hlen⟩ := h (dest, nbrs) (List.mem_cons_self _ _)
    have hwb := walkBack_of_chain hch fuel [] hlen
    simp only [List.reverse_nil, List.append_nil] at hwb
    refine ⟨{ dest := dest, distance := dist dest, path := vs } :: lines, ?_, ?_, ?_⟩
    · simp [dijkstraReport, hwb, hrun]
    · simp [hmap]
    · intro line hl
      rcases List.mem_cons.1 hl with h1 | h1
      · rw [h1]
        exact ⟨rfl, hch⟩
      · exact hall line h1

theorem dijkstra_spec [Inhabited T] [LT T] [DecidableRel (fun (a b : T) => a < b)]
    (g : Graph T) (source : T) (fuel : Nat) (hnn : g.NonNegative)
    (hs : g.isKey source = true) (hsb : g.SumsBelowMax source)
    (hf : g.dijkstraFuel ≤ fuel) :
    ∃ out st, g.dijkstra source fuel = .ok out ∧
      DCore g source st ∧ Settled g source none st ∧ st.pq = [] ∧
      out.report.map (fun line => line.dest) = g.adjList.map (fun kv => kv.1) ∧
      ∀ line ∈ out.report, line.distance = st.distances line.dest ∧
        Chain st.previousVertices st.distances source line.dest line.path := by
  have hcore0 := dijkstra_init_core g source hs
  have hm0 := dijkstra_init_measure g source
  have hset0 : Settled g source none
      { adjList := g.adjList
        distances :=
          mapSet (dijkstraInit source g.adjList (fun _ => 0, fun _ => default)).1 source 0
        previousVertices :=
          (dijkstraInit source g.adjList (fun _ => 0, fun _ => default)).2
        pq := [(0, source)]
        calls := [] } := by
    intro x hk _ hfin
    by_cases hx : x = source
    · refine Or.inl ?_
      rw [hx]
      simp [mapSet]
    · obtain ⟨vs, hdp, hnd⟩ := hcore0.path x hk hfin
      have hinf : ¬ (dijkstraInit source g.adjList
          (fun _ => (0 : Int), fun _ => (default : T))).1 x < INT_MAX := by
        rw [dijkstraInit_eq]
        unfold Graph.isKey at hk
        simp [hk]
      simp only [mapSet, hx, if_false] at hfin
      exact absurd hfin hinf
  obtain ⟨st, hrun, hcore, hset, hpq⟩ :=
    dijkstraLoop_spec g source hnn hsb fuel _ hcore0 hset0 (le_trans hm0 hf)
  have hchains : ∀ kv ∈ st.adjList,
      ∃ vs, Chain st.previousVertices st.distances source kv.1 vs ∧
        vs.length ≤ fuel + 1 := by
    intro kv hkv
    rw [hcore.adj] at hkv
    have hk : g.isKey kv.1 = true := mapAt_isSome_of_mem g.adjList kv.1 kv.2 hkv
    obtain ⟨vs, hch⟩ := hcore.chain kv.1 hk
    have hlen := dijkstra_chain_length g source st hcore hset hpq hch hk
    refine ⟨vs, hch, ?_⟩
    unfold Graph.dijkstraFuel at hf
    omega
  obtain ⟨lines, hrep, hmap, hall⟩ :=
    dijkstraReport_spec source st.distances st.previousVertices fuel st.adjList hchains
  refine ⟨{ calls := st.calls, report := lines }, st, ?_, hcore, hset, hpq, ?_, hall⟩
  · simp only [Graph.dijkstra, hrun, hrep]
  · rw [hmap, hcore.adj]

theorem dijkstraLoop_mono [LT T] [DecidableRel (fun (a b : T) => a < b)] (f : Nat) :
    ∀ (st st1 : DijkstraState T), dijkstraLoop f st = .ok st1 →
      ∀ n, dijkstraLoop (f + n) st = .ok st1 := by
  induction f with
  | zero =>
    intro st st1 h n
    cases hpq : st.pq with
    | nil =>
      rw [dijkstraLoop_nil _ st hpq] at h ⊢
      exact h
    | cons top rest =>
      rw [dijkstraLoop] at h
      simp [hpq] at h
  | succ f ih =>
    intro st st1 h n
    cases hpq : st.pq with
    | nil =>
      rw [dijkstraLoop_nil _ st hpq] at h ⊢
      exact h
    | cons top rest =>
      obtain ⟨d, cur⟩ := top
      have hfuel : f + 1 + n = (f + n) + 1 := by omega
      rw [dijkstraLoop_cons f st d cur rest hpq] at h
      rw [hfuel, dijkstraLoop_cons (f + n) st d cur rest hpq]
      exact ih _ _ h n

theorem walkBack_mono (pred : T → T) (s : T) (f : Nat) :
    ∀ (cur : T) (path p : List T), walkBack pred s f cur path = some p →
      ∀ n, walkBack pred s (f + n) cur path = some p := by
  induction f with
  | zero =>
    intro cur path p h n
    by_cases hc : cur = s
    · rw [hc, walkBack_source] at h ⊢
      exact h
    · rw [walkBack] at h
      simp [hc] at h
  | succ f ih =>
    intro cur path p h n
    by_cases hc : cur = s
    · rw [hc, walkBack_source] at h ⊢
      exact h
    · have hfuel : f + 1 + n = (f + n) + 1 := by omega
      rw [walkBack_step _ _ _ _ _ hc] at h
      rw [hfuel, walkBack_step _ _ _ _ _ hc]
      exact ih _ _ _ h n

theorem dijkstraReport_mono (source : T) (dist : T → Int) (pred : T → T) (f : Nat)
    (l : List (T × List (T × Int))) :
    ∀ lines, dijkstraReport source dist pred f l = some lines →
      ∀ n, dijkstraReport source dist pred (f + n) l = some lines := by
  induction l with
  | nil =>
    intro lines h n
    exact h
  | cons kv rest ih =>
    obtain ⟨dest, nbrs⟩ := kv
    intro lines h n
    cases hw : walkBack pred source f dest [] with
    | none => simp [dijkstraReport, hw] at h
    | some path =>
      cases hr : dijkstraReport source dist pred f rest with
      | none => simp [dijkstraReport, hw, hr] at h
      | some lines0 =>
        simp only [dijkstraReport, hw, hr] at h
        simp only [dijkstraReport, walkBack_mono pred source f dest [] path hw n,
          ih lines0 hr n]
        exact h

theorem dijkstraReport_none (source : T) (dist : T → Int) (pred : T → T) (fuel : Nat)
    (l : List (T × List (T × Int))) (x : T) (hx : x ∈ l.map (fun kv => kv.1))
    (h : walkBack pred source fuel x [] = none) :
    dijkstraReport source dist pred fuel l = none := by
  induction l with
  | nil => simp at hx
  | cons kv rest ih =>
    obtain ⟨dest, nbrs⟩ := kv
    simp only [List.map_cons, List.mem_cons] at hx
    rcases hx with h1 | h1
    · rw [h1] at h
      simp [dijkstraReport, h]
    · have hr := ih h1
      cases hw : walkBack pred source fuel dest [] <;> simp [dijkstraReport, hw, hr]

theorem walkBack_two_cycle (pred : T → T) (s a b : T) (ha : a ≠ s) (hb : b ≠ s)
    (hab : pred a = b) (hba : pred b = a) (fuel : Nat) :
    ∀ (cur : T) (path : List T), cur = a ∨ cur = b →
      walkBack pred s fuel cur path = none := by
  induction fuel with
  | zero =>
    intro cur path hc
    have hcs : ¬ cur = s := by
      rcases hc with h | h
      · rw [h]
        exact ha
      · rw [h]
        exact hb
    rw [walkBack]
    simp [hcs]
  | succ f ih =>
    intro cur path hc
    rcases hc with h | h
    · rw [h, walkBack_step _ _ _ _ _ ha, hab]
      exact ih b _ (Or.inr rfl)
    · rw [h, walkBack_step _ _ _ _ _ hb, hba]
      exact ih a _ (Or.inl rfl)

theorem dijkstra_mono [Inhabited T] [LT T] [DecidableRel (fun (a b : T) => a < b)]
    (g : Graph T) (source : T) (f : Nat) (out : DijkstraOutput T)
    (h : g.dijkstra source f = .ok out) (n : Nat) : g.dijkstra source (f + n) = .ok out := by
  unfold Graph.dijkstra at h ⊢
  simp only at h ⊢
  cases hloop : dijkstraLoop f
      { adjList := g.adjList
        distances :=
          mapSet (dijkstraInit source g.adjList (fun _ => 0, fun _ => default)).1 source 0
        previousVertices :=
          (dijkstraInit source g.adjList (fun _ => 0, fun _ => default)).2
        pq := [(0, source)]
        calls := [] } with
  | error e =>
    rw [hloop] at h
    simp at h
  | ok st =>
    rw [hloop] at h
    rw [dijkstraLoop_mono f _ st hloop n]
    simp only at h ⊢
    cases hrep : dijkstraReport source st.distances st.previousVertices f st.adjList with
    | none =>
      rw [hrep] at h
      simp at h
    | some lines =>
      rw [hrep] at h
      rw [dijkstraReport_mono source _ _ f _ lines hrep n]
      exact h

theorem dijkstra_never_returns [Inhabited T] [LT T] [DecidableRel (fun (a b : T) => a < b)]
    (g : Graph T) (source : T) (f : Nat) (a b : T) (keys : List T)
    (ha : a ≠ source) (hb : b ≠ source) (hmem : a ∈ keys)
    (hloop : (dijkstraLoop f
      { adjList := g.adjList
        distances :=
          mapSet (dijkstraInit source g.adjList (fun _ => 0, fun _ => default)).1 source 0
        previousVertices :=
          (dijkstraInit source g.adjList (fun _ => 0, fun _ => default)).2
        pq := [(0, source)]
        calls := [] }).toOption.map
        (fun st => (st.previousVertices a, st.previousVertices b,
          st.adjList.map (fun kv => kv.1))) = some (b, a, keys))
    (n : Nat) : (g.dijkstra source (f + n)).toOption = none := by
  cases hl : dijkstraLoop f
      { adjList := g.adjList
        distances :=
          mapSet (dijkstraInit source g.adjList (fun _ => 0, fun _ => default)).1 source 0
        previousVertices :=
          (dijkstraInit source g.adjList (fun _ => 0, fun _ => default)).2
        pq := [(0, source)]
        calls := [] } with
  | error e =>
    rw [hl] at hloop
    simp [Except.toOption] at hloop
  | ok st =>
    rw [hl] at hloop
    simp only [Except.toOption, Option.map_some', Option.some.injEq, Prod.mk.injEq] at hloop
    obtain ⟨hab, hba, hkeys⟩ := hloop
    unfold Graph.dijkstra
    simp only
    rw [dijkstraLoop_mono f _ st hl n]
    simp only
    rw [dijkstraReport_none source _ _ (f + n) _ a (by rw [hkeys]; exact hmem)
      (walkBack_two_cycle _ source a b ha hb hab hba (f + n) a [] (Or.inl rfl))]
    rfl

theorem Graph.mem_neighbors_entry (g : Graph T) (u v : T) (w : Int)
    (h : (v, w) ∈ g.neighbors u) : ∃ l, (u, l) ∈ g.adjList ∧ (v, w) ∈ l := by
  unfold Graph.neighbors at h
  cases hm : mapAt g.adjList u with
  | none => simp [hm] at h
  | some l =>
    rw [hm] at h
    exact ⟨l, mem_of_mapAt_eq_some _ _ _ hm, h⟩

theorem Graph.closed_of_entries (g : Graph T)
    (h : ∀ kv ∈ g.adjList, ∀ e ∈ kv.2, g.isKey e.1 = true) : g.Closed := by
  intro u v w he
  obtain ⟨l, hl, hv⟩ := g.mem_neighbors_entry u v w he
  exact h (u, l) hl (v, w) hv

theorem Graph.nonNegative_of_entries (g : Graph T)
    (h : ∀ kv ∈ g.adjList, ∀ e ∈ kv.2, 0 ≤ e.2) : g.NonNegative := by
  intro u v w he
  obtain ⟨l, hl, hv⟩ := g.mem_neighbors_entry u v w he
  exact h (u, l) hl (v, w) hv

theorem Graph.Path.bounded (g : Graph T) (source : T) (W : Int) (hcl : g.Closed)
    (hs : g.isKey source = true) (hW : ∀ kv ∈ g.adjList, ∀ e ∈ kv.2, e.2 ≤ W)
    {vs : List T} {u : T} {d : Int} (hp : g.Path source vs u d) :
    (∀ z ∈ vs, g.isKey z = true) ∧ d + W ≤ vs.length * W := by
  induction hp with
  | nil =>
    refine ⟨?_, by simp⟩
    intro z hz
    rw [List.mem_singleton.1 hz]
    exact hs
  | @snoc vs0 u0 y d0 w _ he ih =>
    obtain ⟨hkeys, hsum⟩ := ih
    obtain ⟨l, hl, hv⟩ := g.mem_neighbors_entry u0 y w he
    have hw : w ≤ W := hW (u0, l) hl (y, w) hv
    refine ⟨?_, ?_⟩
    · intro z hz
      rcases List.mem_append.1 hz with h | h
      · exact hkeys z h
      · rw [List.mem_singleton.1 h]
        exact hcl u0 y w he
    · have hcast : (((vs0 ++ [y]).length : Nat) : Int) * W = (vs0.length : Int) * W + W := by
        simp only [List.length_append, List.length_singleton]
        push_cast
        ring
      rw [hcast]
      omega

theorem Graph.noOverflow_of_bounded (g : Graph T) (source : T) (W : Int) (hcl : g.Closed)
    (hs : g.isKey source = true) (hW0 : 0 ≤ W)
    (hW : ∀ kv ∈ g.adjList, ∀ e ∈ kv.2, e.2 ≤ W)
    (hn : (g.adjList.length : Int) * W < INT_MAX) : g.NoOverflow source := by
  intro vs u d v w hp hnd he
  obtain ⟨hkeys, hsum⟩ := Graph.Path.bounded g source W hcl hs hW hp
  obtain ⟨l, hl, hv⟩ := g.mem_neighbors_entry u v w he
  have hw : w ≤ W := hW (u, l) hl (v, w) hv
  have hsub : vs ⊆ g.adjList.map Prod.fst := by
    intro z hz
    have hm := mem_of_mapAt_eq_some _ _ _ (g.mapAt_of_isKey z (hkeys z hz))
    exact List.mem_map.2 ⟨_, hm, rfl⟩
  have hlen := (List.Nodup.subperm hnd hsub).length_le
  simp only [List.length_map] at hlen
  have hmul : (vs.length : Int) * W ≤ (g.adjList.length : Int) * W :=
    mul_le_mul_of_nonneg_right (by exact_mod_cast hlen) hW0
  omega

theorem triangleABC_closed : triangleABC.Closed :=
  Graph.closed_of_entries _ (by decide)

theorem triangleABC_nonNegative : triangleABC.NonNegative :=
  Graph.nonNegative_of_entries _ (by decide)

theorem triangleABC_noOverflow : triangleABC.NoOverflow 'A' :=
  Graph.noOverflow_of_bounded _ 'A' 4 triangleABC_closed (by decide) (by decide)
    (by decide) (by decide)

theorem Graph.Path.weight_nonneg {g : Graph T} (hnn : g.NonNegative) {s v : T}
    {vs : List T} {d : Int} (h : g.Path s vs v d) : 0 ≤ d := by
  induction h with
  | nil => exact le_refl _
  | snoc _ he ih =>
    have := hnn _ _ _ he
    omega

theorem Graph.isMinWeight_self (g : Graph T) (hnn : g.NonNegative) (s : T) :
    g.IsMinWeight s s 0 :=
  ⟨⟨[s], Graph.Path.nil⟩, fun _ _ hp => hp.weight_nonneg hnn⟩

theorem Graph.Path.initial_part {g : Graph T} (hnn : g.NonNegative) {s u : T}
    {vs : List T} {d : Int} (h : g.Path s vs u d) :
    vs.Nodup → ∀ x ∈ vs, ∃ vs1 d1, g.Path s vs1 x d1 ∧ vs1.Nodup ∧ d1 ≤ d := by
  induction h with
  | nil =>
    intro hnd x hx
    rw [List.mem_singleton.1 hx]
    exact ⟨[s], 0, Graph.Path.nil, hnd, le_refl _⟩
  | @snoc vs0 u0 y d0 w hp he ih =>
    intro hnd x hx
    have hw := hnn _ _ _ he
    rcases List.mem_append.1 hx with h1 | h1
    · obtain ⟨vs1, d1, hp1, hnd1, hle⟩ := ih (List.Nodup.of_append_left hnd) x h1
      exact ⟨vs1, d1, hp1, hnd1, by omega⟩
    · rw [List.mem_singleton.1 h1]
      exact ⟨_, _, Graph.Path.snoc hp he, hnd, le_refl _⟩

theorem Graph.Path.simplify {g : Graph T} (hnn : g.NonNegative) {s u : T}
    {vs : List T} {d : Int} (h : g.Path s vs u d) :
    ∃ vs1 d1, g.Path s vs1 u d1 ∧ vs1.Nodup ∧ d1 ≤ d := by
  induction h with
  | nil => exact ⟨[s], 0, Graph.Path.nil, List.nodup_singleton _, le_refl _⟩
  | @snoc vs0 u0 y d0 w hp he ih =>
    obtain ⟨vs1, d1, hp1, hnd1, hle⟩ := ih
    have hw := hnn _ _ _ he
    by_cases hy : y ∈ vs1
    · obtain ⟨vs2, d2, hp2, hnd2, hle2⟩ := Graph.Path.initial_part hnn hp1 hnd1 y hy
      exact ⟨vs2, d2, hp2, hnd2, by omega⟩
    · refine ⟨vs1 ++ [y], d1 + w, Graph.Path.snoc hp1 he, ?_, by omega⟩
      rw [List.nodup_append]
      refine ⟨hnd1, List.nodup_singleton _, ?_⟩
      intro z hz1 hz2
      rw [List.mem_singleton.1 hz2] at hz1
      exact hy hz1

theorem Graph.sumsBelowMax_of_noOverflow (g : Graph T) (source : T) (hnn : g.NonNegative)
    (hno : g.NoOverflow source) : g.SumsBelowMax source := by
  intro u d v w hmin he
  obtain ⟨⟨vs, hp⟩, hle⟩ := hmin
  obtain ⟨vs1, d1, hp1, hnd1, hle1⟩ := Graph.Path.simplify hnn hp
  have := hle vs1 d1 hp1
  have := hno vs1 u d1 v w hp1 hnd1 he
  omega

theorem triangleABC_sumsBelowMax : triangleABC.SumsBelowMax 'A' :=
  Graph.sumsBelowMax_of_noOverflow _ 'A' triangleABC_nonNegative triangleABC_noOverflow

theorem Graph.Path.of_absent_start {g : Graph T} {s u : T} {vs : List T} {d : Int}
    (hs : g.isKey s = false) (h : g.Path s vs u d) : u = s ∧ d = 0 := by
  induction h with
  | nil => exact ⟨rfl, rfl⟩
  | @snoc vs0 u0 y d0 w _ he ih =>
    rw [ih.1] at he
    have := g.isKey_of_neighbor s y w he
    rw [hs] at this
    exact absurd this (by simp)

theorem Graph.simple_paths_bounded (g : Graph T) (W : Int) (hcl : g.Closed) (hW0 : 0 ≤ W)
    (hW : ∀ kv ∈ g.adjList, ∀ e ∈ kv.2, e.2 ≤ W)
    (hn : (g.adjList.length : Int) * W - W < INT_MAX) :
    ∀ s vs u d, g.Path s vs u d → vs.Nodup → d < INT_MAX := by
  intro s vs u d hp hnd
  cases hs : g.isKey s with
  | false =>
    rw [(Graph.Path.of_absent_start hs hp).2]
    unfold INT_MAX
    omega
  | true =>
    obtain ⟨hkeys, hsum⟩ := Graph.Path.bounded g s W hcl hs hW hp
    have hsub : vs ⊆ g.adjList.map Prod.fst := by
      intro z hz
      have hm := mem_of_mapAt_eq_some _ _ _ (g.mapAt_of_isKey z (hkeys z hz))
      exact List.mem_map.2 ⟨_, hm, rfl⟩
    have hlen := (List.Nodup.subperm hnd hsub).length_le
    simp only [List.length_map] at hlen
    have hmul : (vs.length : Int) * W ≤ (g.adjList.length : Int) * W :=
      mul_le_mul_of_nonneg_right (by exact_mod_cast hlen) hW0
    omega

theorem shortcutABC_nonNegative : shortcutABC.NonNegative :=
  Graph.nonNegative_of_entries _ (by decide)

theorem shortcutABC_closed : shortcutABC.Closed :=
  Graph.closed_of_entries _ (by decide)

theorem shortcutABC_sumsBelowMax : shortcutABC.SumsBelowMax 'A' := by
  intro u d v w hmin he
  have hk := shortcutABC.isKey_of_neighbor u v w he
  have hm := mem_of_mapAt_eq_some _ _ _ (shortcutABC.mapAt_of_isKey u hk)
  have hu : u ∈ shortcutABC.adjList.map Prod.fst := List.mem_map.2 ⟨_, hm, rfl⟩
  have hkeys : shortcutABC.adjList.map Prod.fst = ['A', 'B', 'C'] := by decide
  rw [hkeys] at hu
  simp only [List.mem_cons, List.mem_singleton, List.not_mem_nil, or_false] at hu
  have hA : shortcutABC.Path 'A' ['A'] 'A' 0 := Graph.Path.nil
  have hB : shortcutABC.Path 'A' (['A'] ++ ['B']) 'B' (0 + 1) :=
    Graph.Path.snoc hA (by decide)
  have hC : shortcutABC.Path 'A' (['A'] ++ ['B'] ++ ['C']) 'C' (0 + 1 + 1) :=
    Graph.Path.snoc hB (by decide)
  unfold INT_MAX
  rcases hu with h | h | h
  · rw [h] at hmin he
    have hd := hmin.2 _ _ hA
    have hn : shortcutABC.neighbors 'A' = [('B', 1), ('C', 2147483645)] := by decide
    rw [hn] at he
    simp only [List.mem_cons, List.mem_singleton, List.not_mem_nil, or_false,
      Prod.mk.injEq] at he
    omega
  · rw [h] at hmin he
    have hd := hmin.2 _ _ hB
    have hn : shortcutABC.neighbors 'B' = [('C', 1)] := by decide
    rw [hn] at he
    simp only [List.mem_cons, List.mem_singleton, List.not_mem_nil, or_false,
      Prod.mk.injEq] at he
    omega
  · rw [h] at hmin he
    have hd := hmin.2 _ _ hC
    have hn : shortcutABC.neighbors 'C' = [('A', 5)] := by decide
    rw [hn] at he
    simp only [List.mem_cons, List.mem_singleton, List.not_mem_nil, or_false,
      Prod.mk.injEq] at he
    omega

theorem shortcutABC_not_noOverflow : ¬ shortcutABC.NoOverflow 'A' := by
  intro h
  have := h (['A'] ++ ['C']) 'C' (0 + 2147483645) 'A' 5
    (Graph.Path.snoc Graph.Path.nil (by decide)) (by decide) (by decide)
  unfold INT_MAX at this
  omega

theorem wideEdgeAB_nonNegative : wideEdgeAB.NonNegative :=
  Graph.nonNegative_of_entries _ (by decide)

theorem wideEdgeAB_closed : wideEdgeAB.Closed :=
  Graph.closed_of_entries _ (by decide)

theorem wideEdgeAB_simple_paths :
    ∀ s vs u d, wideEdgeAB.Path s vs u d → vs.Nodup → d < INT_MAX :=
  Graph.simple_paths_bounded _ 1073741824 wideEdgeAB_closed (by decide) (by decide)
    (by decide)

theorem wideEdgeAB_dijkstra :
    wideEdgeAB.dijkstra 'A' 4 =
      .ok { calls := ['A', 'B', 'A', 'B']
            report :=
              [{ dest := 'A', distance := -2147483648, path := ['A'] },
                { dest := 'B', distance := -1073741824, path := ['A', 'B'] }] } :=
  rfl

/-- C1 (the code where a sum leaves the `int` range): on the single undirected edge `A-B`
of weight `2^30` the stored weights are non-negative, every neighbor is a key, `A` is a
key and the weight of every walk that repeats no vertex is below the `int` maximum. Yet
relaxing `B-A` forms `2^30 + 2^30`, which does not fit an `int`; with wrap-around
`dijkstra(A)` returns, for every iteration budget that lets it finish, with the distance
`-2^31` reported for the source `A`, whose minimum total weight is `0`. -/
theorem dijkstra_source_distance_wraps :
    (wideEdgeAB.NonNegative ∧ wideEdgeAB.Closed ∧ wideEdgeAB.isKey 'A' = true ∧
        ∀ s vs u d, wideEdgeAB.Path s vs u d → vs.Nodup → d < INT_MAX) ∧
      (wideEdgeAB.Reachable 'A' 'A' ∧ wideEdgeAB.IsMinWeight 'A' 'A' 0) ∧
      (∀ fuel, (wideEdgeAB.dijkstra 'A' (fuel + 4)).toOption.map
          (fun out => out.report.map (fun line => (line.dest, line.distance))) =
        some [('A', -2147483648), ('B', -1073741824)]) ∧
      ¬ wideEdgeAB.IsMinWeight 'A' 'A' (-2147483648) :=
  ⟨⟨wideEdgeAB_nonNegative, wideEdgeAB_closed, by decide, wideEdgeAB_simple_paths⟩,
    ⟨Graph.Reachable.self _ 'A', Graph.isMinWeight_self _ wideEdgeAB_nonNegative 'A'⟩,
    fun fuel => by
      rw [Nat.add_comm, dijkstra_mono wideEdgeAB 'A' 4 _ wideEdgeAB_dijkstra fuel]
      rfl,
    fun h => by
      obtain ⟨⟨vs, hp⟩, _⟩ := h
      have := hp.weight_nonneg wideEdgeAB_nonNegative
      omega⟩

/-- C1 (amended): on a graph with non-negative stored weights, in which every neighbor is
a key, the source is a key and no minimum total weight from the source plus the weight of
a stored edge leaving the vertex it belongs to reaches the `int` maximum,
`dijkstra(source)` returns normally (for every iteration budget of at least
`dijkstraFuel`), reports one distance per stored vertex, and the distance reported for a
vertex reachable from the source is the minimum total weight over all walks from the
source to it (`0` for the source). -/
theorem dijkstra_distances_minimal [Inhabited T] [LT T]
    [DecidableRel (fun (a b : T) => a < b)] (g : Graph T) (source : T) (fuel : Nat)
    (hnn : g.NonNegative) (hcl : g.Closed) (hs : g.isKey source = true)
    (hsb : g.SumsBelowMax source) (hf : g.dijkstraFuel ≤ fuel) :
    ∃ out, g.dijkstra source fuel = .ok out ∧
      out.report.map (fun line => line.dest) = g.adjList.map (fun kv => kv.1) ∧
      ∀ line ∈ out.report, g.Reachable source line.dest →
        g.IsMinWeight source line.dest line.distance ∧
          (line.dest = source → line.distance = 0) := by
  obtain ⟨out, st, hrun, hcore, hset, hpq, hmap, hall⟩ :=
    dijkstra_spec g source fuel hnn hs hsb hf
  refine ⟨out, hrun, hmap, ?_⟩
  intro line hl hreach
  obtain ⟨hdist, _⟩ := hall line hl
  obtain ⟨vs, d, hp⟩ := hreach
  rw [hdist]
  refine ⟨dijkstra_final_min g source hcl hs hsb st hcore hset hpq hp, ?_⟩
  intro hsrc
  rw [hsrc]
  exact hcore.src

/-- C1 (amended) on the graph `A-B(4)`, `A-C(1)`, `C-B(1)` from `A`: the reported
distances are `0`, `2` and `1`. And on the directed graph `A->B(1)`, `B->C(1)`,
`A->C(2^31-3)`, `C->A(5)` from `A`, where the walk `A, C, A` weighs more than the `int`
maximum but no sum formed from a minimum total weight does: the reported distances are
`0`, `1` and `2`. -/
theorem dijkstra_distances_minimal_witness :
    ((triangleABC.NonNegative ∧ triangleABC.Closed ∧ triangleABC.isKey 'A' = true ∧
          triangleABC.SumsBelowMax 'A' ∧ triangleABC.dijkstraFuel ≤ 12884901888) ∧
        (triangleABC.dijkstra 'A' 12884901888).toOption.map
            (fun out => out.report.map (fun line => (line.dest, line.distance))) =
          some [('A', 0), ('B', 2), ('C', 1)] ∧
        ∃ out, triangleABC.dijkstra 'A' 12884901888 = .ok out ∧
          out.report.map (fun line => line.dest) =
            triangleABC.adjList.map (fun kv => kv.1) ∧
          ∀ line ∈ out.report, triangleABC.Reachable 'A' line.dest →
            triangleABC.IsMinWeight 'A' line.dest line.distance ∧
              (line.dest = 'A' → line.distance = 0)) ∧
      ((shortcutABC.NonNegative ∧ shortcutABC.Closed ∧ shortcutABC.isKey 'A' = true ∧
          shortcutABC.SumsBelowMax 'A' ∧ shortcutABC.dijkstraFuel ≤ 12884901888) ∧
        (shortcutABC.dijkstra 'A' 12884901888).toOption.map
            (fun out => out.report.map (fun line => (line.dest, line.distance))) =
          some [('A', 0), ('B', 1), ('C', 2)] ∧
        ∃ out, shortcutABC.dijkstra 'A' 12884901888 = .ok out ∧
          out.report.map (fun line => line.dest) =
            shortcutABC.adjList.map (fun kv => kv.1) ∧
          ∀ line ∈ out.report, shortcutABC.Reachable 'A' line.dest →
            shortcutABC.IsMinWeight 'A' line.dest line.distance ∧
              (line.dest = 'A' → line.distance = 0)) :=
  ⟨⟨⟨triangleABC_nonNegative, triangleABC_closed, by decide, triangleABC_sumsBelowMax,
        by decide⟩, by decide,
      dijkstra_distances_minimal triangleABC 'A' 12884901888 triangleABC_nonNegative
        triangleABC_closed (by decide) triangleABC_sumsBelowMax (by decide)⟩,
    ⟨shortcutABC_nonNegative, shortcutABC_closed, by decide, shortcutABC_sumsBelowMax,
        by decide⟩, by decide,
      dijkstra_distances_minimal shortcutABC 'A' 12884901888 shortcutABC_nonNegative
        shortcutABC_closed (by decide) shortcutABC_sumsBelowMax (by decide)⟩

/-- C2 (the code where a sum leaves the `int` range): on the single undirected edge `A-B`
of weight `2^30`, which meets the preconditions as worded, `B` is reachable from `A` and
`dijkstra(A)` reports for `B` the path `A, B` and, after the wrap-around of
`2^30 + 2^30`, the distance `-2^30`; no choice of stored edges along `A, B` has that
total weight. -/
theorem dijkstra_path_weight_differs :
    (wideEdgeAB.NonNegative ∧ wideEdgeAB.Closed ∧ wideEdgeAB.isKey 'A' = true ∧
        ∀ s vs u d, wideEdgeAB.Path s vs u d → vs.Nodup → d < INT_MAX) ∧
      wideEdgeAB.Reachable 'A' 'B' ∧
      (∀ fuel, (wideEdgeAB.dijkstra 'A' (fuel + 4)).toOption.map
          (fun out => out.report.map (fun line => (line.dest, line.distance, line.path))) =
        some [('A', -2147483648, ['A']), ('B', -1073741824, ['A', 'B'])]) ∧
      ¬ wideEdgeAB.Path 'A' ['A', 'B'] 'B' (-1073741824) :=
  ⟨⟨wideEdgeAB_nonNegative, wideEdgeAB_closed, by decide, wideEdgeAB_simple_paths⟩,
    ⟨['A'] ++ ['B'], 0 + 1073741824, Graph.Path.snoc Graph.Path.nil (by decide)⟩,
    fun fuel => by
      rw [Nat.add_comm, dijkstra_mono wideEdgeAB 'A' 4 _ wideEdgeAB_dijkstra fuel]
      rfl,
    fun hp => by
      have := hp.weight_nonneg wideEdgeAB_nonNegative
      omega⟩

/-- C2 (amended): on a graph with non-negative stored weights, in which every neighbor is
a key, the source is a key and no minimum total weight from the source plus the weight of
a stored edge leaving the vertex it belongs to reaches the `int` maximum, the path that
`dijkstra(source)` reconstructs for a stored vertex reachable from the source starts with
the source, ends with that vertex, follows a stored edge at every step, and the weights
of the entries followed add up to the distance reported for the vertex. -/
theorem dijkstra_paths_realise_distances [Inhabited T] [LT T]
    [DecidableRel (fun (a b : T) => a < b)] (g : Graph T) (source : T) (fuel : Nat)
    (hnn : g.NonNegative) (hcl : g.Closed) (hs : g.isKey source = true)
    (hsb : g.SumsBelowMax source) (hf : g.dijkstraFuel ≤ fuel) :
    ∃ out, g.dijkstra source fuel = .ok out ∧
      out.report.map (fun line => line.dest) = g.adjList.map (fun kv => kv.1) ∧
      ∀ line ∈ out.report, g.Reachable source line.dest →
        g.Path source line.path line.dest line.distance ∧
          line.path.head? = some source ∧ line.path.getLast? = some line.dest := by
  obtain ⟨out, st, hrun, hcore, hset, hpq, hmap, hall⟩ :=
    dijkstra_spec g source fuel hnn hs hsb hf
  refine ⟨out, hrun, hmap, ?_⟩
  intro line hl hreach
  obtain ⟨hdist, hch⟩ := hall line hl
  obtain ⟨vs, d, hp⟩ := hreach
  obtain ⟨hk, hfin⟩ := dijkstra_final_finite g source hcl hs hsb st hcore hset hpq hp
  obtain ⟨hpath, _⟩ := dijkstra_final_chain g source st hcore hset hpq hch hk hfin
  rw [hdist]
  exact ⟨hpath, hpath.ends⟩

/-- C2 (amended) on the graph `A-B(4)`, `A-C(1)`, `C-B(1)` from `A`: the path reported
for `B` is `A, C, B`. -/
theorem dijkstra_paths_realise_distances_witness :
    (triangleABC.NonNegative ∧ triangleABC.Closed ∧ triangleABC.isKey 'A' = true ∧
        triangleABC.SumsBelowMax 'A' ∧ triangleABC.dijkstraFuel ≤ 12884901888) ∧
      (triangleABC.dijkstra 'A' 12884901888).toOption.map
          (fun out => out.report.map (fun line => (line.dest, line.path))) =
        some [('A', ['A']), ('B', ['A', 'C', 'B']), ('C', ['A', 'C'])] ∧
      ∃ out, triangleABC.dijkstra 'A' 12884901888 = .ok out ∧
        out.report.map (fun line => line.dest) = triangleABC.adjList.map (fun kv => kv.1) ∧
        ∀ line ∈ out.report, triangleABC.Reachable 'A' line.dest →
          triangleABC.Path 'A' line.path line.dest line.distance ∧
            line.path.head? = some 'A' ∧ line.path.getLast? = some line.dest :=
  ⟨⟨triangleABC_nonNegative, triangleABC_closed, by decide, triangleABC_sumsBelowMax,
      by decide⟩, by decide,
    dijkstra_paths_realise_distances triangleABC 'A' 12884901888 triangleABC_nonNegative
      triangleABC_closed (by decide) triangleABC_sumsBelowMax (by decide)⟩

end DijkstraLemmas

/-! ## The traversals on the graph `A-B(4)`, `A-C(1)`, `C-B(1)` -/

section TraversalWitnesses

/-- C3 on `triangleABC` from `A`: the recursive traversal calls the visitor on
`A, B, C`. -/
theorem dfs_visits_reachable_once_witness :
    (triangleABC.isKey 'A' = true ∧ triangleABC.Closed ∧ triangleABC.fuelBound ≤ 10) ∧
      (triangleABC.dfs 'A' 10).toOption.map (fun st => st.calls) = some ['A', 'B', 'C'] ∧
      ∃ st, triangleABC.dfs 'A' 10 = .ok st ∧ st.calls.head? = some 'A' ∧
        st.calls.Nodup ∧ ∀ v, v ∈ st.calls ↔ triangleABC.Reachable 'A' v :=
  ⟨⟨by decide, triangleABC_closed, by decide⟩, by decide,
    dfs_visits_reachable_once triangleABC 'A' 10 (by decide) triangleABC_closed
      (by decide)⟩

/-- C4 on `triangleABC` from `A`: the visitor is called on `A, C, B`, although `B` is
pushed a second time (while `C` is expanded) before it is first popped. -/
theorem dfs_stack_visits_reachable_once_witness :
    (triangleABC.isKey 'A' = true ∧ triangleABC.Closed ∧ triangleABC.fuelBound ≤ 10) ∧
      (triangleABC.dfs_stack 'A' 10).toOption.map (fun st => st.calls) =
        some ['A', 'C', 'B'] ∧
      dfsStackPush ['C', 'A'] (triangleABC.neighbors 'C') ['B'] = ['B', 'B'] ∧
      ∃ st, triangleABC.dfs_stack 'A' 10 = .ok st ∧ st.calls.Nodup ∧
        ∀ v, v ∈ st.calls ↔ triangleABC.Reachable 'A' v :=
  ⟨⟨by decide, triangleABC_closed, by decide⟩, by decide, by decide,
    dfs_stack_visits_reachable_once triangleABC 'A' 10 (by decide) triangleABC_closed
      (by decide)⟩

/-- C5 on `triangleABC` from `A`: the visitor is called on `A, B, C`. -/
theorem bfs_queue_visits_reachable_once_witness :
    (triangleABC.isKey 'A' = true ∧ triangleABC.Closed ∧ triangleABC.fuelBound ≤ 10) ∧
      (triangleABC.bfs_queue 'A' 10).toOption.map (fun st => st.calls) =
        some ['A', 'B', 'C'] ∧
      ∃ st, triangleABC.bfs_queue 'A' 10 = .ok st ∧ st.calls.Nodup ∧
        ∀ v, v ∈ st.calls ↔ triangleABC.Reachable 'A' v :=
  ⟨⟨by decide, triangleABC_closed, by decide⟩, by decide,
    bfs_queue_visits_reachable_once triangleABC 'A' 10 (by decide) triangleABC_closed
      (by decide)⟩

/-- C6 on `triangleABC` from `A`: the visits `A, B, C` are at edge distances
`0, 1, 1`. -/
theorem bfs_queue_level_order_witness :
    (triangleABC.isKey 'A' = true ∧ triangleABC.Closed ∧ triangleABC.fuelBound ≤ 10) ∧
      (triangleABC.bfs_queue 'A' 10).toOption.map (fun st => st.calls) =
        some ['A', 'B', 'C'] ∧
      ∃ st, triangleABC.bfs_queue 'A' 10 = .ok st ∧
        ∃ dist : Char → Nat, (∀ v ∈ st.calls, triangleABC.IsEdgeDist 'A' v (dist v)) ∧
          st.calls.Pairwise (fun u v => dist u ≤ dist v) :=
  ⟨⟨by decide, triangleABC_closed, by decide⟩, by decide,
    bfs_queue_level_order triangleABC 'A' 10 (by decide) triangleABC_closed (by decide)⟩

end TraversalWitnesses

/-! ## Edge removal, vertex insertion, emptiness -/

section StoreFrame

variable {T : Type} [DecidableEq T]

theorem mapIndex_of_absent {β : Type} (m : List (T × β)) (k : T) (dflt : β) (f : β → β)
    (h : mapAt m k = none) : mapIndex m k dflt f = m ++ [(k, f dflt)] := by
  induction m with
  | nil => simp [mapIndex]
  | cons kv rest ih =>
    obtain ⟨k1, v1⟩ := kv
    by_cases h1 : k1 = k
    · simp [mapAt, h1] at h
    · simp only [mapAt, h1, if_false] at h
      simp [mapIndex, h1, ih h]

theorem mapIndex_of_fixed {β : Type} (m : List (T × β)) (k : T) (dflt : β) (f : β → β)
    (v : β) (h : mapAt m k = some v) (hf : f v = v) : mapIndex m k dflt f = m := by
  induction m with
  | nil => simp [mapAt] at h
  | cons kv rest ih =>
    obtain ⟨k1, v1⟩ := kv
    by_cases h1 : k1 = k
    · simp only [mapAt, h1, if_true, Option.some.injEq] at h
      simp [mapIndex, h1, h, hf]
    · simp only [mapAt, h1, if_false] at h
      simp [mapIndex, h1, ih h]

theorem mapIndex_ne_nil {β : Type} (m : List (T × β)) (k : T) (dflt : β) (f : β → β) :
    mapIndex m k dflt f ≠ [] := by
  cases m with
  | nil => simp [mapIndex]
  | cons kv rest =>
    obtain ⟨k1, v1⟩ := kv
    by_cases h1 : k1 = k <;> simp [mapIndex, h1]

theorem getD_mapAt_mapIndex {β : Type} (m : List (T × β)) (k v : T) (dflt : β)
    (f : β → β) :
    (mapAt (mapIndex m k dflt f) v).getD dflt =
      if v = k then f ((mapAt m k).getD dflt) else (mapAt m v).getD dflt := by
  by_cases h : v = k
  · subst h
    simp [mapAt_mapIndex_self]
  · simp [h, mapAt_mapIndex_ne _ _ _ _ _ h]

theorem isSome_mapAt_mapIndex {β : Type} (m : List (T × β)) (k v : T) (dflt : β)
    (f : β → β) :
    (mapAt (mapIndex m k dflt f) v).isSome = ((mapAt m v).isSome || decide (v = k)) := by
  by_cases h : v = k
  · subst h
    simp [mapAt_mapIndex_self]
  · simp [h, mapAt_mapIndex_ne _ _ _ _ _ h]

theorem listRemove_idem (l : List (T × Int)) (a : T × Int) :
    listRemove (listRemove l a) a = listRemove l a := by
  simp [listRemove, List.filter_filter]

theorem length_listRemove_add_count (l : List (T × Int)) (a : T × Int) :
    (listRemove l a).length + l.count a = l.length := by
  induction l with
  | nil => simp [listRemove]
  | cons e rest ih =>
    unfold listRemove at ih ⊢
    simp only [ne_eq] at ih
    by_cases h : e = a
    · subst h
      simp only [List.filter_cons, ne_eq, not_true_eq_false, decide_False, Bool.false_eq_true,
        if_false, List.count_cons_self, List.length_cons]
      omega
    · have h1 : ¬ a = e := fun h2 => h h2.symm
      simp only [List.filter_cons, ne_eq, h, not_false_eq_true, decide_True, if_true,
        List.length_cons, List.count_cons_of_ne h1]
      omega

theorem Graph.neighbors_removeEdge_src (g : Graph T) (s d : T) :
    (g.removeEdge s d).neighbors s = listRemove (g.neighbors s) (d, g.removeKey) := by
  unfold Graph.removeEdge Graph.neighbors
  by_cases hd : g.isDirected = true
  · simp only [hd, if_true, getD_mapAt_mapIndex]
  · simp only [hd, Bool.false_eq_true, if_false, getD_mapAt_mapIndex, if_true]
    by_cases hsd : s = d
    · subst hsd
      simp only [if_true]
      exact listRemove_idem _ _
    · simp only [hsd, if_false]

theorem Graph.neighbors_removeEdge_dest (g : Graph T) (s d : T)
    (hd : g.isDirected = false) :
    (g.removeEdge s d).neighbors d = listRemove (g.neighbors d) (s, g.removeKey) := by
  unfold Graph.removeEdge Graph.neighbors
  simp only [hd, Bool.false_eq_true, if_false, getD_mapAt_mapIndex, if_true]
  by_cases hsd : d = s
  · subst hsd
    simp only [if_true]
    exact listRemove_idem _ _
  · simp only [hsd, if_false]

/-- C12 (the code on parallel edges): with the edge `A -> B` stored twice, `removeEdge(A,
B)` takes the neighbor list of `A` from two entries to none. -/
theorem removeEdge_parallel_edges :
    (parallelAB.neighbors 'A').length = 2 ∧
      ((parallelAB.removeEdge 'A' 'B').neighbors 'A').length = 0 ∧
      ¬ (parallelAB.neighbors 'A').length ≤
          ((parallelAB.removeEdge 'A' 'B').neighbors 'A').length + 1 := by
  decide

/-- C12 (amended): `removeEdge(s, d)` erases from the neighbor list of `s` every entry
equal to `(d, k)`, with `k = 0` in a weighted and `k = 1` in an unweighted graph, and no
other entry (and, in an undirected graph, every entry equal to `(s, k)` from the neighbor
list of `d`): each affected list gets shorter by the number of those entries. -/
theorem removeEdge_erases_every_match (g : Graph T) (s d : T) :
    ((g.removeEdge s d).neighbors s =
        (g.neighbors s).filter (fun e => decide (e ≠ (d, if g.isWeighted = true then 0 else 1))) ∧
      ((g.removeEdge s d).neighbors s).length +
          (g.neighbors s).count (d, if g.isWeighted = true then 0 else 1) =
        (g.neighbors s).length) ∧
    (g.isDirected = false →
      (g.removeEdge s d).neighbors d =
          (g.neighbors d).filter
            (fun e => decide (e ≠ (s, if g.isWeighted = true then 0 else 1))) ∧
        ((g.removeEdge s d).neighbors d).length +
            (g.neighbors d).count (s, if g.isWeighted = true then 0 else 1) =
          (g.neighbors d).length) := by
  refine ⟨⟨g.neighbors_removeEdge_src s d, ?_⟩, fun hd =>
    ⟨g.neighbors_removeEdge_dest s d hd, ?_⟩⟩
  · rw [g.neighbors_removeEdge_src s d]
    exact length_listRemove_add_count _ _
  · rw [g.neighbors_removeEdge_dest s d hd]
    exact length_listRemove_add_count _ _

/-- C12 (amended) on the undirected graph `A-B(4)`, `A-C(1)`, `C-B(1)`. -/
theorem removeEdge_erases_every_match_witness :
    triangleABC.isDirected = false ∧
      (triangleABC.removeEdge 'A' 'B').neighbors 'B' =
          (triangleABC.neighbors 'B').filter
            (fun e => decide (e ≠ ('A', if triangleABC.isWeighted = true then 0 else 1))) ∧
        ((triangleABC.removeEdge 'A' 'B').neighbors 'B').length +
            (triangleABC.neighbors 'B').count
              ('A', if triangleABC.isWeighted = true then 0 else 1) =
          (triangleABC.neighbors 'B').length :=
  ⟨rfl, (removeEdge_erases_every_match triangleABC 'A' 'B').2 rfl⟩

theorem getD_mapAt_mapIndex_fixed (m : List (T × List (T × Int))) (k v : T)
    (f : List (T × Int) → List (T × Int))
    (hf : f ((mapAt m k).getD []) = (mapAt m k).getD []) :
    (mapAt (mapIndex m k [] f) v).getD [] = (mapAt m v).getD [] := by
  rw [getD_mapAt_mapIndex]
  by_cases h : v = k
  · subst h
    simp [hf]
  · simp [h]

theorem Graph.listRemove_neighbors_of_nonzero (g : Graph T) (hw : g.isWeighted = true)
    (hnz : ∀ kv ∈ g.adjList, ∀ e ∈ kv.2, e.2 ≠ 0) (k x : T) :
    listRemove (g.neighbors k) (x, g.removeKey) = g.neighbors k := by
  unfold listRemove
  rw [List.filter_eq_self]
  intro e he
  obtain ⟨v, w⟩ := e
  obtain ⟨l, hl, hv⟩ := g.mem_neighbors_entry k v w he
  have hne : w ≠ 0 := hnz (k, l) hl (v, w) hv
  simp only [Graph.removeKey, hw, if_true, ne_eq, Prod.mk.injEq, not_and, decide_eq_true_eq]
  exact fun _ => hne

/-- C13 (the code on an absent endpoint): on the weighted graph `A-B(4)`, `A-C(1)`,
`C-B(1)`, whose stored weights are all nonzero, `removeEdge(A, Z)` changes the store:
`Z` becomes a key. -/
theorem removeEdge_creates_endpoint :
    triangleABC.isWeighted = true ∧
      (∀ kv ∈ triangleABC.adjList, ∀ e ∈ kv.2, e.2 ≠ 0) ∧
      triangleABC.isKey 'Z' = false ∧
      (triangleABC.removeEdge 'A' 'Z').isKey 'Z' = true ∧
      (triangleABC.removeEdge 'A' 'Z').adjList ≠ triangleABC.adjList := by
  decide

/-- C13 (amended): in a weighted graph in which every stored edge weight is nonzero,
`removeEdge(s, d)` changes no neighbor list and removes no key; the keys afterwards are
the old keys together with `s` and, in an undirected graph, `d`; and when `s` (and `d`, in
an undirected graph) is a key already the adjacency store is identical to the store
before the call. -/
theorem removeEdge_weighted_nonzero_frame (g : Graph T) (s d : T)
    (hw : g.isWeighted = true) (hnz : ∀ kv ∈ g.adjList, ∀ e ∈ kv.2, e.2 ≠ 0) :
    (∀ v, (g.removeEdge s d).neighbors v = g.neighbors v) ∧
      (∀ v, (g.removeEdge s d).isKey v =
        (g.isKey v || decide (v = s) || (!g.isDirected && decide (v = d)))) ∧
      (g.isKey s = true → (g.isDirected = true ∨ g.isKey d = true) →
        (g.removeEdge s d).adjList = g.adjList) := by
  have hfix := g.listRemove_neighbors_of_nonzero hw hnz
  have hm1 : ∀ v, (mapAt (mapIndex g.adjList s []
      (fun l => listRemove l (d, g.removeKey))) v).getD [] = (mapAt g.adjList v).getD [] :=
    fun v => getD_mapAt_mapIndex_fixed _ _ _ _ (hfix s d)
  refine ⟨?_, ?_, ?_⟩
  · intro v
    unfold Graph.removeEdge
    by_cases hd : g.isDirected = true
    · simp only [hd, if_true, Graph.neighbors]
      exact hm1 v
    · simp only [hd, Bool.false_eq_true, if_false, Graph.neighbors]
      rw [getD_mapAt_mapIndex_fixed _ _ _ _ (by rw [hm1 d]; exact hfix d s)]
      exact hm1 v
  · intro v
    unfold Graph.removeEdge Graph.isKey
    by_cases hd : g.isDirected = true
    · simp [hd, isSome_mapAt_mapIndex]
    · simp [hd, isSome_mapAt_mapIndex]
  · intro hs hdk
    have hms := g.mapAt_of_isKey s hs
    have h1 : mapIndex g.adjList s [] (fun l => listRemove l (d, g.removeKey)) = g.adjList :=
      mapIndex_of_fixed _ _ _ _ _ hms (hfix s d)
    unfold Graph.removeEdge
    simp only [h1]
    by_cases hd : g.isDirected = true
    · simp [hd]
    · rcases hdk with hdk | hdk
      · exact absurd hdk hd
      · have hmd := g.mapAt_of_isKey d hdk
        have h2 : mapIndex g.adjList d [] (fun l => listRemove l (s, g.removeKey)) =
            g.adjList := mapIndex_of_fixed _ _ _ _ _ hmd (hfix d s)
        simp [hd, h2]

/-- C13 (amended) on the graph `A-B(4)`, `A-C(1)`, `C-B(1)` with `removeEdge(A, B)`: the
store is unchanged and the edge is still there. -/
theorem removeEdge_weighted_nonzero_frame_witness :
    (triangleABC.isWeighted = true ∧ ∀ kv ∈ triangleABC.adjList, ∀ e ∈ kv.2, e.2 ≠ 0) ∧
      (triangleABC.isKey 'A' = true ∧
        (triangleABC.isDirected = true ∨ triangleABC.isKey 'B' = true)) ∧
      (triangleABC.removeEdge 'A' 'B').adjList = triangleABC.adjList :=
  ⟨⟨by decide, by decide⟩, ⟨by decide, Or.inr (by decide)⟩,
    (removeEdge_weighted_nonzero_frame triangleABC 'A' 'B' (by decide) (by decide)).2.2
      (by decide) (Or.inr (by decide))⟩

/-- C14: after `addVertex(v)` the vertex `v` is a key whose neighbor list is empty
(whatever was stored for it before), and for every other vertex both being a key and the
neighbor list are as before the call. -/
theorem addVertex_resets_only_vertex (g : Graph T) (v : T) :
    (g.addVertex v).isKey v = true ∧ (g.addVertex v).neighbors v = [] ∧
      mapAt (g.addVertex v).adjList v = some [] ∧
      ∀ u, u ≠ v →
        (g.addVertex v).isKey u = g.isKey u ∧
          mapAt (g.addVertex v).adjList u = mapAt g.adjList u ∧
          (g.addVertex v).neighbors u = g.neighbors u := by
  have hself : mapAt (g.addVertex v).adjList v = some [] := by
    unfold Graph.addVertex
    simp [mapAt_mapIndex_self]
  refine ⟨by simp [Graph.isKey, hself], by simp [Graph.neighbors, hself], hself, ?_⟩
  intro u hu
  have hne : mapAt (g.addVertex v).adjList u = mapAt g.adjList u := by
    unfold Graph.addVertex
    exact mapAt_mapIndex_ne _ _ _ _ _ hu
  exact ⟨by simp [Graph.isKey, hne], hne, by simp [Graph.neighbors, hne]⟩

/-- C14 on the graph `A-B(4)`, `A-C(1)`, `C-B(1)` with `addVertex(A)`: the two edges
stored for `A` are dropped, the list of `B` is kept. -/
theorem addVertex_resets_only_vertex_witness :
    'B' ≠ 'A' ∧ triangleABC.neighbors 'A' = [('B', 4), ('C', 1)] ∧
      (triangleABC.addVertex 'A').neighbors 'A' = [] ∧
      (triangleABC.addVertex 'A').isKey 'B' = triangleABC.isKey 'B' ∧
      mapAt (triangleABC.addVertex 'A').adjList 'B' = mapAt triangleABC.adjList 'B' ∧
      (triangleABC.addVertex 'A').neighbors 'B' = triangleABC.neighbors 'B' :=
  ⟨by decide, by decide, (addVertex_resets_only_vertex triangleABC 'A').2.1,
    (addVertex_resets_only_vertex triangleABC 'A').2.2.2 'B' (by decide)⟩

theorem Graph.isEmpty_apply_false (g : Graph T) (op : Op T) (h : op ≠ Op.clearGraph) :
    (g.apply op).isEmpty = false := by
  cases op with
  | addVertex v =>
    simp [Graph.apply, Graph.addVertex, Graph.isEmpty, List.isEmpty_eq_true, mapIndex_ne_nil]
  | addEdge s d w =>
    by_cases hd : g.isDirected = true <;>
      simp [Graph.apply, Graph.addEdge, Graph.isEmpty, List.isEmpty_eq_true,
        mapIndex_ne_nil, hd]
  | removeEdge s d =>
    by_cases hd : g.isDirected = true <;>
      simp [Graph.apply, Graph.removeEdge, Graph.isEmpty, List.isEmpty_eq_true,
        mapIndex_ne_nil, hd]
  | clearGraph => exact absurd rfl h

theorem Graph.isEmpty_run_false (rest : List (Op T)) (g : Graph T)
    (hg : g.isEmpty = false) (h : ∀ op ∈ rest, op ≠ Op.clearGraph) :
    (g.run rest).isEmpty = false := by
  induction rest generalizing g with
  | nil => exact hg
  | cons op rest ih =>
    exact ih (g.apply op) (g.isEmpty_apply_false op (h op (List.mem_cons_self _ _)))
      (fun o ho => h o (List.mem_cons_of_mem _ ho))

/-- C15: `isEmpty()` is true exactly when no vertex is a key; it is true for a newly
constructed graph and after `clearGraph()` on any graph; clearing twice gives the same
store as clearing once; and it is false after an `addVertex` or `addEdge` followed by any
calls other than `clearGraph`. -/
theorem isEmpty_iff_no_vertex (g : Graph T) (weighted directed : Bool) (v s d : T)
    (w : Int) (rest : List (Op T)) (hrest : ∀ op ∈ rest, op ≠ Op.clearGraph) :
    (g.isEmpty = true ↔ ∀ x, g.isKey x = false) ∧
      (Graph.new T weighted directed).isEmpty = true ∧
      g.clearGraph.isEmpty = true ∧ g.clearGraph.clearGraph = g.clearGraph ∧
      ((g.addVertex v).run rest).isEmpty = false ∧
      ((g.addEdge s d w).run rest).isEmpty = false := by
  refine ⟨?_, rfl, rfl, rfl, ?_, ?_⟩
  · unfold Graph.isEmpty Graph.isKey
    cases hadj : g.adjList with
    | nil => simp [mapAt]
    | cons kv tail =>
      obtain ⟨k, l⟩ := kv
      simp only [List.isEmpty_cons, Bool.false_eq_true, false_iff, not_forall]
      exact ⟨k, by simp [mapAt]⟩
  · exact Graph.isEmpty_run_false rest _
      (g.isEmpty_apply_false (Op.addVertex v) (by simp)) hrest
  · exact Graph.isEmpty_run_false rest _
      (g.isEmpty_apply_false (Op.addEdge s d w) (by simp)) hrest

/-- C15 on the graph `A-B(4)`, `A-C(1)`, `C-B(1)`, with one `removeEdge` after the
insertion. -/
theorem isEmpty_iff_no_vertex_witness :
    (∀ op ∈ [Op.removeEdge 'A' 'B'], op ≠ Op.clearGraph) ∧
      triangleABC.isEmpty = false ∧
      ((triangleABC.isEmpty = true ↔ ∀ x, triangleABC.isKey x = false) ∧
        (Graph.new Char true false).isEmpty = true ∧
        triangleABC.clearGraph.isEmpty = true ∧
        triangleABC.clearGraph.clearGraph = triangleABC.clearGraph ∧
        ((triangleABC.addVertex 'Z').run [Op.removeEdge 'A' 'B']).isEmpty = false ∧
        ((triangleABC.addEdge 'A' 'Z' 3).run [Op.removeEdge 'A' 'B']).isEmpty = false) :=
  ⟨by decide, by decide,
    isEmpty_iff_no_vertex triangleABC true false 'Z' 'A' 'Z' 3 [Op.removeEdge 'A' 'B']
      (by decide)⟩

end StoreFrame

/-! ## `dijkstra` on absent sources and unreached vertices, `bfs_queue` on sinks -/

section DijkstraFrame

variable {T : Type} [DecidableEq T]

theorem dijkstraReport_eq_map (source : T) (dist : T → Int) (pred : T → T) (fuel : Nat)
    (P : T → List T) (l : List (T × List (T × Int)))
    (h : ∀ kv ∈ l, walkBack pred source fuel kv.1 [] = some (P kv.1)) :
    dijkstraReport source dist pred fuel l =
      some (l.map (fun kv => { dest := kv.1, distance := dist kv.1, path := P kv.1 })) := by
  induction l with
  | nil => rfl
  | cons kv rest ih =>
    obtain ⟨dest, nbrs⟩ := kv
    have h1 := h (dest, nbrs) (List.mem_cons_self _ _)
    have h2 := ih (fun kv hkv => h kv (List.mem_cons_of_mem _ hkv))
    simp only at h1
    simp [dijkstraReport, h1, h2]

theorem dijkstra_of_absent_source [Inhabited T] [LT T]
    [DecidableRel (fun (a b : T) => a < b)] (g : Graph T) (source : T) (fuel : Nat)
    (h : g.isKey source = false) :
    g.dijkstra source (fuel + 1) =
      .ok { calls := [source]
            report :=
              g.adjList.map (fun kv =>
                { dest := kv.1, distance := INT_MAX, path := [source, kv.1] }) ++
              [{ dest := source, distance := 0, path := [source] }] } := by
  have hnone : mapAt g.adjList source = none := g.mapAt_of_not_isKey source h
  have hadj : mapIndex g.adjList source [] id = g.adjList ++ [(source, [])] := by
    rw [mapIndex_of_absent _ _ _ _ hnone]
    rfl
  have hnb : (mapAt (mapIndex g.adjList source [] id) source).getD [] = [] := by
    rw [mapAt_mapIndex_self, hnone]
    rfl
  have hkeyne : ∀ kv ∈ g.adjList, ¬ kv.1 = source := by
    intro kv hkv heq
    have := mapAt_isSome_of_mem g.adjList kv.1 kv.2 hkv
    rw [heq, hnone] at this
    simp at this
  have hkeysome : ∀ kv ∈ g.adjList, (mapAt g.adjList kv.1).isSome = true :=
    fun kv hkv => mapAt_isSome_of_mem g.adjList kv.1 kv.2 hkv
  unfold Graph.dijkstra
  simp only [dijkstraInit_eq]
  rw [dijkstraLoop_cons fuel _ 0 source [] rfl]
  simp only [hnb, relax]
  rw [dijkstraLoop_nil fuel _ rfl]
  simp only [hadj]
  rw [dijkstraReport_eq_map source _ _ (fuel + 1)
    (fun x => if x = source then [source] else [source, x])]
  · simp only [List.map_append, List.map_cons, List.map_nil, if_true, mapSet]
    have hmap : g.adjList.map (fun kv =>
          ({ dest := kv.1
             distance :=
               if kv.1 = source then 0
               else if (mapAt g.adjList kv.1).isSome = true then INT_MAX else 0
             path := if kv.1 = source then [source] else [source, kv.1] } : ReportLine T)) =
        g.adjList.map (fun kv =>
          { dest := kv.1, distance := INT_MAX, path := [source, kv.1] }) := by
      apply List.map_congr_left
      intro kv hkv
      simp [hkeyne kv hkv, hkeysome kv hkv]
    rw [hmap]
    rfl
  · intro kv hkv
    by_cases hsrc : kv.1 = source
    · rw [hsrc, walkBack_source]
      simp
    · rcases List.mem_append.1 hkv with hk | hk
      · rw [walkBack_step _ _ _ _ _ hsrc]
        simp only [hkeysome kv hk, if_true, walkBack_source, hsrc, if_false]
        simp
      · simp only [List.mem_singleton] at hk
        rw [hk] at hsrc
        exact absurd rfl hsrc

/-- C11 (the code on an absent source): on the graph `A-B(4)`, `A-C(1)`, `C-B(1)`, where
`Z` is not a key, `dijkstra(Z)` returns normally after one visitor call. -/
theorem dijkstra_absent_source_returns :
    triangleABC.isKey 'Z' = false ∧
      (triangleABC.dijkstra 'Z' 1).toOption.map (fun out => out.calls) = some ['Z'] ∧
      (triangleABC.dijkstra 'Z' 1).toOption.map
          (fun out => out.report.map (fun line => (line.dest, line.distance, line.path))) =
        some [('A', 2147483647, ['Z', 'A']), ('B', 2147483647, ['Z', 'B']),
          ('C', 2147483647, ['Z', 'C']), ('Z', 0, ['Z'])] := by
  decide

/-- C11 (amended): when `source` is not a key of the adjacency store, `dijkstra(source)`
does not fail: `adjList[source]` creates the key with an empty neighbor list, the visitor
is called once, on `source`, and the call returns normally, reporting the `int` maximum
and the path `source, v` for every vertex `v` stored before, and `0` and the path
`source` for `source`. -/
theorem dijkstra_absent_source_completes [Inhabited T] [LT T]
    [DecidableRel (fun (a b : T) => a < b)] (g : Graph T) (source : T) (fuel : Nat)
    (h : g.isKey source = false) :
    ∃ out, g.dijkstra source (fuel + 1) = .ok out ∧ out.calls = [source] ∧
      out.report =
        g.adjList.map (fun kv =>
          { dest := kv.1, distance := INT_MAX, path := [source, kv.1] }) ++
        [{ dest := source, distance := 0, path := [source] }] :=
  ⟨_, dijkstra_of_absent_source g source fuel h, rfl, rfl⟩

/-- C11 (amended) on the graph `A-B(4)`, `A-C(1)`, `C-B(1)` with the absent source
`Z`. -/
theorem dijkstra_absent_source_completes_witness :
    triangleABC.isKey 'Z' = false ∧
      ∃ out, triangleABC.dijkstra 'Z' 1 = .ok out ∧ out.calls = ['Z'] ∧
        out.report =
          triangleABC.adjList.map (fun kv =>
            { dest := kv.1, distance := INT_MAX, path := ['Z', kv.1] }) ++
          [{ dest := 'Z', distance := 0, path := ['Z'] }] :=
  ⟨by decide, dijkstra_absent_source_completes triangleABC 'Z' 0 (by decide)⟩

theorem Graph.not_reachable_of_entries (g : Graph T) (s v : T) (hs : s ≠ v)
    (h : ∀ kv ∈ g.adjList, ∀ e ∈ kv.2, e.1 ≠ v) : ¬ g.Reachable s v := by
  intro hr
  have := Graph.Reachable.closure (fun x => x ≠ v) hs
    (fun x _ y w he => by
      obtain ⟨l, hl, hv⟩ := g.mem_neighbors_entry x y w he
      exact h (x, l) hl (y, w) hv) hr
  exact this rfl

theorem triangleWithV_unreached : ¬ triangleWithV.Reachable 'A' 'V' :=
  Graph.not_reachable_of_entries _ 'A' 'V' (by decide) (by decide)

theorem triangleWithV_nonNegative : triangleWithV.NonNegative :=
  Graph.nonNegative_of_entries _ (by decide)

theorem triangleWithV_sumsBelowMax : triangleWithV.SumsBelowMax 'A' :=
  Graph.sumsBelowMax_of_noOverflow _ 'A' triangleWithV_nonNegative
    (Graph.noOverflow_of_bounded _ 'A' 4 (Graph.closed_of_entries _ (by decide))
      (by decide) (by decide) (by decide) (by decide))

theorem dijkstra_unreached_spec [Inhabited T] [LT T]
    [DecidableRel (fun (a b : T) => a < b)] (g : Graph T) (source : T) (fuel : Nat)
    (hnn : g.NonNegative) (hsb : g.SumsBelowMax source) (hf : g.dijkstraFuel ≤ fuel) :
    ∃ out, g.dijkstra source fuel = .ok out ∧
      (∀ v, g.isKey v = true → ∃ line ∈ out.report, line.dest = v) ∧
      ∀ line ∈ out.report, line.dest ≠ source → ¬ g.Reachable source line.dest →
        line.distance = INT_MAX ∧ line.path = [source, line.dest] := by
  cases hs : g.isKey source with
  | false =>
    obtain ⟨f, hfuel⟩ : ∃ f, fuel = f + 1 := by
      unfold Graph.dijkstraFuel at hf
      exact ⟨fuel - 1, by omega⟩
    rw [hfuel]
    refine ⟨_, dijkstra_of_absent_source g source f hs, ?_, ?_⟩
    · intro v hv
      have hm := mem_of_mapAt_eq_some _ _ _ (g.mapAt_of_isKey v hv)
      exact ⟨{ dest := v, distance := INT_MAX, path := [source, v] },
        List.mem_append.2 (Or.inl (List.mem_map.2 ⟨_, hm, rfl⟩)), rfl⟩
    · intro line hl hne _
      rcases List.mem_append.1 hl with h1 | h1
      · obtain ⟨kv, _, hkv⟩ := List.mem_map.1 h1
        rw [← hkv]
        exact ⟨rfl, rfl⟩
      · rw [List.mem_singleton.1 h1] at hne
        exact absurd rfl hne
  | true =>
    obtain ⟨out, st, hrun, hcore, hset, hpq, hmap, hall⟩ :=
      dijkstra_spec g source fuel hnn hs hsb hf
    refine ⟨out, hrun, ?_, ?_⟩
    · intro v hv
      have hm := mem_of_mapAt_eq_some _ _ _ (g.mapAt_of_isKey v hv)
      have hin : v ∈ out.report.map (fun line => line.dest) := by
        rw [hmap]
        exact List.mem_map.2 ⟨_, hm, rfl⟩
      obtain ⟨line, hl, hd⟩ := List.mem_map.1 hin
      exact ⟨line, hl, hd⟩
    · intro line hl hne hunreach
      obtain ⟨hdist, hch⟩ := hall line hl
      have hk : g.isKey line.dest = true := by
        have hin : line.dest ∈ out.report.map (fun line => line.dest) :=
          List.mem_map.2 ⟨line, hl, rfl⟩
        rw [hmap] at hin
        obtain ⟨kv, hkv, hd⟩ := List.mem_map.1 hin
        rw [← hd]
        exact mapAt_isSome_of_mem g.adjList kv.1 kv.2 hkv
      have hinf : st.distances line.dest = INT_MAX := by
        by_contra hcon
        have hlt : st.distances line.dest < INT_MAX := by
          have := (hcore.range line.dest).2
          omega
        obtain ⟨vs, hdp, _⟩ := hcore.path line.dest hk hlt
        exact hunreach ⟨vs, _, hdp.toPath⟩
      exact ⟨by rw [hdist, hinf],
        Chain.of_direct_link hch hne (hcore.unreached line.dest hk hne hinf)⟩

theorem cycleSXY_nonNegative : cycleSXY.NonNegative :=
  Graph.nonNegative_of_entries _ (by decide)

theorem cycleSXY_unreached : ¬ cycleSXY.Reachable 'S' 'V' :=
  Graph.not_reachable_of_entries _ 'S' 'V' (by decide) (by decide)

theorem cycleSXY_never_returns (fuel : Nat) : (cycleSXY.dijkstra 'S' fuel).toOption = none := by
  cases h : cycleSXY.dijkstra 'S' fuel with
  | error e => rfl
  | ok out =>
    have h1 := dijkstra_mono cycleSXY 'S' fuel out h 5
    have h2 := dijkstra_never_returns cycleSXY 'S' 5 'X' 'Y' ['S', 'X', 'Y', 'V']
      (by decide) (by decide) (by decide) (by decide) fuel
    rw [Nat.add_comm, h1] at h2
    simp [Except.toOption] at h2

/-- C17 (the code on an unreached vertex): on the graph `A-B(4)`, `A-C(1)`, `C-B(1)` with
the isolated stored vertex `V`, `dijkstra(A)` reports for `V` the `int` maximum and the
path `A, V`, the source first, not `V, A`. And on the directed graph `S->X(1)`,
`X->Y(2^30)`, `Y->X(2^30)` with the isolated stored vertex `V`, whose weights are
non-negative, relaxing `Y->X` forms `1 + 2^30 + 2^30`, which does not fit an `int`; with
wrap-around the predecessor links of `X` and `Y` end up pointing at each other, the path
loop for `X` never reaches `S`, and `dijkstra(S)` reports nothing, for `V` or any other
vertex, whatever the iteration budget. -/
theorem dijkstra_unreached_report_differs :
    ((triangleWithV.NonNegative ∧ triangleWithV.isKey 'V' = true ∧ 'V' ≠ 'A' ∧
          ¬ triangleWithV.Reachable 'A' 'V') ∧
        (triangleWithV.dijkstra 'A' 17179869178).toOption.map
            (fun out => out.report.map (fun line => (line.dest, line.distance, line.path))) =
          some [('A', 0, ['A']), ('B', 2, ['A', 'C', 'B']), ('C', 1, ['A', 'C']),
            ('V', 2147483647, ['A', 'V'])] ∧
        ['A', 'V'] ≠ ['V', 'A']) ∧
      ((cycleSXY.NonNegative ∧ cycleSXY.isKey 'V' = true ∧ 'V' ≠ 'S' ∧
          ¬ cycleSXY.Reachable 'S' 'V') ∧
        ∀ fuel, (cycleSXY.dijkstra 'S' fuel).toOption = none) :=
  ⟨⟨⟨triangleWithV_nonNegative, by decide, by decide, triangleWithV_unreached⟩, by decide,
      by decide⟩,
    ⟨cycleSXY_nonNegative, by decide, by decide, cycleSXY_unreached⟩,
    cycleSXY_never_returns⟩

/-- C17 (amended): on a graph with non-negative stored weights in which no minimum total
weight from the source plus the weight of a stored edge leaving the vertex it belongs to
reaches the `int` maximum, `dijkstra(source)` returns normally (for every iteration
budget of at least `dijkstraFuel`), reports a line for every stored vertex, and for every
stored vertex `v` other than `source` that is not reachable from `source` it reports the
`int` maximum as distance and the two-element sequence `source, v` as path. -/
theorem dijkstra_unreached_reports_sentinel [Inhabited T] [LT T]
    [DecidableRel (fun (a b : T) => a < b)] (g : Graph T) (source : T) (fuel : Nat)
    (hnn : g.NonNegative) (hsb : g.SumsBelowMax source) (hf : g.dijkstraFuel ≤ fuel) :
    ∃ out, g.dijkstra source fuel = .ok out ∧
      (∀ v, g.isKey v = true → ∃ line ∈ out.report, line.dest = v) ∧
      ∀ line ∈ out.report, line.dest ≠ source → ¬ g.Reachable source line.dest →
        line.distance = 2147483647 ∧ line.path = [source, line.dest] := by
  obtain ⟨out, hrun, hcover, hlines⟩ := dijkstra_unreached_spec g source fuel hnn hsb hf
  refine ⟨out, hrun, hcover, ?_⟩
  intro line hl hne hunreach
  obtain ⟨hd, hp⟩ := hlines line hl hne hunreach
  exact ⟨by rw [hd]; rfl, hp⟩

/-- C17 (amended) on `triangleWithV` from `A`. -/
theorem dijkstra_unreached_reports_sentinel_witness :
    (triangleWithV.NonNegative ∧ triangleWithV.SumsBelowMax 'A' ∧
        triangleWithV.dijkstraFuel ≤ 17179869178) ∧
      ∃ out, triangleWithV.dijkstra 'A' 17179869178 = .ok out ∧
        (∀ v, triangleWithV.isKey v = true → ∃ line ∈ out.report, line.dest = v) ∧
        ∀ line ∈ out.report, line.dest ≠ 'A' → ¬ triangleWithV.Reachable 'A' line.dest →
          line.distance = 2147483647 ∧ line.path = ['A', line.dest] :=
  ⟨⟨triangleWithV_nonNegative, triangleWithV_sumsBelowMax, by decide⟩,
    dijkstra_unreached_reports_sentinel triangleWithV 'A' 17179869178
      triangleWithV_nonNegative triangleWithV_sumsBelowMax (by decide)⟩

/-- C18: the visitor of `dijkstra` fires once per extraction from the priority queue, not
once per vertex: on the graph `A-B(4)`, `A-C(1)`, `C-B(1)`, whose weights are
non-negative, `dijkstra(A)` queues `B` at distance `4` while `A` is expanded and again at
distance `2` while `C` is expanded, and calls the visitor on `A, C, B, B`. -/
theorem dijkstra_visits_per_extraction :
    ∃ (g : Graph Char) (source v : Char) (calls : List Char), g.NonNegative ∧
      (g.dijkstra source g.dijkstraFuel).toOption.map (fun out => out.calls) = some calls ∧
      1 < calls.count v ∧
      g = triangleABC ∧ source = 'A' ∧ v = 'B' ∧ calls = ['A', 'C', 'B', 'B'] ∧
      (relax 'A' (g.neighbors 'A')
          { adjList := g.adjList
            distances :=
              mapSet (dijkstraInit 'A' g.adjList (fun _ => 0, fun _ => default)).1 'A' 0
            previousVertices :=
              (dijkstraInit 'A' g.adjList (fun _ => 0, fun _ => default)).2
            pq := []
            calls := ['A'] }).pq = [(1, 'C'), (4, 'B')] ∧
      (relax 'C' (g.neighbors 'C')
          { (relax 'A' (g.neighbors 'A')
              { adjList := g.adjList
                distances :=
                  mapSet (dijkstraInit 'A' g.adjList (fun _ => 0, fun _ => default)).1 'A' 0
                previousVertices :=
                  (dijkstraInit 'A' g.adjList (fun _ => 0, fun _ => default)).2
                pq := []
                calls := ['A'] }) with
            pq := [(4, 'B')]
            calls := ['A', 'C'] }).pq = [(2, 'B'), (4, 'B')] :=
  ⟨triangleABC, 'A', 'B', ['A', 'C', 'B', 'B'], triangleABC_nonNegative, by decide,
    by decide, rfl, rfl, rfl, rfl, by decide, by decide⟩

/-- C16 (the code at the failing input): on the directed graph built by `addEdge(A,B)`,
`addEdge(B,C)`, `addEdge(A,C)` the vertex `C` is not a key, and `bfs_queue(A)` calls the
visitor on `A, B, C` and then throws `std::out_of_range`, for every iteration budget that
lets it get that far; with `addEdge(A,B)`, `addEdge(A,C)` alone it throws at `B`, before
the second successor `C` is visited. -/
theorem bfs_queue_directed_sink_throws :
    directedABC.isKey 'C' = false ∧
      (∀ fuel, directedABC.bfs_queue 'A' (fuel + 3) =
        .error (Error.outOfRange, ['A', 'B', 'C'])) ∧
      (∀ fuel, (((Graph.new Char false true).addEdge 'A' 'B' 1).addEdge 'A' 'C' 1).bfs_queue
          'A' (fuel + 2) = .error (Error.outOfRange, ['A', 'B'])) :=
  ⟨by decide, fun _ => rfl, fun _ => rfl⟩

end DijkstraFrame

/-! ## The unique-element container `Set` -/

section UniqueContainerLemmas

variable {T : Type} [DecidableEq T]

theorem containsFrom_iff (l : List T) (v : T) : containsFrom l v = true ↔ v ∈ l := by
  induction l with
  | nil => simp [containsFrom]
  | cons x xs ih =>
    by_cases h : x = v
    · simp [containsFrom, h]
    · have h1 : ¬ v = x := fun h2 => h h2.symm
      simp [containsFrom, h, h1, ih]

theorem removeFrom_eq (l : List T) (v : T) :
    removeFrom l v = if v ∈ l then some (l.erase v) else none := by
  induction l with
  | nil => simp [removeFrom]
  | cons x xs ih =>
    by_cases h : x = v
    · subst h
      simp [removeFrom]
    · have h1 : ¬ v = x := fun h2 => h h2.symm
      by_cases hm : v ∈ xs
      · simp [removeFrom, h, h1, ih, hm, List.erase_cons]
      · simp [removeFrom, h, h1, ih, hm]

theorem wrapInt_succ (x : Int) : wrapInt (wrapInt x + 1) = wrapInt (x + 1) := by
  unfold wrapInt
  omega

theorem wrapInt_pred (x : Int) : wrapInt (wrapInt x - 1) = wrapInt (x - 1) := by
  unfold wrapInt
  omega

theorem wrapInt_of_lt (x : Int) (h0 : 0 ≤ x) (h1 : x < 2147483648) : wrapInt x = x := by
  unfold wrapInt
  omega

theorem Set.remove_eq (s : Set T) (v : T) :
    s.remove v =
      if v ∈ s.elems then { elems := s.elems.erase v, size := wrapInt (s.size - 1) }
      else s := by
  obtain ⟨elems, size⟩ := s
  cases elems with
  | nil => simp [Set.remove]
  | cons x xs =>
    by_cases h : x = v
    · subst h
      simp [Set.remove]
    · have h1 : ¬ v = x := fun h2 => h h2.symm
      by_cases hm : v ∈ xs
      · simp [Set.remove, h, h1, removeFrom_eq, hm, List.erase_cons]
      · simp [Set.remove, h, h1, removeFrom_eq, hm]

theorem Set.insert_eq (s : Set T) (v : T) :
    s.insert v =
      if v ∈ s.elems then s else { elems := v :: s.elems, size := wrapInt (s.size + 1) } := by
  unfold Set.insert Set.contains
  by_cases hm : v ∈ s.elems
  · simp [hm, (containsFrom_iff s.elems v).2 hm]
  · have : ¬ containsFrom s.elems v = true := fun h => hm ((containsFrom_iff _ _).1 h)
    simp [hm, this]

theorem Set.wellformed_apply (s : Set T) (op : SetOp T) (h : s.Wellformed) :
    (s.apply op).Wellformed := by
  obtain ⟨hnd, hsz⟩ := h
  cases op with
  | insert v =>
    simp only [Set.apply, Set.insert_eq]
    by_cases hm : v ∈ s.elems
    · simp only [hm, if_true]
      exact ⟨hnd, hsz⟩
    · simp only [hm, if_false]
      refine ⟨List.nodup_cons.2 ⟨hm, hnd⟩, ?_⟩
      simp only [hsz, List.length_cons, wrapInt_succ]
      push_cast
      rfl
  | remove v =>
    simp only [Set.apply, Set.remove_eq]
    by_cases hm : v ∈ s.elems
    · simp only [hm, if_true]
      refine ⟨hnd.erase v, ?_⟩
      have hlen := List.length_erase_of_mem hm
      have hpos : 0 < s.elems.length := List.length_pos_of_mem hm
      have hcast : ((s.elems.length - 1 : Nat) : Int) = (s.elems.length : Int) - 1 := by
        omega
      simp only [hsz, hlen, wrapInt_pred, hcast]
    · simp only [hm, if_false]
      exact ⟨hnd, hsz⟩
  | clear => exact ⟨List.nodup_nil, (wrapInt_of_lt 0 (le_refl _) (by omega)).symm⟩

theorem Set.wellformed_run (ops : List (SetOp T)) (s : Set T) (h : s.Wellformed) :
    (s.run ops).Wellformed := by
  induction ops generalizing s with
  | nil => exact h
  | cons op rest ih => exact ih (s.apply op) (s.wellformed_apply op h)

theorem Set.length_apply_le (s : Set T) (op : SetOp T) :
    (s.apply op).elems.length ≤ s.elems.length + 1 := by
  cases op with
  | insert v =>
    simp only [Set.apply, Set.insert_eq]
    by_cases hm : v ∈ s.elems <;> simp [hm]
  | remove v =>
    simp only [Set.apply, Set.remove_eq]
    by_cases hm : v ∈ s.elems
    · simp only [hm, if_true]
      have := List.length_erase_of_mem hm
      omega
    · simp [hm]
  | clear => simp [Set.apply, Set.clear]

theorem Set.length_run_le (ops : List (SetOp T)) (s : Set T) :
    (s.run ops).elems.length ≤ s.elems.length + ops.length := by
  induction ops generalizing s with
  | nil => simp [Set.run]
  | cons op rest ih =>
    have h1 := ih (s.apply op)
    have h2 := s.length_apply_le op
    simp only [List.length_cons]
    unfold Set.run at h1 ⊢
    simp only [List.foldl_cons]
    omega

theorem Set.run_append (s : Set T) (ops ops1 : List (SetOp T)) :
    s.run (ops ++ ops1) = (s.run ops).run ops1 := by
  unfold Set.run
  exact List.foldl_append _ _ _ _

theorem Set.run_range_insert (n : Nat) :
    (Set.empty : Set Nat).run ((List.range n).map SetOp.insert) =
      { elems := (List.range n).reverse, size := wrapInt n } := by
  induction n with
  | zero => rfl
  | succ n ih =>
    have hm : ¬ n ∈ (List.range n).reverse := by
      rw [List.mem_reverse, List.mem_range]
      omega
    rw [List.range_succ, List.map_append, Set.run_append, ih]
    simp only [List.map_cons, List.map_nil, Set.run, List.foldl_cons, List.foldl_nil,
      Set.apply, Set.insert_eq, hm, if_false, wrapInt_succ, List.reverse_append,
      List.reverse_cons, List.reverse_nil, List.nil_append, List.singleton_append]
    push_cast
    rfl

theorem Set.run_range_insert_spec (n : Nat) :
    ((Set.empty : Set Nat).run ((List.range n).map SetOp.insert)).elems.Nodup ∧
      ((Set.empty : Set Nat).run ((List.range n).map SetOp.insert)).elems.length = n ∧
      ((Set.empty : Set Nat).run ((List.range n).map SetOp.insert)).getSize = wrapInt n := by
  have h := Set.run_range_insert n
  refine ⟨?_, ?_, ?_⟩
  · rw [h]
    exact List.nodup_reverse.2 (List.nodup_range _)
  · rw [h]
    exact (List.length_reverse _).trans (List.length_range _)
  · simp only [Set.getSize, h]

/-- C19 (the code once the counter leaves the `int` range): after the calls `insert(0)`,
`insert(1)`, ..., `insert(2^31 - 1)` on an initially empty `Set` the `2^31` stored
elements are pairwise distinct, and the `int` counter, incremented `2^31` times, has
wrapped around: `getSize()` returns `-2^31`, not the number of stored elements. -/
theorem set_size_wraps_around :
    ((Set.empty : Set Nat).run ((List.range 2147483648).map SetOp.insert)).elems.Nodup ∧
      ((Set.empty : Set Nat).run
        ((List.range 2147483648).map SetOp.insert)).elems.length = 2147483648 ∧
      ((Set.empty : Set Nat).run
        ((List.range 2147483648).map SetOp.insert)).getSize = -2147483648 := by
  have h := Set.run_range_insert_spec 2147483648
  refine ⟨h.1, h.2.1, h.2.2.trans ?_⟩
  unfold wrapInt
  omega

/-- C19 (amended): after any sequence of `insert`, `remove` and `clear` calls on an
initially empty `Set`, the stored elements are pairwise distinct, there are at most as
many of them as calls were made, `getSize()` is their number reduced to the `int` range
and hence their number whenever fewer than `2^31` elements are stored, inserting a value
that is contained changes nothing, and `contains(v)` is false immediately after
`remove(v)`. -/
theorem set_elements_distinct_and_counted (ops : List (SetOp T)) (v : T) :
    ((Set.empty : Set T).run ops).elems.Nodup ∧
      ((Set.empty : Set T).run ops).elems.length ≤ ops.length ∧
      ((Set.empty : Set T).run ops).getSize =
        wrapInt ((Set.empty : Set T).run ops).elems.length ∧
      (((Set.empty : Set T).run ops).elems.length < 2147483648 →
        ((Set.empty : Set T).run ops).getSize = ((Set.empty : Set T).run ops).elems.length) ∧
      (((Set.empty : Set T).run ops).contains v = true →
        ((Set.empty : Set T).run ops).insert v = (Set.empty : Set T).run ops) ∧
      ((((Set.empty : Set T).run ops).remove v).contains v = false) := by
  have hwf : ((Set.empty : Set T).run ops).Wellformed :=
    Set.wellformed_run ops _
      ⟨List.nodup_nil, (wrapInt_of_lt 0 (le_refl _) (by omega)).symm⟩
  have hlen := Set.length_run_le ops (Set.empty : Set T)
  obtain ⟨hnd, hsz⟩ := hwf
  refine ⟨hnd, ?_, hsz, ?_, ?_, ?_⟩
  · simp only [Set.empty, List.length_nil, Nat.zero_add] at hlen
    exact hlen
  · intro hlt
    unfold Set.getSize
    rw [hsz]
    exact wrapInt_of_lt _ (by omega) (by omega)
  · intro hc
    have hm : v ∈ ((Set.empty : Set T).run ops).elems := (containsFrom_iff _ _).1 hc
    rw [Set.insert_eq]
    simp [hm]
  · have hnot : ¬ containsFrom ((((Set.empty : Set T).run ops).remove v).elems) v = true := by
      rw [containsFrom_iff, Set.remove_eq]
      by_cases hm : v ∈ ((Set.empty : Set T).run ops).elems
      · simp only [hm, if_true]
        exact fun h => (List.Nodup.mem_erase_iff hnd).1 h |>.1 rfl
      · simp [hm]
    unfold Set.contains
    cases hc : containsFrom ((((Set.empty : Set T).run ops).remove v).elems) v with
    | true => exact absurd hc hnot
    | false => rfl

/-- C19 (amended) on `insert 1, insert 2, insert 1, remove 1, insert 3` over the natural
numbers: the elements are `3, 2`, fewer than `2^31`, the size is `2`, and inserting the
contained value `2` changes nothing. -/
theorem set_elements_distinct_and_counted_witness :
    ((Set.empty : Set Nat).run
        [SetOp.insert 1, SetOp.insert 2, SetOp.insert 1, SetOp.remove 1,
          SetOp.insert 3]).elems = [3, 2] ∧
      ((Set.empty : Set Nat).run
        [SetOp.insert 1, SetOp.insert 2, SetOp.insert 1, SetOp.remove 1,
          SetOp.insert 3]).elems.length < 2147483648 ∧
      ((Set.empty : Set Nat).run
        [SetOp.insert 1, SetOp.insert 2, SetOp.insert 1, SetOp.remove 1,
          SetOp.insert 3]).contains 2 = true ∧
      ((Set.empty : Set Nat).run
          [SetOp.insert 1, SetOp.insert 2, SetOp.insert 1, SetOp.remove 1,
            SetOp.insert 3]).getSize =
        ((Set.empty : Set Nat).run
          [SetOp.insert 1, SetOp.insert 2, SetOp.insert 1, SetOp.remove 1,
            SetOp.insert 3]).elems.length ∧
      ((Set.empty : Set Nat).run
          [SetOp.insert 1, SetOp.insert 2, SetOp.insert 1, SetOp.remove 1,
            SetOp.insert 3]).insert 2 =
        (Set.empty : Set Nat).run
          [SetOp.insert 1, SetOp.insert 2, SetOp.insert 1, SetOp.remove 1, SetOp.insert 3] :=
  ⟨by decide, by decide, by decide,
    (set_elements_distinct_and_counted
      [SetOp.insert 1, SetOp.insert 2, SetOp.insert 1, SetOp.remove 1, SetOp.insert 3]
      2).2.2.2.1 (by decide),
    (set_elements_distinct_and_counted
      [SetOp.insert 1, SetOp.insert 2, SetOp.insert 1, SetOp.remove 1, SetOp.insert 3]
      2).2.2.2.2.1 (by decide)⟩

end UniqueContainerLemmas

/-! ## `dfs_stack` is the recursive `dfs` on reversed neighbor lists -/

section DfsRefinement

variable {T : Type} [DecidableEq T]

theorem mapAt_reverseLists (g : Graph T) (v : T) :
    mapAt g.reverseLists.adjList v = (mapAt g.adjList v).map List.reverse := by
  unfold Graph.reverseLists
  simp only
  induction g.adjList with
  | nil => simp [mapAt]
  | cons kv rest ih =>
    obtain ⟨k, l⟩ := kv
    by_cases h : k = v
    · simp [mapAt, h]
    · simp [mapAt, h, ih]

theorem Graph.isKey_reverseLists (g : Graph T) (v : T) :
    g.reverseLists.isKey v = g.isKey v := by
  unfold Graph.isKey
  rw [mapAt_reverseLists]
  cases mapAt g.adjList v <;> rfl

theorem Graph.neighbors_reverseLists (g : Graph T) (v : T) :
    g.reverseLists.neighbors v = (g.neighbors v).reverse := by
  unfold Graph.neighbors
  rw [mapAt_reverseLists]
  cases mapAt g.adjList v <;> rfl

theorem Graph.closed_reverseLists (g : Graph T) (hc : g.Closed) : g.reverseLists.Closed := by
  intro u v w he
  rw [g.neighbors_reverseLists, List.mem_reverse] at he
  rw [g.isKey_reverseLists]
  exact hc u v w he

theorem Graph.budget_reverseLists (g : Graph T) (V : List T) :
    g.reverseLists.budget V = g.budget V := by
  unfold Graph.budget
  have hnb : ∀ k, (g.reverseLists.neighbors k).length = (g.neighbors k).length := by
    intro k
    rw [g.neighbors_reverseLists, List.length_reverse]
  simp only [hnb]
  unfold Graph.reverseLists
  simp only
  induction g.adjList with
  | nil => rfl
  | cons kv rest ih =>
    simp only [List.map_cons, List.filter_cons]
    by_cases h : kv.1 ∈ V
    · simp only [h, not_true_eq_false, decide_False, Bool.false_eq_true, if_false]
      exact ih
    · simp only [h, not_false_eq_true, decide_True, if_true, List.map_cons, List.sum_cons, ih]

theorem dfsNeighbors_rel (g : Graph T) (rec : T → Trav T → TravResult T)
    (hrec : ∀ a st st1, rec a st = .ok st1 →
      ∃ nbrs, mapAt g.adjList a = some nbrs ∧
        DfsList g (nbrs.map (fun e => e.1))
          { visited := st.visited.insert a, calls := st.calls ++ [a] } st1)
    (nbrs : List (T × Int)) :
    ∀ st st1, dfsNeighbors rec nbrs st = .ok st1 →
      DfsList g (nbrs.map (fun e => e.1)) st st1 := by
  induction nbrs with
  | nil =>
    intro st st1 h
    simp only [dfsNeighbors, Except.ok.injEq] at h
    rw [← h]
    exact DfsList.done st
  | cons e rest ih =>
    obtain ⟨a, w⟩ := e
    intro st st1 h
    by_cases hvis : a ∈ st.visited
    · simp only [dfsNeighbors, hvis, if_true] at h
      exact DfsList.pass hvis (ih st st1 h)
    · simp only [dfsNeighbors, hvis, if_false] at h
      cases hr : rec a st with
      | error e =>
        rw [hr] at h
        simp at h
      | ok st2 =>
        rw [hr] at h
        simp only at h
        obtain ⟨nb, hnb, hd⟩ := hrec a st st2 hr
        exact DfsList.visit hvis hnb hd (ih st2 st1 h)

theorem dfsUtil_rel (g : Graph T) (fuel : Nat) :
    ∀ v st st1, dfsUtil g fuel v st = .ok st1 →
      ∃ nbrs, mapAt g.adjList v = some nbrs ∧
        DfsList g (nbrs.map (fun e => e.1))
          { visited := st.visited.insert v, calls := st.calls ++ [v] } st1 := by
  induction fuel with
  | zero =>
    intro v st st1 h
    simp [dfsUtil] at h
  | succ fuel ih =>
    intro v st st1 h
    cases hm : mapAt g.adjList v with
    | none => simp [dfsUtil, hm] at h
    | some nbrs =>
      simp only [dfsUtil, hm] at h
      exact ⟨nbrs, rfl, dfsNeighbors_rel g (dfsUtil g fuel) ih nbrs _ _ h⟩

theorem DfsList.visited_mono {g : Graph T} {l : List T} {st st1 : Trav T}
    (h : DfsList g l st st1) : ∀ x ∈ st.visited, x ∈ st1.visited := by
  induction h with
  | done st => exact fun _ hx => hx
  | pass _ _ ih => exact ih
  | visit _ _ _ _ ih1 ih2 =>
    intro x hx
    exact ih2 x (ih1 x (List.mem_insert_of_mem hx))

theorem dfsStackPush_eq (visited : List T) (nbrs : List (T × Int)) (stack : List T) :
    dfsStackPush visited nbrs stack =
      ((nbrs.reverse.map (fun e => e.1)).filter (fun x => decide (x ∉ visited))) ++ stack := by
  induction nbrs generalizing stack with
  | nil => simp [dfsStackPush]
  | cons e rest ih =>
    obtain ⟨a, w⟩ := e
    by_cases ha : a ∈ visited
    · simp [dfsStackPush, ha, ih, List.filter_append, List.filter_cons]
    · simp [dfsStackPush, ha, ih, List.filter_append, List.filter_cons]

theorem dfsStackLoop_nil (g : Graph T) (fuel : Nat) (st : Trav T) :
    dfsStackLoop g fuel [] st = .ok st := by
  cases fuel <;> rfl

theorem dfsStackLoop_fuel_mono (g : Graph T) (fuel : Nat) :
    ∀ (k : Nat) stack st st1, dfsStackLoop g fuel stack st = .ok st1 →
      dfsStackLoop g (fuel + k) stack st = .ok st1 := by
  induction fuel with
  | zero =>
    intro k stack st st1 h
    cases stack with
    | nil =>
      rw [dfsStackLoop_nil] at h ⊢
      exact h
    | cons x rest => simp [dfsStackLoop] at h
  | succ fuel ih =>
    intro k stack st st1 h
    cases stack with
    | nil =>
      rw [dfsStackLoop_nil] at h ⊢
      exact h
    | cons x rest =>
      have hk : fuel + 1 + k = (fuel + k) + 1 := by omega
      rw [hk]
      by_cases hvis : x ∈ st.visited
      · simp only [dfsStackLoop, hvis, if_true] at h ⊢
        exact ih k _ _ _ h
      · cases hm : mapAt g.adjList x with
        | none => simp [dfsStackLoop, hvis, hm] at h
        | some nbrs =>
          simp only [dfsStackLoop, hvis, if_false, hm] at h ⊢
          exact ih k _ _ _ h

theorem dfsStackLoop_of_dfsList (g : Graph T) {l : List T} {st st1 : Trav T}
    (h : DfsList g.reverseLists l st st1) :
    ∀ (V rest : List T), (∀ x ∈ V, x ∈ st.visited) →
      ∃ n, ∀ fuel,
        dfsStackLoop g (n + fuel) (l.filter (fun x => decide (x ∉ V)) ++ rest) st =
          dfsStackLoop g fuel rest st1 := by
  induction h with
  | done st =>
    intro V rest _
    exact ⟨0, fun fuel => by simp⟩
  | @pass x xs st st1 hvis _ ih =>
    intro V rest hV
    obtain ⟨n, hn⟩ := ih V rest hV
    by_cases hx : x ∈ V
    · refine ⟨n, fun fuel => ?_⟩
      simp only [List.filter_cons, hx, not_true_eq_false, decide_False, Bool.false_eq_true,
        if_false]
      exact hn fuel
    · refine ⟨n + 1, fun fuel => ?_⟩
      have hk : n + 1 + fuel = (n + fuel) + 1 := by omega
      rw [hk]
      simp only [List.filter_cons, hx, not_false_eq_true, decide_True, if_true,
        List.cons_append, dfsStackLoop, hvis]
      exact hn fuel
  | @visit x xs nbrsR st st1 st2 hvis hmR _ hd2 ih1 ih2 =>
    intro V rest hV
    have hx : x ∉ V := fun hin => hvis (hV x hin)
    obtain ⟨nbrs, hm, hrev⟩ : ∃ nbrs, mapAt g.adjList x = some nbrs ∧
        nbrs.reverse = nbrsR := by
      rw [mapAt_reverseLists] at hmR
      cases hm : mapAt g.adjList x with
      | none => simp [hm] at hmR
      | some nbrs =>
        rw [hm] at hmR
        exact ⟨nbrs, rfl, by simpa using hmR⟩
    obtain ⟨n1, hn1⟩ := ih1 (st.visited.insert x)
      (xs.filter (fun y => decide (y ∉ V)) ++ rest) (fun y hy => hy)
    have hV1 : ∀ y ∈ V, y ∈ st1.visited := by
      intro y hy
      have h0 : y ∈ st.visited.insert x := List.mem_insert_of_mem (hV y hy)
      rename_i hd1
      exact DfsList.visited_mono hd1 y h0
    obtain ⟨n2, hn2⟩ := ih2 V rest hV1
    refine ⟨n1 + n2 + 1, fun fuel => ?_⟩
    have hk : n1 + n2 + 1 + fuel = (n1 + (n2 + fuel)) + 1 := by omega
    rw [hk]
    simp only [List.filter_cons, hx, not_false_eq_true, decide_True, if_true,
      List.cons_append, dfsStackLoop, hvis, if_false, hm, dfsStackPush_eq, hrev]
    rw [hn1 (n2 + fuel)]
    exact hn2 fuel

/-- C20: when the start vertex is a key and every vertex named in a neighbor list is a
key, `dfs_stack(start)` and the recursive `dfs(start)` on the graph with every neighbor
list reversed both return normally (for all iteration budgets of at least `fuelBound`)
in the same final state: the same sequence of visitor calls and the same visited set. -/
theorem dfs_stack_eq_dfs_reversed (g : Graph T) (start : T) (fuel1 fuel2 : Nat)
    (hs : g.isKey start = true) (hc : g.Closed) (hf1 : g.fuelBound ≤ fuel1)
    (hf2 : g.fuelBound ≤ fuel2) :
    ∃ st, g.dfs_stack start fuel1 = .ok st ∧ g.reverseLists.dfs start fuel2 = .ok st := by
  have hbn := g.budget_nil
  have hsR : g.reverseLists.isKey start = true := by rw [g.isKey_reverseLists]; exact hs
  have hbR : g.reverseLists.budget ([] : List T) ≤ fuel2 := by
    rw [g.budget_reverseLists]
    omega
  obtain ⟨st2, ds, hrun2, _, _⟩ :=
    dfsUtil_spec g.reverseLists (g.closed_reverseLists hc) fuel2 start
      { visited := [], calls := [] } hsR (by simp) hbR
  obtain ⟨nbrsR, hmR, hd⟩ := dfsUtil_rel g.reverseLists fuel2 start _ st2 hrun2
  have hrel : DfsList g.reverseLists [start] { visited := [], calls := [] } st2 :=
    DfsList.visit (by simp) hmR hd (DfsList.done st2)
  obtain ⟨n, hn⟩ := dfsStackLoop_of_dfsList g hrel [] [] (by simp)
  have hinv0 : StackInv g start [start] { visited := [], calls := [] } := by
    refine ⟨List.nodup_nil, by simp, ?_, by simp, by simp, by simp⟩
    intro x hx
    rw [List.mem_singleton.1 hx]
    exact Graph.Reachable.self g start
  obtain ⟨st1, hrun1, _⟩ := dfsStackLoop_spec g hc start hs fuel1 _ _ hinv0
    (by simp only [List.length_singleton]; omega)
  have h1 := dfsStackLoop_fuel_mono g fuel1 n _ _ _ hrun1
  have h2 := hn fuel1
  simp only [List.filter_cons, List.not_mem_nil, not_false_eq_true, decide_True, if_true,
    List.filter_nil, List.append_nil, dfsStackLoop_nil] at h2
  rw [Nat.add_comm, h2] at h1
  have heq : st2 = st1 := by
    simpa using h1
  refine ⟨st1, hrun1, ?_⟩
  rw [← heq]
  exact hrun2

/-- C20 on the graph `A-B(4)`, `A-C(1)`, `C-B(1)` from `A`: both traversals call the
visitor on `A, C, B`. -/
theorem dfs_stack_eq_dfs_reversed_witness :
    (triangleABC.isKey 'A' = true ∧ triangleABC.Closed ∧ triangleABC.fuelBound ≤ 10) ∧
      (triangleABC.dfs_stack 'A' 10).toOption.map (fun st => st.calls) =
        some ['A', 'C', 'B'] ∧
      (triangleABC.reverseLists.dfs 'A' 10).toOption.map (fun st => st.calls) =
        some ['A', 'C', 'B'] ∧
      ∃ st, triangleABC.dfs_stack 'A' 10 = .ok st ∧
        triangleABC.reverseLists.dfs 'A' 10 = .ok st :=
  ⟨⟨by decide, triangleABC_closed, by decide⟩, by decide, by decide,
    dfs_stack_eq_dfs_reversed triangleABC 'A' 10 10 (by decide) triangleABC_closed
      (by decide) (by decide)⟩

end DfsRefinement

/-! ## Undirected graphs keep every named neighbor as a key -/

section UndirectedClosed

variable {T : Type} [DecidableEq T]

theorem mapIndex_entries (K : T → Prop) (m : List (T × List (T × Int))) (k : T)
    (f : List (T × Int) → List (T × Int)) (hm : ∀ kv ∈ m, ∀ e ∈ kv.2, K e.1)
    (hf : ∀ l : List (T × Int), (∀ e ∈ l, K e.1) → ∀ e ∈ f l, K e.1) :
    ∀ kv ∈ mapIndex m k [] f, ∀ e ∈ kv.2, K e.1 :=
  mapIndex_forall (fun (l : List (T × Int)) => ∀ e ∈ l, K e.1) m k [] f hm hf (by simp)

theorem Graph.entriesClosed_apply (g : Graph T) (op : Op T) (hd : g.isDirected = false)
    (h : g.EntriesClosed) : (g.apply op).isDirected = false ∧ (g.apply op).EntriesClosed := by
  have hrem : ∀ (K : T → Prop) (x : T × Int) (l : List (T × Int)),
      (∀ e ∈ l, K e.1) → ∀ e ∈ listRemove l x, K e.1 :=
    fun K x l hl e he => hl e (List.mem_of_mem_filter he)
  have happ : ∀ (K : T → Prop) (x : T × Int), K x.1 →
      ∀ l : List (T × Int), (∀ e ∈ l, K e.1) → ∀ e ∈ l ++ [x], K e.1 := by
    intro K x hx l hl e he
    rcases List.mem_append.1 he with he | he
    · exact hl e he
    · rw [List.mem_singleton.1 he]
      exact hx
  have hold : ∀ s d, ∀ kv ∈ g.adjList, ∀ e ∈ kv.2,
      ((mapAt g.adjList e.1).isSome = true ∨ e.1 = s ∨ e.1 = d) :=
    fun s d kv hkv e he => Or.inl (h kv hkv e he)
  cases op with
  | addVertex v =>
    refine ⟨hd, ?_⟩
    intro kv hkv e he
    have hall := mapIndex_entries (fun x => (mapAt g.adjList x).isSome = true) g.adjList v
      (fun _ => []) h (fun _ _ e he => by simp at he)
    have hk := hall kv hkv e he
    simp only [Graph.apply, Graph.addVertex, Graph.isKey, isSome_mapAt_mapIndex] at hk ⊢
    simp [hk]
  | addEdge s d w =>
    refine ⟨by simp [Graph.apply, Graph.addEdge, hd], ?_⟩
    have h1 := mapIndex_entries
      (fun x => (mapAt g.adjList x).isSome = true ∨ x = s ∨ x = d) g.adjList s
      (fun l => l ++ [(d, g.effWeight w)]) (hold s d)
      (happ (fun x => (mapAt g.adjList x).isSome = true ∨ x = s ∨ x = d)
        (d, g.effWeight w) (Or.inr (Or.inr rfl)))
    have h2 := mapIndex_entries
      (fun x => (mapAt g.adjList x).isSome = true ∨ x = s ∨ x = d) _ d
      (fun l => l ++ [(s, g.effWeight w)]) h1
      (happ (fun x => (mapAt g.adjList x).isSome = true ∨ x = s ∨ x = d)
        (s, g.effWeight w) (Or.inr (Or.inl rfl)))
    intro kv hkv e he
    simp only [Graph.apply, Graph.addEdge, hd, Bool.false_eq_true, if_false] at hkv
    have hk := h2 kv hkv e he
    simp only [Graph.apply, Graph.addEdge, hd, Bool.false_eq_true, if_false, Graph.isKey,
      isSome_mapAt_mapIndex, Bool.or_eq_true, decide_eq_true_eq]
    tauto
  | removeEdge s d =>
    refine ⟨by simp [Graph.apply, Graph.removeEdge, hd], ?_⟩
    have h1 := mapIndex_entries
      (fun x => (mapAt g.adjList x).isSome = true ∨ x = s ∨ x = d) g.adjList s
      (fun l => listRemove l (d, g.removeKey)) (hold s d)
      (hrem (fun x => (mapAt g.adjList x).isSome = true ∨ x = s ∨ x = d) (d, g.removeKey))
    have h2 := mapIndex_entries
      (fun x => (mapAt g.adjList x).isSome = true ∨ x = s ∨ x = d) _ d
      (fun l => listRemove l (s, g.removeKey)) h1
      (hrem (fun x => (mapAt g.adjList x).isSome = true ∨ x = s ∨ x = d) (s, g.removeKey))
    intro kv hkv e he
    simp only [Graph.apply, Graph.removeEdge, hd, Bool.false_eq_true, if_false] at hkv
    have hk := h2 kv hkv e he
    simp only [Graph.apply, Graph.removeEdge, hd, Bool.false_eq_true, if_false, Graph.isKey,
      isSome_mapAt_mapIndex, Bool.or_eq_true, decide_eq_true_eq]
    tauto
  | clearGraph =>
    refine ⟨hd, ?_⟩
    intro kv hkv
    simp [Graph.apply, Graph.clearGraph] at hkv

theorem Graph.entriesClosed_run (ops : List (Op T)) (g : Graph T)
    (hd : g.isDirected = false) (h : g.EntriesClosed) : (g.run ops).EntriesClosed := by
  induction ops generalizing g with
  | nil => exact h
  | cons op rest ih =>
    have h1 := g.entriesClosed_apply op hd h
    exact ih (g.apply op) h1.1 h1.2

/-- C21: in a graph constructed as undirected, after any sequence of `addVertex`,
`addEdge`, `removeEdge` and `clearGraph` calls from the empty graph, every vertex that
appears in a stored neighbor list is a key of the adjacency store; so `dfs`, `dfs_stack`
and `bfs_queue` started at a stored vertex return normally (for every iteration budget of
at least `fuelBound`), none of them meeting a missing neighbor list. -/
theorem undirected_neighbors_are_keys (weighted : Bool) (ops : List (Op T)) :
    (∀ k l v w, (k, l) ∈ ((Graph.new T weighted false).run ops).adjList → (v, w) ∈ l →
        ((Graph.new T weighted false).run ops).isKey v = true) ∧
      ∀ start fuel, ((Graph.new T weighted false).run ops).isKey start = true →
        ((Graph.new T weighted false).run ops).fuelBound ≤ fuel →
        (∃ st, ((Graph.new T weighted false).run ops).dfs start fuel = .ok st) ∧
          (∃ st, ((Graph.new T weighted false).run ops).dfs_stack start fuel = .ok st) ∧
          (∃ st, ((Graph.new T weighted false).run ops).bfs_queue start fuel = .ok st) := by
  have hent : ((Graph.new T weighted false).run ops).EntriesClosed :=
    Graph.entriesClosed_run ops _ rfl (by
      intro kv hkv
      simp [Graph.new] at hkv)
  have hc := Graph.closed_of_entries _ hent
  refine ⟨fun k l v w hk hv => hent (k, l) hk (v, w) hv, ?_⟩
  intro start fuel hs hf
  have hbn := ((Graph.new T weighted false).run ops).budget_nil
  have hb : ((Graph.new T weighted false).run ops).budget [] ≤ fuel := by omega
  refine ⟨?_, ?_, ?_⟩
  · obtain ⟨st, ds, hrun, _, _⟩ :=
      dfsUtil_spec _ hc fuel start { visited := [], calls := [] } hs (by simp) hb
    exact ⟨st, hrun⟩
  · have hinv0 : StackInv ((Graph.new T weighted false).run ops) start [start]
        { visited := [], calls := [] } := by
      refine ⟨List.nodup_nil, by simp, ?_, by simp, by simp, by simp⟩
      intro x hx
      rw [List.mem_singleton.1 hx]
      exact Graph.Reachable.self _ start
    obtain ⟨st, hrun, _⟩ := dfsStackLoop_spec _ hc start hs fuel _ _ hinv0
      (by simp only [List.length_singleton]; omega)
    exact ⟨st, hrun⟩
  · obtain ⟨st, hrun, _⟩ := bfs_queue_spec _ start fuel hs hc hf
    exact ⟨st, hrun⟩

/-- C21 on the undirected graph built by `addEdge(A,B,4)`, `addEdge(A,C,1)`,
`addEdge(C,B,1)`: `B`, named in the list of `A`, is a key, and the three traversals from
`A` return normally. -/
theorem undirected_neighbors_are_keys_witness :
    (('A', [('B', (4 : Int)), ('C', 1)]) ∈
        ((Graph.new Char true false).run
          [Op.addEdge 'A' 'B' 4, Op.addEdge 'A' 'C' 1, Op.addEdge 'C' 'B' 1]).adjList ∧
      ('B', (4 : Int)) ∈ [('B', (4 : Int)), ('C', 1)] ∧
      ((Graph.new Char true false).run
        [Op.addEdge 'A' 'B' 4, Op.addEdge 'A' 'C' 1, Op.addEdge 'C' 'B' 1]).isKey 'A' = true ∧
      ((Graph.new Char true false).run
        [Op.addEdge 'A' 'B' 4, Op.addEdge 'A' 'C' 1, Op.addEdge 'C' 'B' 1]).fuelBound ≤ 10) ∧
      ((Graph.new Char true false).run
        [Op.addEdge 'A' 'B' 4, Op.addEdge 'A' 'C' 1, Op.addEdge 'C' 'B' 1]).isKey 'B' = true ∧
      ((∃ st, ((Graph.new Char true false).run
          [Op.addEdge 'A' 'B' 4, Op.addEdge 'A' 'C' 1, Op.addEdge 'C' 'B' 1]).dfs 'A' 10 =
            .ok st) ∧
        (∃ st, ((Graph.new Char true false).run
          [Op.addEdge 'A' 'B' 4, Op.addEdge 'A' 'C' 1, Op.addEdge 'C' 'B' 1]).dfs_stack 'A' 10 =
            .ok st) ∧
        (∃ st, ((Graph.new Char true false).run
          [Op.addEdge 'A' 'B' 4, Op.addEdge 'A' 'C' 1, Op.addEdge 'C' 'B' 1]).bfs_queue 'A' 10 =
            .ok st)) :=
  ⟨⟨by decide, by decide, by decide, by decide⟩,
    (undirected_neighbors_are_keys true
      [Op.addEdge 'A' 'B' 4, Op.addEdge 'A' 'C' 1, Op.addEdge 'C' 'B' 1]).1
      'A' [('B', 4), ('C', 1)] 'B' 4 (by decide) (by decide),
    (undirected_neighbors_are_keys true
      [Op.addEdge 'A' 'B' 4, Op.addEdge 'A' 'C' 1, Op.addEdge 'C' 'B' 1]).2
      'A' 10 (by decide) (by decide)⟩

end UndirectedClosed

end DSPP
